import Mathlib

/-!
# FOLLOW-set computation (`src/follow.cpp`)

A shallow embedding of `Follow::compute` and of the helpers it uses, followed by
theorems about the embedding.

Conventions of the embedding

* `std::string` is `String`.  The source compares whole strings, searches for the
  ASCII text `->`, cuts at ASCII positions and strips ASCII quotes and blanks, so
  on valid UTF-8 text working on code points instead of bytes changes nothing.
* `std::set<std::string>` is `Finset String`; `size()` is `Finset.card`.
* `std::map<std::string, std::set<std::string>>` is a function
  `String → Option (Finset String)`; `none` means that the key has no entry.
  `operator[]` creates an empty entry when the key is absent, `at` raises when the
  key is absent, `find` does neither.
* a raised exception (`std::out_of_range` from `at`) is the value `none` of the
  loops, and `Result.raised` of the whole computation.
* the `while (changed)` loop is iterated with an explicit supply of passes;
  `compute` hands it a supply that is proved to be sufficient for every input.
-/

namespace Follow

/-! ## Strings -/

/-- The single quote character. -/
def quote : Char := Char.ofNat 39

/-- Blank characters removed by `trim`. -/
def isBlank (c : Char) : Bool :=
  c == ' ' || c == '\t' || c == '\n' || c == '\r' || c == Char.ofNat 11 || c == Char.ofNat 12

/-- Modelled from the spec: `trim` of `utils.h` is not part of the sources at hand.
The spec says "trim surrounding whitespace": blanks are removed at both ends. -/
def trim (s : String) : String :=
  ⟨((s.data.dropWhile isBlank).reverse.dropWhile isBlank).reverse⟩

/-- Fields of a character list separated by `delim` (helper of `split`). -/
def splitChars (delim : Char) : List Char → List (List Char)
  | [] => [[]]
  | c :: cs =>
    if c = delim then [] :: splitChars delim cs
    else
      match splitChars delim cs with
      | [] => [[c]]
      | f :: fs => (c :: f) :: fs

/-- Modelled from the spec: `split` of `utils.h` is not part of the sources at hand.
The spec says "split on the alternation delimiter" and "split on whitespace into
tokens": the fields between the occurrences of `delim`, in order. -/
def split (s : String) (delim : Char) : List String :=
  (splitChars delim s.data).map String.mk

/-- Search of a pattern from position `i` on (helper of `find`). -/
def findFrom (pat : List Char) : List Char → Nat → Option Nat
  | [], i => if pat = [] then some i else none
  | c :: cs, i => if pat.isPrefixOf (c :: cs) then some i else findFrom pat cs (i + 1)

/-- `std::string::find`: position of the first occurrence, `none` for `npos`. -/
def find (s pat : String) : Option Nat := findFrom pat.data s.data 0

/-- `std::string::substr(pos, len)`. -/
def substr (s : String) (pos len : Nat) : String := ⟨(s.data.drop pos).take len⟩

/-- `std::string::substr(pos)`. -/
def substrFrom (s : String) (pos : Nat) : String := ⟨s.data.drop pos⟩

/-- `is_eps`: recognises epsilon under its usual aliases. -/
def is_eps (s : String) : Bool :=
  s == "''" || s == "ε" || s == "EPS" || s == "epsilon"

/-- `is_quoted_terminal`: a terminal written as `'a'`. -/
def is_quoted_terminal (x : String) : Bool :=
  decide (x.length ≥ 2) && x.data.head? == some quote && x.data.getLast? == some quote

/-! ## Data model -/

/-- The grammar read by `Follow::compute` (fields used by the source). -/
structure Grammar where
  nonTerminals : Finset String
  initialState : String
  rules : List String

/-- The FIRST-set oracle: `first.firstSets`. -/
structure First where
  firstSets : String → Option (Finset String)

/-- The member `followSets`. -/
abbrev FollowSets := String → Option (Finset String)

/-- Value read through `followSets[k]` (empty when the entry is created by the access). -/
def FollowSets.get (m : FollowSets) (k : String) : Finset String := (m k).getD ∅

/-- Effect of an access `followSets[k]` on the map: the entry exists afterwards. -/
def FollowSets.touch (m : FollowSets) (k : String) : FollowSets :=
  Function.update m k (some (m.get k))

/-- Effect of `followSets[k].insert(...)` for every element of `s`. -/
def FollowSets.insertAll (m : FollowSets) (k : String) (s : Finset String) : FollowSets :=
  Function.update m k (some (m.get k ∪ s))

/-- The variables mutated by the loops: `followSets` and `changed`. -/
structure State where
  followSets : FollowSets
  changed : Bool

/-- The pattern `before = followSets[k].size(); insert ...; if (size() > before) changed = true`. -/
def State.add (st : State) (k : String) (s : Finset String) : State :=
  let before := (st.followSets.get k).card
  let fs := st.followSets.insertAll k s
  ⟨fs, if (fs.get k).card > before then true else st.changed⟩

/-- A range-based `for` loop whose body may raise. -/
def forEach {α : Type} (body : α → State → Option State) : List α → State → Option State
  | [], st => some st
  | a :: as, st =>
    match body a st with
    | none => none
    | some st1 => forEach body as st1

/-! ## `Follow::compute` -/

/-- The set `firstNext` of PASO A (lines 74-86); `none` when `at` raises. -/
def firstNext (g : Grammar) (first : First) (nextSym : String) : Option (Finset String) :=
  if is_quoted_terminal nextSym then
    some {substr nextSym 1 (nextSym.length - 2)}
  else if nextSym ∈ g.nonTerminals then
    first.firstSets nextSym
  else if !is_eps nextSym then some {nextSym} else some ∅

/-- PASO A (lines 68-95): the loop over the positions of `symbols`, the argument
being the symbols from the current position on. -/
def pasoA (g : Grammar) (first : First) : List String → State → Option State
  | [], st => some st
  | x :: rest, st =>
    let A := trim x
    if A = "" ∨ A ∉ g.nonTerminals then pasoA g first rest st
    else
      match rest with
      | [] => some st
      | y :: rest1 =>
        match firstNext g first (trim y) with
        | none => none
        | some fn =>
          pasoA g first (y :: rest1) (st.add A (fn.filter (fun s => !is_eps s)))

/-- The update of `trailer` after a nonterminal `Xi` (lines 110-128). -/
def nextTrailer (first : First) (Xi : String) (trailer : Finset String) : Finset String :=
  let FX := (first.firstSets Xi).getD ∅
  let nullable := decide ("''" ∈ FX) || decide ("ε" ∈ FX) || decide ("EPS" ∈ FX) ||
    decide ("epsilon" ∈ FX)
  let FX_noeps := FX.filter (fun s => !is_eps s)
  if nullable then trailer ∪ FX_noeps else FX_noeps

/-- The literal of a terminal symbol (lines 134-135). -/
def termOf (Xi : String) : String :=
  if is_quoted_terminal Xi then substr Xi 1 (Xi.length - 2) else Xi

/-- PASO B (lines 99-139): the loop from the last symbol to the first one; the
list argument holds the symbols still to visit, the rightmost first. -/
def pasoB (g : Grammar) (first : First) : List String → Finset String → State → State
  | [], _, st => st
  | x :: rest, trailer, st =>
    let Xi := trim x
    if Xi = "" then pasoB g first rest trailer st
    else if Xi ∈ g.nonTerminals then
      pasoB g first rest (nextTrailer first Xi trailer) (st.add Xi trailer)
    else if is_eps Xi then pasoB g first rest trailer st
    else pasoB g first rest {termOf Xi} st

/-- The vector `symbols` of an alternative (lines 58-64). -/
def symbolsOf (alt : String) : List String :=
  ((split (trim alt) ' ').map trim).filter (fun t => t ≠ "")

/-- Body of the loop over the alternatives (lines 56-140), on the symbols. -/
def processSymbols (g : Grammar) (first : First) (left : String) (symbols : List String)
    (st : State) : Option State :=
  match pasoA g first symbols st with
  | none => none
  | some st1 =>
    let trailer := st1.followSets.get left
    some (pasoB g first symbols.reverse trailer ⟨st1.followSets.touch left, st1.changed⟩)

/-- Body of the loop over the alternatives (lines 56-140). -/
def processAlternative (g : Grammar) (first : First) (left : String) (alt : String)
    (st : State) : Option State :=
  processSymbols g first left (symbolsOf alt) st

/-- Lines 46-54: the left-hand side and the alternatives of a rule text, `none`
for a text that the loop skips. -/
def parseRule (r : String) : Option (String × List String) :=
  let line := trim r
  if line = "" then none
  else
    match find line "->" with
    | none => none
    | some pos =>
      let left := trim (substr line 0 pos)
      let right := trim (substrFrom line (pos + 2))
      some (left, split right '|')

/-- Body of the loop over the rules (lines 45-141). -/
def processRule (g : Grammar) (first : First) (r : String) (st : State) : Option State :=
  match parseRule r with
  | none => some st
  | some (left, alternatives) => forEach (processAlternative g first left) alternatives st

/-- One pass of the `while` loop (lines 42-141), started with `changed = false`. -/
def pass (g : Grammar) (first : First) (fs : FollowSets) : Option State :=
  forEach (processRule g first) g.rules ⟨fs, false⟩

/-- Outcome of the computation: the final map together with the number of passes
that were run, an exception, or an exhausted supply of passes. -/
inductive Result where
  | ok (followSets : FollowSets) (passes : Nat)
  | raised
  | timeout

/-- Counts one more pass in a result. -/
def Result.succ : Result → Result
  | .ok fs n => .ok fs (n + 1)
  | r => r

/-- The loop `while (changed)` (lines 39-142) with a supply of passes. -/
def whileLoop (g : Grammar) (first : First) : Nat → FollowSets → Result
  | 0, _ => .timeout
  | fuel + 1, fs =>
    match pass g first fs with
    | none => .raised
    | some st =>
      if st.changed then (whileLoop g first fuel st.followSets).succ
      else .ok st.followSets 1

/-- Lines 28-30 on an empty map: an empty entry for every nonterminal. -/
def initFollow (g : Grammar) : FollowSets :=
  fun nt => if nt ∈ g.nonTerminals then some ∅ else none

/-- Lines 28-37: initialisation and the end marker of the start symbol. -/
def seed (g : Grammar) : FollowSets :=
  if g.initialState = "" then initFollow g
  else (initFollow g).insertAll g.initialState {"$"}

/-- The alternatives of the well-formed rules: left-hand side and symbols. -/
def altsOf (g : Grammar) : List (String × List String) :=
  g.rules.flatMap fun r =>
    match parseRule r with
    | none => []
    | some (left, alternatives) => alternatives.map fun alt => (left, symbolsOf alt)

/-- Terminal literals that a symbol of a rule can contribute. -/
def literalsOf (g : Grammar) (t : String) : Finset String :=
  if is_quoted_terminal (trim t) then {termOf (trim t)}
  else if trim t ∈ g.nonTerminals then ∅
  else if is_eps (trim t) then ∅ else {trim t}

/-- The terminal alphabet: the literals of the rules and the members of the FIRST
sets of the nonterminals that are not epsilon. -/
def alphabet (g : Grammar) (first : First) : Finset String :=
  (((altsOf g).flatMap fun p => p.2).toFinset.biUnion fun t => literalsOf g t) ∪
    g.nonTerminals.biUnion fun nt => ((first.firstSets nt).getD ∅).filter (fun s => !is_eps s)

/-- A number of passes that is always enough. -/
def passBound (g : Grammar) (first : First) : Nat :=
  g.nonTerminals.card * ((alphabet g first).card + 1) + 1

/-- `Follow::compute` on a fresh object (`followSets` empty at the call). -/
def compute (g : Grammar) (first : First) : Result :=
  whileLoop g first (passBound g first) (seed g)

/-- The entry of a key in the final map, `none` without a final map or an entry. -/
def Result.follow : Result → String → Option (Finset String)
  | .ok fs _, k => fs k
  | _, _ => none

/-- The number of passes of a completed computation. -/
def Result.passes : Result → Option Nat
  | .ok _ n => some n
  | _ => none

/-! ## Auxiliary definitions: the size of the FOLLOW sets -/

/-- The sum of the sizes of the FOLLOW sets of the nonterminals. -/
def totalSize (g : Grammar) (fs : FollowSets) : Nat :=
  ∑ k in g.nonTerminals, (fs.get k).card

/-! ## Auxiliary definitions: a pass as a sequence of insertions -/

/-- A sequence of insertions `(k, s)`: the set `s` is added to the entry of `k`. -/
def applyAdds (l : List (String × Finset String)) (st : State) : State :=
  l.foldl (fun st p => st.add p.1 p.2) st

/-- The insertions made by PASO A on a list of symbols, `none` when a lookup raises. -/
def addsA (g : Grammar) (first : First) : List String → Option (List (String × Finset String))
  | [] => some []
  | x :: rest =>
    if trim x = "" ∨ trim x ∉ g.nonTerminals then addsA g first rest
    else
      match rest with
      | [] => some []
      | y :: rest1 =>
        match firstNext g first (trim y) with
        | none => none
        | some fn =>
          (addsA g first (y :: rest1)).map fun l => (trim x, fn.filter (fun s => !is_eps s)) :: l

/-- The insertions made by PASO B on the reversed symbols from a given trailer. -/
def addsB (g : Grammar) (first : First) : List String → Finset String →
    List (String × Finset String)
  | [], _ => []
  | x :: rest, trailer =>
    if trim x = "" then addsB g first rest trailer
    else if trim x ∈ g.nonTerminals then
      (trim x, trailer) :: addsB g first rest (nextTrailer first (trim x) trailer)
    else if is_eps (trim x) then addsB g first rest trailer
    else addsB g first rest {termOf (trim x)}

/-- A family of sets is closed under both rules on one alternative. -/
def ClosedAlt (g : Grammar) (first : First) (F : String → Finset String)
    (p : String × List String) : Prop :=
  (∀ la, addsA g first p.2 = some la → ∀ q ∈ la, q.2 ⊆ F q.1) ∧
    ∀ q ∈ addsB g first p.2.reverse (F p.1), q.2 ⊆ F q.1

/-- A family of sets is closed under both rules on every alternative of the grammar. -/
def Closed (g : Grammar) (first : First) (F : String → Finset String) : Prop :=
  ∀ p ∈ altsOf g, ClosedAlt g first F p

/-- The state after the access `followSets[left]` of line 98. -/
def touchState (st : State) (left : String) : State :=
  ⟨st.followSets.touch left, st.changed⟩

/-! ## Auxiliary definitions: the alternatives in one list -/

/-- The loop body applied to a list of alternatives given by left-hand side and symbols. -/
def processAlts (g : Grammar) (first : First) (l : List (String × List String)) (st : State) :
    Option State :=
  forEach (fun p => processSymbols g first p.1 p.2) l st

/-- The alternatives of one rule text: left-hand side and symbols. -/
def altsOfRule (r : String) : List (String × List String) :=
  match parseRule r with
  | none => []
  | some (left, alternatives) => alternatives.map fun alt => (left, symbolsOf alt)

/-! ## Auxiliary definitions: the bound on the FOLLOW sets -/

/-- Everything a FOLLOW set can hold: the terminal alphabet and the end marker. -/
def allSymbols (g : Grammar) (first : First) : Finset String :=
  insert "$" (alphabet g first)

/-- The FOLLOW sets of a map stay inside the set of all symbols. -/
def Bounded (g : Grammar) (first : First) (fs : FollowSets) : Prop :=
  ∀ k, fs.get k ⊆ allSymbols g first

/-! ## Auxiliary definitions: exceptions and the start symbol -/

/-- No lookup of PASO A raises: every `firstNext` of the grammar is defined. -/
def NoRaise (g : Grammar) (first : First) : Prop :=
  ∀ p ∈ altsOf g, (addsA g first p.2).isSome = true

/-- The end marker is in the entry of a non-empty start symbol. -/
def Seeded (g : Grammar) (F : String → Finset String) : Prop :=
  g.initialState ≠ "" → "$" ∈ F g.initialState

/-! ## The rules as the specification words them -/

/-- A classified symbol of the specification. -/
inductive ClassifiedSymbol where
  | nonTerminal (name : String)
  | terminal (literal : String)
  | epsilon

/-- The classifier as the specification words it: epsilon alias, quoted terminal,
declared nonterminal, implicit terminal, tried in this order. -/
def classify (nonTerminals : Finset String) (t : String) : ClassifiedSymbol :=
  if is_eps t then .epsilon
  else if is_quoted_terminal t then .terminal (substr t 1 (t.length - 2))
  else if t ∈ nonTerminals then .nonTerminal t
  else .terminal t

/-- FIRST of a symbol as the specification words it in Rule 1: the literal of a
terminal, nothing for epsilon, the stored set of the oracle for a nonterminal. -/
def specFirst (first : First) : ClassifiedSymbol → Finset String
  | .terminal l => {l}
  | .epsilon => ∅
  | .nonTerminal X => (first.firstSets X).getD ∅

/-- A set minus epsilon. -/
def minusEps (s : Finset String) : Finset String := s.filter fun x => !is_eps x

/-- Nullable as the specification words it: the FIRST set contains epsilon. -/
def specNullable (first : First) (X : String) : Prop :=
  ∃ s ∈ (first.firstSets X).getD ∅, is_eps s = true

/-- Rule 1 of the specification holds for a family of sets on one alternative:
FIRST of the successor minus epsilon lies in the set of every nonterminal. -/
def SpecRule1 (first : First) (F : String → Finset String)
    (symbols : List ClassifiedSymbol) : Prop :=
  ∀ (i : Nat) (X : String) (Y : ClassifiedSymbol),
    symbols[i]? = some (.nonTerminal X) → symbols[i + 1]? = some Y →
      minusEps (specFirst first Y) ⊆ F X

/-- The scan of Rule 2 of the specification from the rightmost symbol on: the
trailer lies in the set of every nonterminal that the scan meets. -/
def SpecRule2Scan (first : First) (F : String → Finset String) :
    List ClassifiedSymbol → Finset String → Prop
  | [], _ => True
  | .nonTerminal X :: rest, trailer =>
    trailer ⊆ F X ∧
      ((specNullable first X →
          SpecRule2Scan first F rest (trailer ∪ minusEps ((first.firstSets X).getD ∅))) ∧
        (¬ specNullable first X →
          SpecRule2Scan first F rest (minusEps ((first.firstSets X).getD ∅))))
  | .epsilon :: rest, trailer => SpecRule2Scan first F rest trailer
  | .terminal l :: rest, _ => SpecRule2Scan first F rest {l}

/-- Rule 2 of the specification holds for a family of sets on one alternative
with left-hand side `left`: the scan starts from the set of `left`. -/
def SpecRule2 (first : First) (F : String → Finset String) (left : String)
    (symbols : List ClassifiedSymbol) : Prop :=
  SpecRule2Scan first F symbols.reverse (F left)

/-- A family of sets satisfies Rule 1 and Rule 2 of the specification on every
alternative of every well-formed rule. -/
def SpecClosed (g : Grammar) (first : First) (F : String → Finset String) : Prop :=
  ∀ p ∈ altsOf g,
    SpecRule1 first F (p.2.map (classify g.nonTerminals)) ∧
      SpecRule2 first F p.1 (p.2.map (classify g.nonTerminals))

/-! ## Concrete inputs -/

/-- Scenario A. -/
def grammarA : Grammar :=
  ⟨{"S", "A", "B"}, "S", ["S -> A B", "A -> 'a'", "B -> 'b'"]⟩

/-- FIRST sets of scenario A. -/
def firstA : First :=
  ⟨fun k => if k = "A" then some {"a"} else if k = "B" then some {"b"}
    else if k = "S" then some {"a"} else none⟩

/-- The final map of scenario A. -/
def finalA : FollowSets := fun k => (compute grammarA firstA).follow k

/-- Scenario A with the rules in the opposite order. -/
def grammarA_reversed : Grammar :=
  ⟨{"S", "A", "B"}, "S", ["B -> 'b'", "A -> 'a'", "S -> A B"]⟩

/-- A rule whose last symbol is the quoted text `EPS`. -/
def grammarQuotedEps : Grammar := ⟨{"S", "A"}, "S", ["S -> A 'EPS'"]⟩

/-- FIRST sets for `grammarQuotedEps`. -/
def firstQuotedEps : First :=
  ⟨fun k => if k = "S" then some {"a"} else if k = "A" then some {"a"} else none⟩

/-- A grammar whose start symbol is not declared as a nonterminal. -/
def grammarStray : Grammar := ⟨{"A"}, "S", ["S -> A"]⟩

/-- FIRST sets for `grammarStray`. -/
def firstStray : First := ⟨fun k => if k = "A" then some {"a"} else none⟩

/-- A grammar without terminals: `S -> A`. -/
def grammarChain : Grammar := ⟨{"S", "A"}, "S", ["S -> A"]⟩

/-- FIRST sets for `grammarChain`: both entries exist and are empty. -/
def firstChain : First :=
  ⟨fun k => if k = "S" then some ∅ else if k = "A" then some ∅ else none⟩

/-- The final map of `grammarChain`. -/
def finalChain : FollowSets := fun k => (compute grammarChain firstChain).follow k

/-- An oracle without any entry. -/
def firstNone : First := ⟨fun _ => none⟩

/-- A grammar with two adjacent nonterminals: `S -> A B`. -/
def grammarAdjacent : Grammar := ⟨{"S", "A", "B"}, "S", ["S -> A B"]⟩

/-! ## Rule texts without the separator -/

/-- A rule text contains the separator `->`. -/
def containsArrow (r : String) : Bool := (find r "->").isSome

/-- The rule texts that are left when every text that is empty after trimming
or lacks the separator `->` is deleted. -/
def keptRules (g : Grammar) : List String :=
  g.rules.filter fun r => decide (trim r ≠ "") && containsArrow r

/-! ## The trailer of the scan -/

/-- The value of `trailer` after the scan of PASO B has visited the given symbols
(the rightmost first), started from the given value. -/
def trailerAfter (g : Grammar) (first : First) : List String → Finset String → Finset String
  | [], trailer => trailer
  | x :: rest, trailer =>
    if trim x = "" then trailerAfter g first rest trailer
    else if trim x ∈ g.nonTerminals then
      trailerAfter g first rest (nextTrailer first (trim x) trailer)
    else if is_eps (trim x) then trailerAfter g first rest trailer
    else trailerAfter g first rest {termOf (trim x)}

/-- A nonterminal is nullable: its FIRST set contains an epsilon alias. -/
def isNullable (first : First) (X : String) : Bool :=
  decide (∃ s ∈ (first.firstSets X).getD ∅, is_eps s = true)

/-- The non-epsilon part of FIRST of a sequence of symbols, read from the left: a
nonterminal contributes its FIRST set minus epsilon and ends the sequence unless
it is nullable, an epsilon token is skipped, a terminal contributes its literal
and ends the sequence.  A declared nonterminal counts as a nonterminal whatever
its spelling, as in the scan. -/
def firstOfSeq (g : Grammar) (first : First) : List String → Finset String
  | [] => ∅
  | t :: rest =>
    if t ∈ g.nonTerminals then
      minusEps ((first.firstSets t).getD ∅) ∪
        (if isNullable first t then firstOfSeq g first rest else ∅)
    else if is_eps t then firstOfSeq g first rest
    else {termOf t}

/-- Every symbol of the sequence is a nullable nonterminal or an epsilon token. -/
def seqVanishes (g : Grammar) (first : First) (symbols : List String) : Bool :=
  symbols.all fun t => if t ∈ g.nonTerminals then isNullable first t else is_eps t

/-! ## More concrete inputs -/

/-- The state after the first pass of scenario A. -/
def firstPassA : State :=
  (pass grammarA firstA (seed grammarA)).getD ⟨seed grammarA, false⟩

/-- A rule in which the empty-quote token follows a nonterminal: `S -> A ''`. -/
def grammarEmptyQuote : Grammar := ⟨{"S", "A"}, "S", ["S -> A ''"]⟩

/-- Scenario C. -/
def grammarC : Grammar := ⟨{"S", "A"}, "S", ["S -> A", "A -> 'a' A | ''"]⟩

/-- FIRST sets of scenario C: both nonterminals are nullable. -/
def firstC : First :=
  ⟨fun k => if k = "S" then some {"a", "''"} else if k = "A" then some {"a", "''"} else none⟩

/-! ## Quoting a bare token -/

/-- The quoted terminal `'z'` written for the bare token `z`. -/
def quoteToken (z : String) : String := ⟨quote :: (z.data ++ [quote])⟩

/-- A symbol in which the token `z` is replaced by the quoted terminal `'z'`. -/
def quoteSym (z t : String) : String := if t = z then quoteToken z else t

/-- An alternative in which every occurrence of the token `z` is replaced by the
quoted terminal `'z'`. -/
def quoteIn (z : String) (p : String × List String) : String × List String :=
  (p.1, p.2.map (quoteSym z))

/-- A grammar with the unknown bare token `z`: `S -> A z`. -/
def grammarD : Grammar := ⟨{"S", "A"}, "S", ["S -> A z"]⟩

/-- The grammar `grammarD` with the token `z` quoted: `S -> A 'z'`. -/
def grammarD_quoted : Grammar := ⟨{"S", "A"}, "S", ["S -> A 'z'"]⟩

/-! ## The computation without PASO A -/

/-- Body of the loop over the alternatives with the PASO A loop removed. -/
def processSymbolsB (g : Grammar) (first : First) (left : String) (symbols : List String)
    (st : State) : Option State :=
  let trailer := st.followSets.get left
  some (pasoB g first symbols.reverse trailer ⟨st.followSets.touch left, st.changed⟩)

/-- Body of the loop over the alternatives with the PASO A loop removed, on the text. -/
def processAlternativeB (g : Grammar) (first : First) (left : String) (alt : String)
    (st : State) : Option State :=
  processSymbolsB g first left (symbolsOf alt) st

/-- Body of the loop over the rules with the PASO A loop removed. -/
def processRuleB (g : Grammar) (first : First) (r : String) (st : State) : Option State :=
  match parseRule r with
  | none => some st
  | some (left, alternatives) => forEach (processAlternativeB g first left) alternatives st

/-- One pass of the `while` loop with the PASO A loop removed. -/
def passB (g : Grammar) (first : First) (fs : FollowSets) : Option State :=
  forEach (processRuleB g first) g.rules ⟨fs, false⟩

/-- The loop `while (changed)` with the PASO A loop removed. -/
def whileLoopB (g : Grammar) (first : First) : Nat → FollowSets → Result
  | 0, _ => .timeout
  | fuel + 1, fs =>
    match passB g first fs with
    | none => .raised
    | some st =>
      if st.changed then (whileLoopB g first fuel st.followSets).succ
      else .ok st.followSets 1

/-- The variant of `Follow::compute` with the PASO A loop removed. -/
def computeB (g : Grammar) (first : First) : Result :=
  whileLoopB g first (passBound g first) (seed g)

/-- The variant loop body applied to a list of alternatives. -/
def processAltsB (g : Grammar) (first : First) (l : List (String × List String))
    (st : State) : Option State :=
  forEach (fun p => processSymbolsB g first p.1 p.2) l st

/-- A family of sets is closed under the insertions of PASO B on every
alternative of the grammar. -/
def ClosedB (g : Grammar) (first : First) (F : String → Finset String) : Prop :=
  ∀ p ∈ altsOf g, ∀ q ∈ addsB g first p.2.reverse (F p.1), q.2 ⊆ F q.1

/-! # Theorems -/

/-! ## The map operations -/

theorem get_insertAll (m : FollowSets) (k k1 : String) (s : Finset String) :
    (m.insertAll k s).get k1 = if k1 = k then m.get k ∪ s else m.get k1 := by
  unfold FollowSets.insertAll FollowSets.get
  by_cases h : k1 = k
  · subst h; simp
  · simp [Function.update_noteq h, h]

theorem get_touch (m : FollowSets) (k k1 : String) : (m.touch k).get k1 = m.get k1 := by
  unfold FollowSets.touch
  by_cases h : k1 = k
  · subst h; simp [FollowSets.get]
  · simp [FollowSets.get, Function.update_noteq h]

theorem isSome_insertAll (m : FollowSets) (k k1 : String) (s : Finset String) :
    ((m.insertAll k s) k1).isSome = true ↔ k1 = k ∨ (m k1).isSome = true := by
  unfold FollowSets.insertAll
  by_cases h : k1 = k
  · subst h; simp
  · simp [Function.update_noteq h, h]

theorem isSome_touch (m : FollowSets) (k k1 : String) :
    ((m.touch k) k1).isSome = true ↔ k1 = k ∨ (m k1).isSome = true := by
  unfold FollowSets.touch
  by_cases h : k1 = k
  · subst h; simp
  · simp [Function.update_noteq h, h]

theorem card_union_gt_iff (a s : Finset String) : (a ∪ s).card > a.card ↔ ¬ s ⊆ a := by
  constructor
  · intro h hs
    rw [Finset.union_eq_left.mpr hs] at h
    exact lt_irrefl _ h
  · intro h
    apply Finset.card_lt_card
    refine ⟨Finset.subset_union_left, fun hsub => h ?_⟩
    exact fun x hx => hsub (Finset.mem_union_right _ hx)

theorem add_followSets (st : State) (k : String) (s : Finset String) :
    (st.add k s).followSets = st.followSets.insertAll k s := rfl

theorem add_changed (st : State) (k : String) (s : Finset String) :
    (st.add k s).changed = true ↔ st.changed = true ∨ ¬ s ⊆ st.followSets.get k := by
  have h := card_union_gt_iff (st.followSets.get k) s
  unfold State.add
  simp only [get_insertAll, if_true]
  by_cases hs : s ⊆ st.followSets.get k
  · have : ¬ (st.followSets.get k ∪ s).card > (st.followSets.get k).card := fun c => (h.mp c) hs
    simp [this, hs]
  · have : (st.followSets.get k ∪ s).card > (st.followSets.get k).card := h.mpr hs
    simp [this, hs]

theorem add_changed_false (st : State) (k : String) (s : Finset String) :
    (st.add k s).changed = false ↔ st.changed = false ∧ s ⊆ st.followSets.get k := by
  have h := add_changed st k s
  constructor
  · intro hf
    rw [hf] at h
    constructor
    · cases hc : st.changed with
      | false => rfl
      | true => exact absurd (h.mpr (Or.inl hc)) (by simp)
    · by_contra hs
      exact absurd (h.mpr (Or.inr hs)) (by simp)
  · rintro ⟨hc, hs⟩
    cases hn : (st.add k s).changed with
    | false => rfl
    | true =>
      rcases h.mp hn with h1 | h1
      · rw [hc] at h1; exact absurd h1 (by simp)
      · exact absurd hs h1

theorem applyAdds_nil (st : State) : applyAdds [] st = st := rfl

theorem applyAdds_cons (p : String × Finset String) (l : List (String × Finset String))
    (st : State) : applyAdds (p :: l) st = applyAdds l (st.add p.1 p.2) := rfl

theorem applyAdds_mono (l : List (String × Finset String)) :
    ∀ (st : State) (k : String),
      st.followSets.get k ⊆ (applyAdds l st).followSets.get k := by
  induction l with
  | nil => intro st k; exact Finset.Subset.refl _
  | cons p l ih =>
    intro st k
    rw [applyAdds_cons]
    refine Finset.Subset.trans ?_ (ih _ k)
    rw [add_followSets, get_insertAll]
    split
    · rename_i h; subst h; exact Finset.subset_union_left
    · exact Finset.Subset.refl _

theorem applyAdds_changed_mono (l : List (String × Finset String)) :
    ∀ (st : State), st.changed = true → (applyAdds l st).changed = true := by
  induction l with
  | nil => intro st h; exact h
  | cons p l ih =>
    intro st h
    rw [applyAdds_cons]
    exact ih _ ((add_changed st p.1 p.2).mpr (Or.inl h))

theorem applyAdds_below (F : String → Finset String) (l : List (String × Finset String)) :
    ∀ (st : State), (∀ p ∈ l, p.2 ⊆ F p.1) → (∀ k, st.followSets.get k ⊆ F k) →
      ∀ k, (applyAdds l st).followSets.get k ⊆ F k := by
  induction l with
  | nil => intro st _ h k; exact h k
  | cons p l ih =>
    intro st hl h
    rw [applyAdds_cons]
    apply ih
    · intro q hq; exact hl q (List.mem_cons_of_mem _ hq)
    · intro k
      rw [add_followSets, get_insertAll]
      split
      · rename_i hk; subst hk
        exact Finset.union_subset (h _) (hl p (List.mem_cons_self _ _))
      · exact h k

theorem add_get_of_subset (st : State) (k : String) (s : Finset String)
    (hs : s ⊆ st.followSets.get k) (k1 : String) :
    (st.add k s).followSets.get k1 = st.followSets.get k1 := by
  rw [add_followSets, get_insertAll]
  split
  · rename_i h; subst h; exact Finset.union_eq_left.mpr hs
  · rfl

theorem applyAdds_fixed (l : List (String × Finset String)) :
    ∀ (st : State), (∀ p ∈ l, p.2 ⊆ st.followSets.get p.1) →
      (∀ k, (applyAdds l st).followSets.get k = st.followSets.get k) ∧
        (applyAdds l st).changed = st.changed := by
  induction l with
  | nil => intro st _; exact ⟨fun _ => rfl, rfl⟩
  | cons p l ih =>
    intro st hl
    rw [applyAdds_cons]
    have hp := hl p (List.mem_cons_self _ _)
    have hget := add_get_of_subset st p.1 p.2 hp
    have hch : (st.add p.1 p.2).changed = st.changed := by
      cases hc : st.changed with
      | false => exact (add_changed_false st p.1 p.2).mpr ⟨hc, hp⟩
      | true => exact (add_changed st p.1 p.2).mpr (Or.inl hc)
    have := ih (st.add p.1 p.2) (by
      intro q hq
      rw [hget]
      exact hl q (List.mem_cons_of_mem _ hq))
    exact ⟨fun k => by rw [this.1 k, hget k], by rw [this.2, hch]⟩

theorem applyAdds_changed_false (l : List (String × Finset String)) :
    ∀ (st : State), (applyAdds l st).changed = false →
      st.changed = false ∧ ∀ p ∈ l, p.2 ⊆ st.followSets.get p.1 := by
  induction l with
  | nil => intro st h; exact ⟨h, fun p hp => absurd hp (List.not_mem_nil p)⟩
  | cons p l ih =>
    intro st h
    rw [applyAdds_cons] at h
    obtain ⟨h1, h2⟩ := ih _ h
    obtain ⟨h3, h4⟩ := (add_changed_false st p.1 p.2).mp h1
    refine ⟨h3, ?_⟩
    intro q hq
    rcases List.mem_cons.mp hq with rfl | hq
    · exact h4
    · have := h2 q hq
      rwa [add_get_of_subset st p.1 p.2 h4] at this

theorem totalSize_mono (g : Grammar) (fs fs1 : FollowSets)
    (h : ∀ k, fs.get k ⊆ fs1.get k) : totalSize g fs ≤ totalSize g fs1 :=
  Finset.sum_le_sum fun k _ => Finset.card_le_card (h k)

theorem totalSize_lt (g : Grammar) (fs fs1 : FollowSets)
    (h : ∀ k, fs.get k ⊆ fs1.get k) (k : String) (hk : k ∈ g.nonTerminals)
    (hne : ¬ fs1.get k ⊆ fs.get k) : totalSize g fs < totalSize g fs1 := by
  apply Finset.sum_lt_sum
  · exact fun k _ => Finset.card_le_card (h k)
  · exact ⟨k, hk, Finset.card_lt_card ⟨h k, hne⟩⟩

theorem applyAdds_total (g : Grammar) (l : List (String × Finset String)) :
    ∀ (st : State), (∀ p ∈ l, p.1 ∈ g.nonTerminals) → (applyAdds l st).changed = true →
      st.changed = true ∨ totalSize g st.followSets < totalSize g (applyAdds l st).followSets := by
  induction l with
  | nil => intro st _ h; exact Or.inl h
  | cons p l ih =>
    intro st hl h
    rw [applyAdds_cons] at h ⊢
    have hmono := applyAdds_mono l (st.add p.1 p.2)
    have hstep : ∀ k, st.followSets.get k ⊆ (st.add p.1 p.2).followSets.get k :=
      fun k => applyAdds_mono [p] st k
    rcases ih _ (fun q hq => hl q (List.mem_cons_of_mem _ hq)) h with h1 | h1
    · rcases (add_changed st p.1 p.2).mp h1 with h2 | h2
      · exact Or.inl h2
      · right
        apply totalSize_lt g _ _ (fun k => (hstep k).trans (hmono k)) p.1
          (hl p (List.mem_cons_self _ _))
        intro hsub
        apply h2
        intro x hx
        apply hsub
        apply hmono
        rw [add_followSets, get_insertAll, if_pos rfl]
        exact Finset.mem_union_right _ hx
    · right
      exact lt_of_le_of_lt (totalSize_mono g _ _ hstep) h1

theorem applyAdds_keys (l : List (String × Finset String)) :
    ∀ (st : State), (∀ p ∈ l, (st.followSets p.1).isSome = true) →
      ∀ k, ((applyAdds l st).followSets k).isSome = (st.followSets k).isSome := by
  induction l with
  | nil => intro st _ k; rfl
  | cons p l ih =>
    intro st hl k
    rw [applyAdds_cons]
    have hstep : ∀ k1, ((st.add p.1 p.2).followSets k1).isSome = (st.followSets k1).isSome := by
      intro k1
      rw [add_followSets, Bool.eq_iff_iff, isSome_insertAll]
      constructor
      · rintro (h | h)
        · subst h; exact hl p (List.mem_cons_self _ _)
        · exact h
      · exact Or.inr
    rw [ih (st.add p.1 p.2) (fun q hq => by
      rw [hstep]; exact hl q (List.mem_cons_of_mem _ hq)) k, hstep]

theorem pasoA_eq (g : Grammar) (first : First) (syms : List String) :
    ∀ st, pasoA g first syms st = (addsA g first syms).map fun l => applyAdds l st := by
  induction syms with
  | nil => intro st; rfl
  | cons x rest ih =>
    intro st
    unfold pasoA addsA
    by_cases h : trim x = "" ∨ trim x ∉ g.nonTerminals
    · simp only [h, if_true]; exact ih st
    · simp only [h, if_false]
      cases rest with
      | nil => rfl
      | cons y rest1 =>
        simp only
        cases hf : firstNext g first (trim y) with
        | none => rfl
        | some fn =>
          simp only
          rw [ih]
          cases addsA g first (y :: rest1) with
          | none => rfl
          | some l => rfl

theorem pasoB_eq (g : Grammar) (first : First) (syms : List String) :
    ∀ trailer st, pasoB g first syms trailer st = applyAdds (addsB g first syms trailer) st := by
  induction syms with
  | nil => intro trailer st; rfl
  | cons x rest ih =>
    intro trailer st
    unfold pasoB addsB
    by_cases h1 : trim x = ""
    · simp only [h1, if_true]; exact ih _ _
    · simp only [h1, if_false]
      by_cases h2 : trim x ∈ g.nonTerminals
      · simp only [h2, if_true]; rw [applyAdds_cons]; exact ih _ _
      · simp only [h2, if_false]
        by_cases h3 : is_eps (trim x) = true
        · simp only [h3, if_true]; exact ih _ _
        · simp only [h3]; exact ih _ _

theorem addsA_keys (g : Grammar) (first : First) (syms : List String) :
    ∀ la, addsA g first syms = some la → ∀ p ∈ la, p.1 ∈ g.nonTerminals := by
  induction syms with
  | nil =>
    intro la h p hp
    simp only [addsA, Option.some.injEq] at h
    subst h; exact absurd hp (List.not_mem_nil p)
  | cons x rest ih =>
    intro la h p hp
    unfold addsA at h
    by_cases h0 : trim x = "" ∨ trim x ∉ g.nonTerminals
    · simp only [h0, if_true] at h; exact ih la h p hp
    · simp only [h0, if_false] at h
      cases rest with
      | nil =>
        simp only [Option.some.injEq] at h
        subst h; exact absurd hp (List.not_mem_nil p)
      | cons y rest1 =>
        simp only at h
        cases hf : firstNext g first (trim y) with
        | none => rw [hf] at h; exact absurd h (by simp)
        | some fn =>
          rw [hf] at h
          simp only at h
          cases hl : addsA g first (y :: rest1) with
          | none => rw [hl] at h; exact absurd h (by simp)
          | some l =>
            rw [hl] at h
            simp only [Option.map_some', Option.some.injEq] at h
            subst h
            rcases List.mem_cons.mp hp with rfl | hp
            · simp only
              by_contra hc
              exact h0 (Or.inr hc)
            · exact ih l hl p hp

theorem addsB_keys (g : Grammar) (first : First) (syms : List String) :
    ∀ trailer, ∀ p ∈ addsB g first syms trailer, p.1 ∈ g.nonTerminals := by
  induction syms with
  | nil => intro trailer p hp; exact absurd hp (List.not_mem_nil p)
  | cons x rest ih =>
    intro trailer p hp
    unfold addsB at hp
    by_cases h1 : trim x = ""
    · simp only [h1, if_true] at hp; exact ih _ p hp
    · simp only [h1, if_false] at hp
      by_cases h2 : trim x ∈ g.nonTerminals
      · simp only [h2, if_true] at hp
        rcases List.mem_cons.mp hp with rfl | hp
        · exact h2
        · exact ih _ p hp
      · simp only [h2, if_false] at hp
        by_cases h3 : is_eps (trim x) = true
        · simp only [h3, if_true] at hp; exact ih _ p hp
        · simp only [h3] at hp; exact ih _ p hp

theorem nextTrailer_mono (first : First) (Xi : String) (t1 t2 : Finset String) (h : t1 ⊆ t2) :
    nextTrailer first Xi t1 ⊆ nextTrailer first Xi t2 := by
  unfold nextTrailer
  simp only
  split
  · exact Finset.union_subset_union h (Finset.Subset.refl _)
  · exact Finset.Subset.refl _

/-- The insertions of PASO B grow with the trailer at the start of the scan. -/
theorem addsB_mono (g : Grammar) (first : First) (F : String → Finset String)
    (syms : List String) :
    ∀ t1 t2, t1 ⊆ t2 → (∀ p ∈ addsB g first syms t2, p.2 ⊆ F p.1) →
      ∀ p ∈ addsB g first syms t1, p.2 ⊆ F p.1 := by
  induction syms with
  | nil => intro t1 t2 _ _ p hp; exact absurd hp (List.not_mem_nil p)
  | cons x rest ih =>
    intro t1 t2 ht h p hp
    unfold addsB at hp h
    by_cases h1 : trim x = ""
    · simp only [h1, if_true] at hp h; exact ih t1 t2 ht h p hp
    · simp only [h1, if_false] at hp h
      by_cases h2 : trim x ∈ g.nonTerminals
      · simp only [h2, if_true] at hp h
        rcases List.mem_cons.mp hp with rfl | hp
        · exact ht.trans (h (trim x, t2) (List.mem_cons_self _ _))
        · exact ih _ _ (nextTrailer_mono first (trim x) t1 t2 ht)
            (fun q hq => h q (List.mem_cons_of_mem _ hq)) p hp
      · simp only [h2, if_false] at hp h
        by_cases h3 : is_eps (trim x) = true
        · simp only [h3, if_true] at hp h; exact ih t1 t2 ht h p hp
        · simp only [h3] at hp h; exact ih _ _ (Finset.Subset.refl _) h p hp

theorem processSymbols_eq (g : Grammar) (first : First) (left : String) (syms : List String)
    (st : State) :
    processSymbols g first left syms st =
      (addsA g first syms).map fun la =>
        applyAdds (addsB g first syms.reverse ((applyAdds la st).followSets.get left))
          (touchState (applyAdds la st) left) := by
  unfold processSymbols
  rw [pasoA_eq]
  cases addsA g first syms with
  | none => rfl
  | some la => simp only [Option.map_some', pasoB_eq]; rfl

/-! ## One alternative -/

theorem processSymbols_some (g : Grammar) (first : First) (left : String) (syms : List String)
    (st st1 : State) (h : processSymbols g first left syms st = some st1) :
    ∃ la, addsA g first syms = some la ∧
      st1 = applyAdds (addsB g first syms.reverse ((applyAdds la st).followSets.get left))
        (touchState (applyAdds la st) left) := by
  rw [processSymbols_eq] at h
  cases hla : addsA g first syms with
  | none => rw [hla] at h; exact absurd h (by simp)
  | some la =>
    rw [hla] at h
    simp only [Option.map_some', Option.some.injEq] at h
    exact ⟨la, rfl, h.symm⟩

theorem processSymbols_isSome (g : Grammar) (first : First) (left : String)
    (syms : List String) (st : State) :
    (processSymbols g first left syms st).isSome = (addsA g first syms).isSome := by
  rw [processSymbols_eq]
  cases addsA g first syms <;> rfl

theorem get_touchState (st : State) (left k : String) :
    (touchState st left).followSets.get k = st.followSets.get k :=
  get_touch st.followSets left k

theorem alt_mono (g : Grammar) (first : First) (left : String) (syms : List String)
    (st st1 : State) (h : processSymbols g first left syms st = some st1) (k : String) :
    st.followSets.get k ⊆ st1.followSets.get k := by
  obtain ⟨la, _, rfl⟩ := processSymbols_some g first left syms st st1 h
  refine Finset.Subset.trans ?_ (applyAdds_mono _ _ k)
  rw [get_touchState]
  exact applyAdds_mono la st k

theorem alt_below (g : Grammar) (first : First) (F : String → Finset String) (left : String)
    (syms : List String) (st st1 : State)
    (h : processSymbols g first left syms st = some st1)
    (hc : ClosedAlt g first F (left, syms)) (hF : ∀ k, st.followSets.get k ⊆ F k) :
    ∀ k, st1.followSets.get k ⊆ F k := by
  obtain ⟨la, hla, rfl⟩ := processSymbols_some g first left syms st st1 h
  have h1 : ∀ k, (applyAdds la st).followSets.get k ⊆ F k :=
    applyAdds_below F la st (hc.1 la hla) hF
  apply applyAdds_below F
  · exact addsB_mono g first F syms.reverse _ _ (h1 left) hc.2
  · intro k; rw [get_touchState]; exact h1 k

theorem alt_changed_false (g : Grammar) (first : First) (left : String) (syms : List String)
    (st st1 : State) (h : processSymbols g first left syms st = some st1)
    (hch : st1.changed = false) :
    st.changed = false ∧ st1.followSets.get = st.followSets.get ∧
      ClosedAlt g first st.followSets.get (left, syms) := by
  obtain ⟨la, hla, rfl⟩ := processSymbols_some g first left syms st st1 h
  obtain ⟨h1, h2⟩ := applyAdds_changed_false _ _ hch
  obtain ⟨h3, h4⟩ := applyAdds_changed_false la st h1
  have h5 := (applyAdds_fixed la st h4).1
  have h6 : ∀ p ∈ addsB g first syms.reverse ((applyAdds la st).followSets.get left),
      p.2 ⊆ (touchState (applyAdds la st) left).followSets.get p.1 := h2
  have h7 := (applyAdds_fixed _ _ h6).1
  refine ⟨h3, ?_, ?_, ?_⟩
  · funext k; rw [h7 k, get_touchState, h5 k]
  · intro la1 hla1 q hq
    rw [hla] at hla1
    simp only [Option.some.injEq] at hla1
    subst hla1
    exact h4 q hq
  · intro q hq
    simp only at hq
    rw [← h5 left] at hq
    have := h2 q hq
    rwa [get_touchState, h5] at this

theorem alt_fixed (g : Grammar) (first : First) (left : String) (syms : List String)
    (st st1 : State) (h : processSymbols g first left syms st = some st1)
    (hc : ClosedAlt g first st.followSets.get (left, syms)) :
    st1.followSets.get = st.followSets.get ∧ st1.changed = st.changed := by
  obtain ⟨la, hla, rfl⟩ := processSymbols_some g first left syms st st1 h
  obtain ⟨h1, h2⟩ := applyAdds_fixed la st (hc.1 la hla)
  have h3 : ∀ p ∈ addsB g first syms.reverse ((applyAdds la st).followSets.get left),
      p.2 ⊆ (touchState (applyAdds la st) left).followSets.get p.1 := by
    intro q hq
    rw [h1 left] at hq
    rw [get_touchState, h1]
    exact hc.2 q hq
  obtain ⟨h4, h5⟩ := applyAdds_fixed _ _ h3
  refine ⟨?_, ?_⟩
  · funext k; rw [h4 k, get_touchState, h1 k]
  · rw [h5]; exact h2

theorem alt_total (g : Grammar) (first : First) (left : String) (syms : List String)
    (st st1 : State) (h : processSymbols g first left syms st = some st1)
    (hch : st1.changed = true) :
    st.changed = true ∨ totalSize g st.followSets < totalSize g st1.followSets := by
  obtain ⟨la, hla, rfl⟩ := processSymbols_some g first left syms st st1 h
  have hts : totalSize g (touchState (applyAdds la st) left).followSets =
      totalSize g (applyAdds la st).followSets := by
    unfold totalSize
    exact Finset.sum_congr rfl fun k _ => by rw [get_touchState]
  rcases applyAdds_total g _ _ (addsB_keys g first _ _) hch with h1 | h1
  · rcases applyAdds_total g la st (addsA_keys g first syms la hla) h1 with h2 | h2
    · exact Or.inl h2
    · right
      refine lt_of_lt_of_le h2 ?_
      rw [← hts]
      exact totalSize_mono g _ _ (applyAdds_mono _ _)
  · right
    rw [hts] at h1
    exact lt_of_le_of_lt (totalSize_mono g _ _ (applyAdds_mono la st)) h1

theorem alt_keys (g : Grammar) (first : First) (left : String) (syms : List String)
    (st st1 : State) (h : processSymbols g first left syms st = some st1)
    (hnt : ∀ k ∈ g.nonTerminals, (st.followSets k).isSome = true) (k : String) :
    (st1.followSets k).isSome = true ↔ k = left ∨ (st.followSets k).isSome = true := by
  obtain ⟨la, hla, rfl⟩ := processSymbols_some g first left syms st st1 h
  have h1 := applyAdds_keys la st (fun p hp => hnt _ (addsA_keys g first syms la hla p hp))
  have h2 : ∀ k, ((touchState (applyAdds la st) left).followSets k).isSome = true ↔
      k = left ∨ (st.followSets k).isSome = true := by
    intro k
    unfold touchState
    rw [isSome_touch, h1]
  rw [applyAdds_keys _ _ (fun p hp => (h2 _).mpr (Or.inr (hnt _ (addsB_keys g first _ _ p hp))))]
  exact h2 k

theorem altsOf_eq (g : Grammar) : altsOf g = g.rules.flatMap altsOfRule := rfl

theorem forEach_append {α : Type} (body : α → State → Option State) (l1 l2 : List α) :
    ∀ st, forEach body (l1 ++ l2) st = (forEach body l1 st).bind (forEach body l2) := by
  induction l1 with
  | nil => intro st; rfl
  | cons a l1 ih =>
    intro st
    simp only [List.cons_append, forEach]
    cases body a st with
    | none => rfl
    | some st1 => exact ih st1

theorem forEach_map {α β : Type} (body : β → State → Option State) (f : α → β) (l : List α) :
    ∀ st, forEach body (l.map f) st = forEach (fun a => body (f a)) l st := by
  induction l with
  | nil => intro st; rfl
  | cons a l ih =>
    intro st
    simp only [List.map_cons, forEach]
    cases body (f a) st with
    | none => rfl
    | some st1 => exact ih st1

theorem processRule_eq (g : Grammar) (first : First) (r : String) (st : State) :
    processRule g first r st = processAlts g first (altsOfRule r) st := by
  unfold processRule altsOfRule processAlts
  cases parseRule r with
  | none => rfl
  | some p =>
    obtain ⟨left, alternatives⟩ := p
    simp only
    rw [forEach_map]
    rfl

theorem forEach_rules_eq (g : Grammar) (first : First) (rules : List String) :
    ∀ st, forEach (processRule g first) rules st =
      processAlts g first (rules.flatMap altsOfRule) st := by
  induction rules with
  | nil => intro st; rfl
  | cons r rules ih =>
    intro st
    rw [List.flatMap_cons]
    unfold processAlts
    rw [forEach_append]
    simp only [forEach]
    rw [processRule_eq]
    unfold processAlts
    cases forEach (fun p => processSymbols g first p.1 p.2) (altsOfRule r) st with
    | none => rfl
    | some st1 => exact ih st1

theorem pass_eq (g : Grammar) (first : First) (fs : FollowSets) :
    pass g first fs = processAlts g first (altsOf g) ⟨fs, false⟩ :=
  forEach_rules_eq g first g.rules ⟨fs, false⟩

theorem processAlts_cons (g : Grammar) (first : First) (p : String × List String)
    (l : List (String × List String)) (st st2 : State)
    (h : processAlts g first (p :: l) st = some st2) :
    ∃ st1, processSymbols g first p.1 p.2 st = some st1 ∧ processAlts g first l st1 = some st2 := by
  unfold processAlts at h
  simp only [forEach] at h
  cases h1 : processSymbols g first p.1 p.2 st with
  | none => rw [h1] at h; exact absurd h (by simp)
  | some st1 => rw [h1] at h; exact ⟨st1, rfl, h⟩

theorem processAlts_nil (g : Grammar) (first : First) (st st2 : State)
    (h : processAlts g first [] st = some st2) : st2 = st := by
  unfold processAlts at h
  simp only [forEach, Option.some.injEq] at h
  exact h.symm

theorem alts_mono (g : Grammar) (first : First) (l : List (String × List String)) :
    ∀ (st st2 : State), processAlts g first l st = some st2 →
      ∀ k, st.followSets.get k ⊆ st2.followSets.get k := by
  induction l with
  | nil => intro st st2 h k; rw [processAlts_nil g first st st2 h]
  | cons p l ih =>
    intro st st2 h k
    obtain ⟨st1, h1, h2⟩ := processAlts_cons g first p l st st2 h
    exact (alt_mono g first p.1 p.2 st st1 h1 k).trans (ih st1 st2 h2 k)

theorem alts_below (g : Grammar) (first : First) (F : String → Finset String)
    (l : List (String × List String)) :
    ∀ (st st2 : State), processAlts g first l st = some st2 →
      (∀ p ∈ l, ClosedAlt g first F p) → (∀ k, st.followSets.get k ⊆ F k) →
        ∀ k, st2.followSets.get k ⊆ F k := by
  induction l with
  | nil => intro st st2 h _ hF k; rw [processAlts_nil g first st st2 h]; exact hF k
  | cons p l ih =>
    intro st st2 h hc hF
    obtain ⟨st1, h1, h2⟩ := processAlts_cons g first p l st st2 h
    exact ih st1 st2 h2 (fun q hq => hc q (List.mem_cons_of_mem _ hq))
      (alt_below g first F p.1 p.2 st st1 h1 (hc p (List.mem_cons_self _ _)) hF)

theorem alts_changed_false (g : Grammar) (first : First) (l : List (String × List String)) :
    ∀ (st st2 : State), processAlts g first l st = some st2 → st2.changed = false →
      st.changed = false ∧ st2.followSets.get = st.followSets.get ∧
        ∀ p ∈ l, ClosedAlt g first st.followSets.get p := by
  induction l with
  | nil =>
    intro st st2 h hch
    rw [processAlts_nil g first st st2 h] at hch ⊢
    exact ⟨hch, rfl, fun p hp => absurd hp (List.not_mem_nil p)⟩
  | cons p l ih =>
    intro st st2 h hch
    obtain ⟨st1, h1, h2⟩ := processAlts_cons g first p l st st2 h
    obtain ⟨h3, h4, h5⟩ := ih st1 st2 h2 hch
    obtain ⟨h6, h7, h8⟩ := alt_changed_false g first p.1 p.2 st st1 h1 h3
    refine ⟨h6, by rw [h4, h7], ?_⟩
    intro q hq
    rcases List.mem_cons.mp hq with rfl | hq
    · exact h8
    · rw [← h7]; exact h5 q hq

theorem alts_fixed (g : Grammar) (first : First) (l : List (String × List String)) :
    ∀ (st st2 : State), processAlts g first l st = some st2 →
      (∀ p ∈ l, ClosedAlt g first st.followSets.get p) →
        st2.followSets.get = st.followSets.get ∧ st2.changed = st.changed := by
  induction l with
  | nil =>
    intro st st2 h _
    rw [processAlts_nil g first st st2 h]
    exact ⟨rfl, rfl⟩
  | cons p l ih =>
    intro st st2 h hc
    obtain ⟨st1, h1, h2⟩ := processAlts_cons g first p l st st2 h
    obtain ⟨h3, h4⟩ := alt_fixed g first p.1 p.2 st st1 h1 (hc p (List.mem_cons_self _ _))
    obtain ⟨h5, h6⟩ := ih st1 st2 h2 (by
      intro q hq; rw [h3]; exact hc q (List.mem_cons_of_mem _ hq))
    exact ⟨by rw [h5, h3], by rw [h6, h4]⟩

theorem alts_total (g : Grammar) (first : First) (l : List (String × List String)) :
    ∀ (st st2 : State), processAlts g first l st = some st2 → st2.changed = true →
      st.changed = true ∨ totalSize g st.followSets < totalSize g st2.followSets := by
  induction l with
  | nil =>
    intro st st2 h hch
    rw [processAlts_nil g first st st2 h] at hch
    exact Or.inl hch
  | cons p l ih =>
    intro st st2 h hch
    obtain ⟨st1, h1, h2⟩ := processAlts_cons g first p l st st2 h
    rcases ih st1 st2 h2 hch with h3 | h3
    · rcases alt_total g first p.1 p.2 st st1 h1 h3 with h4 | h4
      · exact Or.inl h4
      · right
        exact lt_of_lt_of_le h4 (totalSize_mono g _ _ (alts_mono g first l st1 st2 h2))
    · right
      exact lt_of_le_of_lt (totalSize_mono g _ _ (alt_mono g first p.1 p.2 st st1 h1)) h3

theorem alts_keys (g : Grammar) (first : First) (l : List (String × List String)) :
    ∀ (st st2 : State), processAlts g first l st = some st2 →
      (∀ k ∈ g.nonTerminals, (st.followSets k).isSome = true) →
        ∀ k, (st2.followSets k).isSome = true ↔
          (∃ p ∈ l, k = p.1) ∨ (st.followSets k).isSome = true := by
  induction l with
  | nil =>
    intro st st2 h _ k
    rw [processAlts_nil g first st st2 h]
    simp
  | cons p l ih =>
    intro st st2 h hnt k
    obtain ⟨st1, h1, h2⟩ := processAlts_cons g first p l st st2 h
    have hk := alt_keys g first p.1 p.2 st st1 h1 hnt
    rw [ih st1 st2 h2 (fun k1 hk1 => (hk k1).mpr (Or.inr (hnt k1 hk1))) k, hk k]
    simp only [List.mem_cons, exists_eq_or_imp]
    constructor
    · rintro (h3 | h3 | h3)
      · exact Or.inl (Or.inr h3)
      · exact Or.inl (Or.inl h3)
      · exact Or.inr h3
    · rintro ((h3 | h3) | h3)
      · exact Or.inr (Or.inl h3)
      · exact Or.inl h3
      · exact Or.inr (Or.inr h3)

theorem alts_isSome (g : Grammar) (first : First) (l : List (String × List String)) :
    ∀ (st : State), (processAlts g first l st).isSome = true ↔
      ∀ p ∈ l, (addsA g first p.2).isSome = true := by
  induction l with
  | nil => intro st; simp [processAlts, forEach]
  | cons p l ih =>
    intro st
    unfold processAlts
    simp only [forEach, List.mem_cons, forall_eq_or_imp]
    have h0 := processSymbols_isSome g first p.1 p.2 st
    cases h1 : processSymbols g first p.1 p.2 st with
    | none =>
      rw [h1] at h0
      simp only [Option.isSome_none] at h0
      simp [← h0]
    | some st1 =>
      rw [h1] at h0
      simp only [Option.isSome_some] at h0
      simp only [← h0, true_and]
      exact ih st1

theorem literalsOf_subset (g : Grammar) (first : First) (p : String × List String)
    (hp : p ∈ altsOf g) (t : String) (ht : t ∈ p.2) :
    literalsOf g t ⊆ allSymbols g first := by
  intro x hx
  unfold allSymbols alphabet
  apply Finset.mem_insert_of_mem
  apply Finset.mem_union_left
  rw [Finset.mem_biUnion]
  refine ⟨t, ?_, hx⟩
  rw [List.mem_toFinset, List.mem_flatMap]
  exact ⟨p, hp, ht⟩

theorem firstSets_subset (g : Grammar) (first : First) (nt : String)
    (hnt : nt ∈ g.nonTerminals) :
    ((first.firstSets nt).getD ∅).filter (fun s => !is_eps s) ⊆ allSymbols g first := by
  intro x hx
  unfold allSymbols alphabet
  apply Finset.mem_insert_of_mem
  apply Finset.mem_union_right
  rw [Finset.mem_biUnion]
  exact ⟨nt, hnt, hx⟩

theorem firstNext_subset (g : Grammar) (first : First) (y : String) (fn : Finset String)
    (U : Finset String) (hl : literalsOf g y ⊆ U)
    (hf : ∀ nt ∈ g.nonTerminals,
      ((first.firstSets nt).getD ∅).filter (fun s => !is_eps s) ⊆ U)
    (h : firstNext g first (trim y) = some fn) :
    fn.filter (fun s => !is_eps s) ⊆ U := by
  unfold firstNext at h
  unfold literalsOf at hl
  by_cases h1 : is_quoted_terminal (trim y) = true
  · rw [if_pos h1] at h hl
    simp only [Option.some.injEq] at h
    subst h
    refine (Finset.filter_subset _ _).trans ?_
    unfold termOf at hl
    rwa [if_pos h1] at hl
  · rw [if_neg h1] at h hl
    by_cases h2 : trim y ∈ g.nonTerminals
    · rw [if_pos h2] at h
      have := hf _ h2
      rw [h] at this
      exact this
    · rw [if_neg h2] at h hl
      by_cases h3 : is_eps (trim y) = true
      · rw [if_neg (by simp [h3])] at h
        simp only [Option.some.injEq] at h
        subst h
        simp
      · rw [if_pos (by simpa using h3)] at h
        rw [if_neg h3] at hl
        simp only [Option.some.injEq] at h
        subst h
        exact (Finset.filter_subset _ _).trans hl

theorem addsA_subset (g : Grammar) (first : First) (U : Finset String)
    (hf : ∀ nt ∈ g.nonTerminals,
      ((first.firstSets nt).getD ∅).filter (fun s => !is_eps s) ⊆ U)
    (syms : List String) :
    (∀ t ∈ syms, literalsOf g t ⊆ U) →
      ∀ la, addsA g first syms = some la → ∀ q ∈ la, q.2 ⊆ U := by
  induction syms with
  | nil =>
    intro _ la h q hq
    simp only [addsA, Option.some.injEq] at h
    subst h; exact absurd hq (List.not_mem_nil q)
  | cons x rest ih =>
    intro hl la h q hq
    have hrest : ∀ t ∈ rest, literalsOf g t ⊆ U := fun t ht => hl t (List.mem_cons_of_mem _ ht)
    unfold addsA at h
    by_cases h0 : trim x = "" ∨ trim x ∉ g.nonTerminals
    · simp only [h0, if_true] at h; exact ih hrest la h q hq
    · simp only [h0, if_false] at h
      cases rest with
      | nil =>
        simp only [Option.some.injEq] at h
        subst h; exact absurd hq (List.not_mem_nil q)
      | cons y rest1 =>
        simp only at h
        cases hfn : firstNext g first (trim y) with
        | none => rw [hfn] at h; exact absurd h (by simp)
        | some fn =>
          rw [hfn] at h
          simp only at h
          cases hla : addsA g first (y :: rest1) with
          | none => rw [hla] at h; exact absurd h (by simp)
          | some l =>
            rw [hla] at h
            simp only [Option.map_some', Option.some.injEq] at h
            subst h
            rcases List.mem_cons.mp hq with rfl | hq
            · exact firstNext_subset g first y fn U (hrest y (List.mem_cons_self _ _)) hf hfn
            · exact ih hrest l hla q hq

theorem nextTrailer_subset (g : Grammar) (first : First) (U : Finset String)
    (hf : ∀ nt ∈ g.nonTerminals,
      ((first.firstSets nt).getD ∅).filter (fun s => !is_eps s) ⊆ U)
    (Xi : String) (hX : Xi ∈ g.nonTerminals) (trailer : Finset String) (ht : trailer ⊆ U) :
    nextTrailer first Xi trailer ⊆ U := by
  unfold nextTrailer
  simp only
  split
  · exact Finset.union_subset ht (hf Xi hX)
  · exact hf Xi hX

theorem addsB_subset (g : Grammar) (first : First) (U : Finset String)
    (hf : ∀ nt ∈ g.nonTerminals,
      ((first.firstSets nt).getD ∅).filter (fun s => !is_eps s) ⊆ U)
    (syms : List String) :
    (∀ t ∈ syms, literalsOf g t ⊆ U) → ∀ trailer, trailer ⊆ U →
      ∀ q ∈ addsB g first syms trailer, q.2 ⊆ U := by
  induction syms with
  | nil => intro _ trailer _ q hq; exact absurd hq (List.not_mem_nil q)
  | cons x rest ih =>
    intro hl trailer ht q hq
    have hrest : ∀ t ∈ rest, literalsOf g t ⊆ U := fun t h => hl t (List.mem_cons_of_mem _ h)
    have hx := hl x (List.mem_cons_self _ _)
    unfold addsB at hq
    by_cases h1 : trim x = ""
    · simp only [h1, if_true] at hq; exact ih hrest _ ht q hq
    · simp only [h1, if_false] at hq
      by_cases h2 : trim x ∈ g.nonTerminals
      · simp only [h2, if_true] at hq
        rcases List.mem_cons.mp hq with rfl | hq
        · exact ht
        · exact ih hrest _ (nextTrailer_subset g first U hf _ h2 trailer ht) q hq
      · simp only [h2, if_false] at hq
        by_cases h3 : is_eps (trim x) = true
        · simp only [h3, if_true] at hq; exact ih hrest _ ht q hq
        · simp only [h3] at hq
          refine ih hrest _ ?_ q hq
          unfold literalsOf at hx
          by_cases h4 : is_quoted_terminal (trim x) = true
          · rwa [if_pos h4] at hx
          · rw [if_neg h4, if_neg h2, if_neg h3] at hx
            unfold termOf
            rwa [if_neg h4]

/-- The constant family of all symbols is closed under both rules. -/
theorem closed_allSymbols (g : Grammar) (first : First) :
    Closed g first (fun _ => allSymbols g first) := by
  intro p hp
  have hl : ∀ t ∈ p.2, literalsOf g t ⊆ allSymbols g first :=
    fun t ht => literalsOf_subset g first p hp t ht
  have hf := firstSets_subset g first
  constructor
  · exact addsA_subset g first _ hf p.2 hl
  · apply addsB_subset g first _ hf p.2.reverse
    · intro t ht; exact hl t (List.mem_reverse.mp ht)
    · exact Finset.Subset.refl _

theorem card_allSymbols_le (g : Grammar) (first : First) :
    (allSymbols g first).card ≤ (alphabet g first).card + 1 :=
  Finset.card_insert_le _ _

theorem totalSize_le (g : Grammar) (first : First) (fs : FollowSets)
    (h : Bounded g first fs) :
    totalSize g fs ≤ g.nonTerminals.card * ((alphabet g first).card + 1) := by
  unfold totalSize
  calc ∑ k in g.nonTerminals, (fs.get k).card
      ≤ ∑ _k in g.nonTerminals, ((alphabet g first).card + 1) :=
        Finset.sum_le_sum fun k _ =>
          (Finset.card_le_card (h k)).trans (card_allSymbols_le g first)
    _ = g.nonTerminals.card * ((alphabet g first).card + 1) := by
        rw [Finset.sum_const, smul_eq_mul]

theorem pass_isSome (g : Grammar) (first : First) (fs : FollowSets) :
    (pass g first fs).isSome = true ↔ NoRaise g first := by
  rw [pass_eq]
  exact alts_isSome g first (altsOf g) _

theorem pass_mono (g : Grammar) (first : First) (fs : FollowSets) (st : State)
    (h : pass g first fs = some st) (k : String) : fs.get k ⊆ st.followSets.get k := by
  rw [pass_eq] at h
  exact alts_mono g first _ _ st h k

theorem pass_below (g : Grammar) (first : First) (F : String → Finset String)
    (fs : FollowSets) (st : State) (h : pass g first fs = some st)
    (hc : Closed g first F) (hF : ∀ k, fs.get k ⊆ F k) : ∀ k, st.followSets.get k ⊆ F k := by
  rw [pass_eq] at h
  exact alts_below g first F _ _ st h hc hF

theorem pass_changed_false (g : Grammar) (first : First) (fs : FollowSets) (st : State)
    (h : pass g first fs = some st) (hch : st.changed = false) :
    st.followSets.get = fs.get ∧ Closed g first fs.get := by
  rw [pass_eq] at h
  obtain ⟨_, h2, h3⟩ := alts_changed_false g first _ _ st h hch
  exact ⟨h2, h3⟩

theorem pass_fixed (g : Grammar) (first : First) (fs : FollowSets) (st : State)
    (h : pass g first fs = some st) (hc : Closed g first fs.get) :
    st.followSets.get = fs.get ∧ st.changed = false := by
  rw [pass_eq] at h
  exact alts_fixed g first _ _ st h hc

theorem pass_total (g : Grammar) (first : First) (fs : FollowSets) (st : State)
    (h : pass g first fs = some st) (hch : st.changed = true) :
    totalSize g fs < totalSize g st.followSets := by
  rw [pass_eq] at h
  rcases alts_total g first _ _ st h hch with h1 | h1
  · exact absurd h1 (by simp)
  · exact h1

theorem pass_keys (g : Grammar) (first : First) (fs : FollowSets) (st : State)
    (h : pass g first fs = some st)
    (hnt : ∀ k ∈ g.nonTerminals, (fs k).isSome = true) (k : String) :
    (st.followSets k).isSome = true ↔ (∃ p ∈ altsOf g, k = p.1) ∨ (fs k).isSome = true := by
  rw [pass_eq] at h
  exact alts_keys g first _ _ st h hnt k

theorem pass_bounded (g : Grammar) (first : First) (fs : FollowSets) (st : State)
    (h : pass g first fs = some st) (hb : Bounded g first fs) :
    Bounded g first st.followSets :=
  pass_below g first _ fs st h (closed_allSymbols g first) hb

/-! ## The loop -/

theorem succ_ok (r : Result) (fs : FollowSets) (n : Nat) (h : r.succ = .ok fs n) :
    ∃ m, r = .ok fs m ∧ n = m + 1 := by
  cases r with
  | ok fs1 m =>
    simp only [Result.succ, Result.ok.injEq] at h
    exact ⟨m, by rw [h.1], h.2.symm⟩
  | raised => simp [Result.succ] at h
  | timeout => simp [Result.succ] at h

theorem succ_ne_timeout (r : Result) (h : r ≠ .timeout) : r.succ ≠ .timeout := by
  cases r with
  | ok fs1 m => simp [Result.succ]
  | raised => simp [Result.succ]
  | timeout => exact absurd rfl h

theorem succ_raised (r : Result) : r.succ = .raised ↔ r = .raised := by
  cases r <;> simp [Result.succ]

theorem whileLoop_succ (g : Grammar) (first : First) (fuel : Nat) (fs : FollowSets) :
    whileLoop g first (fuel + 1) fs =
      match pass g first fs with
      | none => .raised
      | some st =>
        if st.changed then (whileLoop g first fuel st.followSets).succ
        else .ok st.followSets 1 := rfl

/-- A completed loop ends with a pass that changes nothing, run on a map that
satisfies every invariant of the passes. -/
theorem whileLoop_ok_inv (g : Grammar) (first : First) (Inv : FollowSets → Prop)
    (hpres : ∀ fs st, Inv fs → pass g first fs = some st → Inv st.followSets) :
    ∀ fuel fs fs2 n, Inv fs → whileLoop g first fuel fs = .ok fs2 n →
      ∃ fs1 st, Inv fs1 ∧ pass g first fs1 = some st ∧ st.changed = false ∧
        st.followSets = fs2 := by
  intro fuel
  induction fuel with
  | zero => intro fs fs2 n _ h; simp [whileLoop] at h
  | succ fuel ih =>
    intro fs fs2 n hinv h
    rw [whileLoop_succ] at h
    cases hp : pass g first fs with
    | none => rw [hp] at h; simp at h
    | some st =>
      rw [hp] at h
      simp only at h
      cases hc : st.changed with
      | true =>
        rw [hc] at h
        simp only [if_true] at h
        obtain ⟨m, hm, _⟩ := succ_ok _ _ _ h
        exact ih st.followSets fs2 m (hpres fs st hinv hp) hm
      | false =>
        rw [hc] at h
        simp only [Bool.false_eq_true, if_false, Result.ok.injEq] at h
        exact ⟨fs, st, hinv, hp, hc, h.1⟩

theorem whileLoop_ne_timeout (g : Grammar) (first : First) :
    ∀ fuel fs, Bounded g first fs →
      g.nonTerminals.card * ((alphabet g first).card + 1) < fuel + totalSize g fs →
        whileLoop g first fuel fs ≠ .timeout := by
  intro fuel
  induction fuel with
  | zero =>
    intro fs hb hlt
    have := totalSize_le g first fs hb
    omega
  | succ fuel ih =>
    intro fs hb hlt
    rw [whileLoop_succ]
    cases hp : pass g first fs with
    | none => simp
    | some st =>
      simp only
      cases hc : st.changed with
      | true =>
        simp only [if_true]
        apply succ_ne_timeout
        apply ih _ (pass_bounded g first fs st hp hb)
        have := pass_total g first fs st hp hc
        omega
      | false => simp

theorem whileLoop_passes (g : Grammar) (first : First) :
    ∀ fuel fs fs2 n, Bounded g first fs → whileLoop g first fuel fs = .ok fs2 n →
      n + totalSize g fs ≤ g.nonTerminals.card * ((alphabet g first).card + 1) + 1 := by
  intro fuel
  induction fuel with
  | zero => intro fs fs2 n _ h; simp [whileLoop] at h
  | succ fuel ih =>
    intro fs fs2 n hb h
    rw [whileLoop_succ] at h
    cases hp : pass g first fs with
    | none => rw [hp] at h; simp at h
    | some st =>
      rw [hp] at h
      simp only at h
      cases hc : st.changed with
      | true =>
        rw [hc] at h
        simp only [if_true] at h
        obtain ⟨m, hm, hn⟩ := succ_ok _ _ _ h
        have h1 := ih st.followSets fs2 m (pass_bounded g first fs st hp hb) hm
        have h2 := pass_total g first fs st hp hc
        omega
      | false =>
        rw [hc] at h
        simp only [Bool.false_eq_true, if_false, Result.ok.injEq] at h
        have := totalSize_le g first fs hb
        omega

theorem whileLoop_raised (g : Grammar) (first : First) :
    ∀ fuel fs, whileLoop g first fuel fs = .raised ↔ 0 < fuel ∧ ¬ NoRaise g first := by
  intro fuel
  induction fuel with
  | zero => intro fs; simp [whileLoop]
  | succ fuel ih =>
    intro fs
    rw [whileLoop_succ]
    have hs := pass_isSome g first fs
    cases hp : pass g first fs with
    | none =>
      rw [hp] at hs
      simp only [Option.isSome_none, Bool.false_eq_true, false_iff] at hs
      simp [hs]
    | some st =>
      rw [hp] at hs
      simp only [Option.isSome_some, true_iff] at hs
      simp only
      cases hc : st.changed with
      | true =>
        simp only [if_true]
        rw [succ_raised, ih]
        simp [hs]
      | false => simp [hs]

/-! ## The whole computation -/

theorem get_initFollow (g : Grammar) (k : String) : (initFollow g).get k = ∅ := by
  unfold initFollow FollowSets.get
  by_cases h : k ∈ g.nonTerminals <;> simp [h]

theorem get_seed (g : Grammar) (k : String) :
    (seed g).get k = if g.initialState ≠ "" ∧ k = g.initialState then {"$"} else ∅ := by
  unfold seed
  by_cases h : g.initialState = ""
  · simp [h, get_initFollow]
  · simp only [h, if_false, get_insertAll, get_initFollow, ne_eq, not_false_eq_true, true_and]
    split <;> simp

theorem isSome_seed (g : Grammar) (k : String) :
    ((seed g) k).isSome = true ↔
      k ∈ g.nonTerminals ∨ (g.initialState ≠ "" ∧ k = g.initialState) := by
  unfold seed
  by_cases h : g.initialState = ""
  · simp only [h, if_true, ne_eq, not_true_eq_false, false_and, or_false]
    unfold initFollow
    split <;> simp [*]
  · simp only [h, if_false, isSome_insertAll, ne_eq, not_false_eq_true, true_and]
    unfold initFollow
    by_cases h2 : k ∈ g.nonTerminals <;> simp [h2]

theorem seed_bounded (g : Grammar) (first : First) : Bounded g first (seed g) := by
  intro k
  rw [get_seed]
  split
  · intro x hx
    rw [Finset.mem_singleton] at hx
    subst hx
    exact Finset.mem_insert_self _ _
  · exact Finset.empty_subset _

theorem compute_ne_timeout (g : Grammar) (first : First) : compute g first ≠ .timeout := by
  unfold compute passBound
  apply whileLoop_ne_timeout g first _ _ (seed_bounded g first)
  omega

theorem compute_raised (g : Grammar) (first : First) :
    compute g first = .raised ↔ ¬ NoRaise g first := by
  unfold compute
  rw [whileLoop_raised]
  unfold passBound
  simp

theorem compute_ok (g : Grammar) (first : First) (h : NoRaise g first) :
    ∃ fs n, compute g first = .ok fs n := by
  have h1 := compute_ne_timeout g first
  have h2 := (compute_raised g first).not.mpr (not_not.mpr h)
  cases hc : compute g first with
  | ok fs n => exact ⟨fs, n, rfl⟩
  | raised => exact absurd hc h2
  | timeout => exact absurd hc h1

theorem seed_seeded (g : Grammar) : Seeded g (seed g).get := by
  intro h
  rw [get_seed]
  simp [h]

theorem seed_below (g : Grammar) (F : String → Finset String) (hF : Seeded g F) (k : String) :
    (seed g).get k ⊆ F k := by
  rw [get_seed]
  split
  · rename_i h
    intro x hx
    rw [Finset.mem_singleton] at hx
    subst hx
    rw [h.2]
    exact hF h.1
  · exact Finset.empty_subset _

/-- The final map is the least family of sets that holds the end marker of the
start symbol and is closed under the insertions of both rules. -/
theorem compute_least (g : Grammar) (first : First) (fs : FollowSets) (n : Nat)
    (h : compute g first = .ok fs n) :
    Seeded g fs.get ∧ Closed g first fs.get ∧
      ∀ F, Seeded g F → Closed g first F → ∀ k, fs.get k ⊆ F k := by
  unfold compute at h
  obtain ⟨fs1, st, ⟨hi1, hi2⟩, hp, hc, rfl⟩ := whileLoop_ok_inv g first
    (fun fs => Seeded g fs.get ∧ ∀ F, Seeded g F → Closed g first F → ∀ k, fs.get k ⊆ F k)
    (fun fs st hinv hp =>
      ⟨fun hne => pass_mono g first fs st hp _ (hinv.1 hne),
        fun F hF hcl => pass_below g first F fs st hp hcl (hinv.2 F hF hcl)⟩)
    _ _ fs n ⟨seed_seeded g, fun F hF _ => seed_below g F hF⟩ h
  obtain ⟨h1, h2⟩ := pass_changed_false g first fs1 st hp hc
  rw [h1]
  exact ⟨hi1, h2, hi2⟩

/-- The keys of the final map. -/
theorem compute_keys (g : Grammar) (first : First) (fs : FollowSets) (n : Nat)
    (h : compute g first = .ok fs n) (k : String) :
    (fs k).isSome = true ↔
      k ∈ g.nonTerminals ∨ (g.initialState ≠ "" ∧ k = g.initialState) ∨
        ∃ p ∈ altsOf g, k = p.1 := by
  unfold compute at h
  obtain ⟨fs1, st, ⟨hi1, hi2⟩, hp, _, rfl⟩ := whileLoop_ok_inv g first
    (fun fs => (∀ k, (k ∈ g.nonTerminals ∨ (g.initialState ≠ "" ∧ k = g.initialState)) →
        (fs k).isSome = true) ∧
      ∀ k, (fs k).isSome = true → k ∈ g.nonTerminals ∨
        (g.initialState ≠ "" ∧ k = g.initialState) ∨ ∃ p ∈ altsOf g, k = p.1)
    (fun fs st hinv hp => by
      have hk := pass_keys g first fs st hp (fun k hk => hinv.1 k (Or.inl hk))
      constructor
      · intro k hk1
        exact (hk k).mpr (Or.inr (hinv.1 k hk1))
      · intro k hk1
        rcases (hk k).mp hk1 with h1 | h1
        · exact Or.inr (Or.inr h1)
        · exact hinv.2 k h1)
    _ _ fs n
    ⟨fun k hk => (isSome_seed g k).mpr hk, fun k hk => by
      rcases (isSome_seed g k).mp hk with h1 | h1
      · exact Or.inl h1
      · exact Or.inr (Or.inl h1)⟩ h
  rw [pass_keys g first fs1 st hp (fun k hk => hi1 k (Or.inl hk)) k]
  constructor
  · rintro (h1 | h1)
    · exact Or.inr (Or.inr h1)
    · exact hi2 k h1
  · rintro (h1 | h1 | h1)
    · exact Or.inr (hi1 k (Or.inl h1))
    · exact Or.inr (hi1 k (Or.inr h1))
    · exact Or.inl h1

/-! ## Symbols are trimmed -/

theorem trimChars_fixed (l : List Char) :
    List.dropWhile isBlank (List.rdropWhile isBlank (List.dropWhile isBlank l)) =
      List.rdropWhile isBlank (List.dropWhile isBlank l) := by
  by_cases hne : List.rdropWhile isBlank (List.dropWhile isBlank l) = []
  · rw [hne]; rfl
  · rw [List.dropWhile_eq_self_iff]
    intro hl
    have hpre : List.rdropWhile isBlank (List.dropWhile isBlank l) <+: List.dropWhile isBlank l :=
      List.rdropWhile_prefix isBlank _
    have hne2 : List.dropWhile isBlank l ≠ [] := by
      intro h0
      rw [h0] at hne
      exact hne rfl
    have hhead := hpre.head hne
    have hlen : 0 < (List.dropWhile isBlank l).length := List.length_pos.mpr hne2
    have h1 := List.dropWhile_get_zero_not isBlank l hlen
    have h2 : (List.rdropWhile isBlank (List.dropWhile isBlank l)).get ⟨0, hl⟩ =
        (List.dropWhile isBlank l).get ⟨0, hlen⟩ := by
      rw [List.get_eq_getElem, List.get_eq_getElem, ← List.head_eq_getElem _ hne,
        ← List.head_eq_getElem _ hne2]
      exact hhead
    rw [h2]
    exact h1

theorem trim_trim (s : String) : trim (trim s) = trim s := by
  unfold trim
  congr 1
  change List.rdropWhile isBlank (List.dropWhile isBlank
    (List.rdropWhile isBlank (List.dropWhile isBlank s.data))) = _
  rw [trimChars_fixed, List.rdropWhile_idempotent]
  rfl

theorem symbolsOf_mem (alt t : String) (h : t ∈ symbolsOf alt) : trim t = t ∧ t ≠ "" := by
  unfold symbolsOf at h
  rw [List.mem_filter, List.mem_map] at h
  obtain ⟨⟨a, _, rfl⟩, h2⟩ := h
  exact ⟨trim_trim a, by simpa using h2⟩

theorem altsOfRule_mem (r : String) (p : String × List String) (hp : p ∈ altsOfRule r)
    (t : String) (ht : t ∈ p.2) : trim t = t ∧ t ≠ "" := by
  unfold altsOfRule at hp
  cases hr : parseRule r with
  | none => rw [hr] at hp; exact absurd hp (List.not_mem_nil p)
  | some q =>
    rw [hr] at hp
    obtain ⟨left, alternatives⟩ := q
    simp only [List.mem_map] at hp
    obtain ⟨alt, _, rfl⟩ := hp
    exact symbolsOf_mem alt t ht

/-- The symbols of the alternatives are non-empty and free of surrounding blanks. -/
theorem altsOf_mem (g : Grammar) (p : String × List String) (hp : p ∈ altsOf g)
    (t : String) (ht : t ∈ p.2) : trim t = t ∧ t ≠ "" := by
  rw [altsOf_eq, List.mem_flatMap] at hp
  obtain ⟨r, _, hr⟩ := hp
  exact altsOfRule_mem r p hr t ht

/-! ## Lookups of FIRST sets -/

theorem firstNext_isSome (g : Grammar) (first : First)
    (hc : ∀ nt ∈ g.nonTerminals, (first.firstSets nt).isSome = true) (y : String) :
    (firstNext g first y).isSome = true := by
  unfold firstNext
  by_cases h1 : is_quoted_terminal y = true
  · rw [if_pos h1]; rfl
  · rw [if_neg h1]
    by_cases h2 : y ∈ g.nonTerminals
    · rw [if_pos h2]; exact hc y h2
    · rw [if_neg h2]
      split <;> rfl

theorem firstNext_eq_none (g : Grammar) (first : First) (y : String) :
    firstNext g first y = none ↔
      is_quoted_terminal y = false ∧ y ∈ g.nonTerminals ∧ first.firstSets y = none := by
  unfold firstNext
  by_cases h1 : is_quoted_terminal y = true
  · rw [if_pos h1]; simp [h1]
  · rw [if_neg h1]
    by_cases h2 : y ∈ g.nonTerminals
    · rw [if_pos h2]; simp [h1, h2]
    · rw [if_neg h2]
      split <;> simp [h2]

theorem addsA_isSome (g : Grammar) (first : First)
    (hc : ∀ nt ∈ g.nonTerminals, (first.firstSets nt).isSome = true) (syms : List String) :
    (addsA g first syms).isSome = true := by
  induction syms with
  | nil => rfl
  | cons x rest ih =>
    unfold addsA
    by_cases h0 : trim x = "" ∨ trim x ∉ g.nonTerminals
    · rw [if_pos h0]; exact ih
    · rw [if_neg h0]
      cases rest with
      | nil => rfl
      | cons y rest1 =>
        simp only
        have h1 := firstNext_isSome g first hc (trim y)
        cases hf : firstNext g first (trim y) with
        | none => rw [hf] at h1; exact absurd h1 (by simp)
        | some fn =>
          simp only
          cases hl : addsA g first (y :: rest1) with
          | none => rw [hl] at ih; exact absurd ih (by simp)
          | some l => rfl

theorem noRaise_of_complete (g : Grammar) (first : First)
    (hc : ∀ nt ∈ g.nonTerminals, (first.firstSets nt).isSome = true) : NoRaise g first :=
  fun p _ => addsA_isSome g first hc p.2

/-- PASO A raises on a nonterminal followed by a nonterminal without FIRST entry. -/
theorem addsA_adjacent (g : Grammar) (first : First) (x y : String) (post : List String)
    (hx1 : trim x ≠ "") (hx2 : trim x ∈ g.nonTerminals)
    (hy : firstNext g first (trim y) = none) :
    ∀ pre, addsA g first (pre ++ x :: y :: post) = none := by
  have hbase : addsA g first (x :: y :: post) = none := by
    unfold addsA
    rw [if_neg (by rintro (h | h); exact hx1 h; exact h hx2)]
    simp only [hy]
  intro pre
  induction pre with
  | nil => exact hbase
  | cons a pre ih =>
    rw [List.cons_append]
    unfold addsA
    by_cases h0 : trim a = "" ∨ trim a ∉ g.nonTerminals
    · rw [if_pos h0]; exact ih
    · rw [if_neg h0]
      cases pre with
      | nil =>
        simp only [List.nil_append]
        cases hf : firstNext g first (trim x) with
        | none => rfl
        | some fn => simp only; rw [hbase]; rfl
      | cons b pre1 =>
        simp only [List.cons_append]
        cases hf : firstNext g first (trim b) with
        | none => rfl
        | some fn =>
          simp only
          rw [List.cons_append] at ih
          rw [ih]; rfl

/-! ## The supply of passes -/

theorem whileLoop_fuel (g : Grammar) (first : First) :
    ∀ fuel fs fs2 n, whileLoop g first fuel fs = .ok fs2 n →
      ∀ fuel1, n ≤ fuel1 → whileLoop g first fuel1 fs = .ok fs2 n := by
  intro fuel
  induction fuel with
  | zero => intro fs fs2 n h; simp [whileLoop] at h
  | succ fuel ih =>
    intro fs fs2 n h fuel1 hle
    rw [whileLoop_succ] at h
    cases hp : pass g first fs with
    | none => rw [hp] at h; simp at h
    | some st =>
      rw [hp] at h
      simp only at h
      cases hc : st.changed with
      | true =>
        rw [hc] at h
        simp only [if_true] at h
        obtain ⟨m, hm, hn⟩ := succ_ok _ _ _ h
        obtain ⟨f, rfl⟩ : ∃ f, fuel1 = f + 1 := ⟨fuel1 - 1, by omega⟩
        rw [whileLoop_succ, hp]
        simp only [hc, if_true]
        rw [ih st.followSets fs2 m hm f (by omega), hn]
        rfl
      | false =>
        rw [hc] at h
        simp only [Bool.false_eq_true, if_false, Result.ok.injEq] at h
        obtain ⟨f, rfl⟩ : ∃ f, fuel1 = f + 1 := ⟨fuel1 - 1, by omega⟩
        rw [whileLoop_succ, hp]
        simp only [hc, Bool.false_eq_true, if_false, Result.ok.injEq]
        exact h

theorem compute_passes_le (g : Grammar) (first : First) (fs : FollowSets) (n : Nat)
    (h : compute g first = .ok fs n) : n ≤ passBound g first := by
  unfold compute at h
  have := whileLoop_passes g first _ _ fs n (seed_bounded g first) h
  unfold passBound
  omega

/-! ## Maps with the same entries -/

theorem followSets_ext (m1 m2 : FollowSets) (hget : m1.get = m2.get)
    (hkeys : ∀ k, (m1 k).isSome = true ↔ (m2 k).isSome = true) : m1 = m2 := by
  funext k
  have h1 := congrFun hget k
  have h2 := hkeys k
  unfold FollowSets.get at h1
  cases ha : m1 k with
  | none =>
    cases hb : m2 k with
    | none => rfl
    | some b => rw [ha, hb] at h2; simp at h2
  | some a =>
    cases hb : m2 k with
    | none => rw [ha, hb] at h2; simp at h2
    | some b => rw [ha, hb] at h1; simpa using h1

theorem noRaise_of_ok (g : Grammar) (first : First) (fs : FollowSets) (n : Nat)
    (h : compute g first = .ok fs n) : NoRaise g first := by
  by_contra hn
  rw [(compute_raised g first).mpr hn] at h
  exact absurd h (by simp)

/-- One more pass on the final map changes nothing. -/
theorem compute_stable (g : Grammar) (first : First) (fs : FollowSets) (n : Nat)
    (h : compute g first = .ok fs n) :
    ∃ st, pass g first fs = some st ∧ st.changed = false ∧ st.followSets = fs := by
  have hnr := noRaise_of_ok g first fs n h
  have hs := (pass_isSome g first fs).mpr hnr
  cases hp : pass g first fs with
  | none => rw [hp] at hs; exact absurd hs (by simp)
  | some st =>
    obtain ⟨_, hcl, _⟩ := compute_least g first fs n h
    obtain ⟨h1, h2⟩ := pass_fixed g first fs st hp hcl
    refine ⟨st, rfl, h2, followSets_ext _ _ h1 ?_⟩
    intro k
    have hk := compute_keys g first fs n h
    rw [pass_keys g first fs st hp (fun k1 hk1 => (hk k1).mpr (Or.inl hk1)) k]
    constructor
    · rintro (h3 | h3)
      · exact (hk k).mpr (Or.inr (Or.inr h3))
      · exact h3
    · exact Or.inr

/-! ## Order of the rules -/

theorem firstNext_congr (g g1 : Grammar) (first : First)
    (h : g1.nonTerminals = g.nonTerminals) (y : String) :
    firstNext g1 first y = firstNext g first y := by
  unfold firstNext
  rw [h]

theorem addsA_congr (g g1 : Grammar) (first : First)
    (h : g1.nonTerminals = g.nonTerminals) (syms : List String) :
    addsA g1 first syms = addsA g first syms := by
  induction syms with
  | nil => rfl
  | cons x rest ih =>
    unfold addsA
    rw [h]
    cases rest with
    | nil => rfl
    | cons y rest1 => simp only [firstNext_congr g g1 first h, ih]

theorem addsB_congr (g g1 : Grammar) (first : First)
    (h : g1.nonTerminals = g.nonTerminals) (syms : List String) :
    ∀ trailer, addsB g1 first syms trailer = addsB g first syms trailer := by
  induction syms with
  | nil => intro trailer; rfl
  | cons x rest ih =>
    intro trailer
    unfold addsB
    rw [h, ih, ih, ih]

theorem closed_congr (g g1 : Grammar) (first : First)
    (h : g1.nonTerminals = g.nonTerminals) (hmem : ∀ p, p ∈ altsOf g1 ↔ p ∈ altsOf g)
    (F : String → Finset String) : Closed g1 first F ↔ Closed g first F := by
  unfold Closed ClosedAlt
  simp only [addsA_congr g g1 first h, addsB_congr g g1 first h, hmem]

theorem altsOf_perm (g : Grammar) (rules1 : List String) (hp : rules1.Perm g.rules)
    (p : String × List String) :
    p ∈ altsOf ⟨g.nonTerminals, g.initialState, rules1⟩ ↔ p ∈ altsOf g := by
  rw [altsOf_eq, altsOf_eq, List.mem_flatMap, List.mem_flatMap]
  simp only [hp.mem_iff]

/-- Two grammars with the same nonterminals, start symbol and alternatives have
the same final map. -/
theorem compute_congr (g g1 : Grammar) (first : First)
    (hnt : g1.nonTerminals = g.nonTerminals) (hinit : g1.initialState = g.initialState)
    (hmem : ∀ p, p ∈ altsOf g1 ↔ p ∈ altsOf g) (fs fs1 : FollowSets) (n n1 : Nat)
    (h : compute g first = .ok fs n) (h1 : compute g1 first = .ok fs1 n1) : fs1 = fs := by
  obtain ⟨a1, a2, a3⟩ := compute_least g first fs n h
  obtain ⟨b1, b2, b3⟩ := compute_least g1 first fs1 n1 h1
  have hs : ∀ F, Seeded g1 F ↔ Seeded g F := by
    intro F; unfold Seeded; rw [hinit]
  apply followSets_ext
  · funext k
    apply Finset.Subset.antisymm
    · exact b3 fs.get ((hs _).mpr a1) ((closed_congr g g1 first hnt hmem _).mpr a2) k
    · exact a3 fs1.get ((hs _).mp b1) ((closed_congr g g1 first hnt hmem _).mp b2) k
  · intro k
    rw [compute_keys g first fs n h k, compute_keys g1 first fs1 n1 h1 k, hnt, hinit]
    simp only [hmem]

theorem is_eps_iff (s : String) :
    is_eps s = true ↔ s = "''" ∨ s = "ε" ∨ s = "EPS" ∨ s = "epsilon" := by
  unfold is_eps
  simp only [Bool.or_eq_true, beq_iff_eq, or_assoc]

theorem nullable_iff (first : First) (X : String) :
    (decide ("''" ∈ (first.firstSets X).getD ∅) || decide ("ε" ∈ (first.firstSets X).getD ∅) ||
      decide ("EPS" ∈ (first.firstSets X).getD ∅) ||
        decide ("epsilon" ∈ (first.firstSets X).getD ∅)) = true ↔ specNullable first X := by
  unfold specNullable
  simp only [Bool.or_eq_true, decide_eq_true_eq, is_eps_iff]
  constructor
  · rintro (((h | h) | h) | h)
    · exact ⟨_, h, Or.inl rfl⟩
    · exact ⟨_, h, Or.inr (Or.inl rfl)⟩
    · exact ⟨_, h, Or.inr (Or.inr (Or.inl rfl))⟩
    · exact ⟨_, h, Or.inr (Or.inr (Or.inr rfl))⟩
  · rintro ⟨s, hs, rfl | rfl | rfl | rfl⟩
    · exact Or.inl (Or.inl (Or.inl hs))
    · exact Or.inl (Or.inl (Or.inr hs))
    · exact Or.inl (Or.inr hs)
    · exact Or.inr hs

theorem nextTrailer_spec (first : First) (X : String) (trailer : Finset String) :
    (specNullable first X →
        nextTrailer first X trailer = trailer ∪ minusEps ((first.firstSets X).getD ∅)) ∧
      (¬ specNullable first X →
        nextTrailer first X trailer = minusEps ((first.firstSets X).getD ∅)) := by
  unfold nextTrailer minusEps
  simp only
  constructor
  · intro h
    rw [if_pos ((nullable_iff first X).mpr h)]
  · intro h
    rw [if_neg (fun c => h ((nullable_iff first X).mp c))]

theorem classify_nonTerminal (g : Grammar) (x : String) (hx : x ∈ g.nonTerminals)
    (hnames : ∀ nt ∈ g.nonTerminals, is_eps nt = false ∧ is_quoted_terminal nt = false) :
    classify g.nonTerminals x = .nonTerminal x := by
  unfold classify
  rw [if_neg (by simp [(hnames x hx).1]), if_neg (by simp [(hnames x hx).2]), if_pos hx]

theorem classify_other (g : Grammar) (x : String) (hx : x ∉ g.nonTerminals) :
    classify g.nonTerminals x = if is_eps x then .epsilon else .terminal (termOf x) := by
  unfold classify termOf
  by_cases h1 : is_eps x = true
  · rw [if_pos h1, if_pos h1]
  · rw [if_neg h1, if_neg h1]
    by_cases h2 : is_quoted_terminal x = true
    · rw [if_pos h2, if_pos h2]
    · rw [if_neg h2, if_neg h2, if_neg hx]

/-- On trimmed symbols the insertions of PASO B are the scan of Rule 2. -/
theorem addsB_spec (g : Grammar) (first : First) (F : String → Finset String)
    (hnames : ∀ nt ∈ g.nonTerminals, is_eps nt = false ∧ is_quoted_terminal nt = false)
    (syms : List String) :
    (∀ t ∈ syms, trim t = t ∧ t ≠ "") → ∀ trailer,
      ((∀ q ∈ addsB g first syms trailer, q.2 ⊆ F q.1) ↔
        SpecRule2Scan first F (syms.map (classify g.nonTerminals)) trailer) := by
  induction syms with
  | nil => intro _ trailer; simp [addsB, SpecRule2Scan]
  | cons x rest ih =>
    intro ht trailer
    have hrest : ∀ t ∈ rest, trim t = t ∧ t ≠ "" := fun t h => ht t (List.mem_cons_of_mem _ h)
    obtain ⟨hx1, hx2⟩ := ht x (List.mem_cons_self _ _)
    unfold addsB
    rw [hx1, if_neg hx2, List.map_cons]
    by_cases h2 : x ∈ g.nonTerminals
    · rw [if_pos h2, classify_nonTerminal g x h2 hnames]
      unfold SpecRule2Scan
      simp only [List.mem_cons, forall_eq_or_imp]
      rw [ih hrest]
      by_cases hn : specNullable first x
      · rw [(nextTrailer_spec first x trailer).1 hn]
        simp only [hn, true_implies, not_true_eq_false, false_implies, and_true]
      · rw [(nextTrailer_spec first x trailer).2 hn]
        simp only [hn, false_implies, not_false_eq_true, true_implies, true_and]
    · rw [if_neg h2, classify_other g x h2]
      by_cases h3 : is_eps x = true
      · rw [if_pos h3, if_pos h3]
        unfold SpecRule2Scan
        exact ih hrest trailer
      · rw [if_neg h3, if_neg h3]
        unfold SpecRule2Scan
        exact ih hrest _

theorem firstNext_spec (g : Grammar) (first : First)
    (hfirst : ∀ nt ∈ g.nonTerminals, (first.firstSets nt).isSome = true)
    (hnames : ∀ nt ∈ g.nonTerminals, is_eps nt = false ∧ is_quoted_terminal nt = false)
    (y : String) (hy : is_eps y = false) :
    firstNext g first y = some (specFirst first (classify g.nonTerminals y)) := by
  unfold firstNext
  by_cases h2 : y ∈ g.nonTerminals
  · rw [if_neg (by simp [(hnames y h2).2]), if_pos h2, classify_nonTerminal g y h2 hnames]
    have := hfirst y h2
    cases hf : first.firstSets y with
    | none => rw [hf] at this; exact absurd this (by simp)
    | some s => simp only [specFirst, hf, Option.getD_some]
  · have hy1 : ¬ is_eps y = true := by simp [hy]
    have hy2 : (!is_eps y) = true := by simp [hy]
    rw [classify_other g y h2, if_neg hy1]
    unfold termOf
    by_cases h1 : is_quoted_terminal y = true
    · rw [if_pos h1, if_pos h1]; rfl
    · rw [if_neg h1, if_neg h1, if_neg h2, if_pos hy2]; rfl

theorem specRule1_cons (first : First) (F : String → Finset String)
    (X Y : ClassifiedSymbol) (rest : List ClassifiedSymbol) :
    SpecRule1 first F (X :: Y :: rest) ↔
      (∀ name, X = .nonTerminal name → minusEps (specFirst first Y) ⊆ F name) ∧
        SpecRule1 first F (Y :: rest) := by
  unfold SpecRule1
  constructor
  · intro h
    constructor
    · intro name hX
      exact h 0 name Y (by simp [hX]) (by simp)
    · intro i A B hA hB
      exact h (i + 1) A B (by simpa using hA) (by simpa using hB)
  · rintro ⟨h1, h2⟩ i A B hA hB
    cases i with
    | zero =>
      simp only [List.getElem?_cons_zero, Option.some.injEq] at hA
      simp only [zero_add, List.getElem?_cons_succ, List.getElem?_cons_zero,
        Option.some.injEq] at hB
      subst hB
      exact h1 A hA
    | succ i =>
      exact h2 i A B (by simpa using hA) (by simpa using hB)

theorem specRule1_short (first : First) (F : String → Finset String)
    (l : List ClassifiedSymbol) (hl : l.length ≤ 1) : SpecRule1 first F l := by
  intro i X Y hX hY
  have h1 : i + 1 < l.length := by
    by_contra hc
    rw [List.getElem?_eq_none (by omega)] at hY
    exact absurd hY (by simp)
  omega

theorem addsA_cons_cons (g : Grammar) (first : First) (x y : String) (rest1 : List String) :
    addsA g first (x :: y :: rest1) =
      if trim x = "" ∨ trim x ∉ g.nonTerminals then addsA g first (y :: rest1)
      else
        match firstNext g first (trim y) with
        | none => none
        | some fn =>
          (addsA g first (y :: rest1)).map fun l =>
            (trim x, fn.filter (fun s => !is_eps s)) :: l := by
  rw [addsA]

/-- On trimmed symbols without epsilon the insertions of PASO A are Rule 1. -/
theorem addsA_spec (g : Grammar) (first : First) (F : String → Finset String)
    (hfirst : ∀ nt ∈ g.nonTerminals, (first.firstSets nt).isSome = true)
    (hnames : ∀ nt ∈ g.nonTerminals, is_eps nt = false ∧ is_quoted_terminal nt = false)
    (syms : List String) :
    (∀ t ∈ syms, trim t = t ∧ t ≠ "" ∧ is_eps t = false) →
      ((∀ la, addsA g first syms = some la → ∀ q ∈ la, q.2 ⊆ F q.1) ↔
        SpecRule1 first F (syms.map (classify g.nonTerminals))) := by
  induction syms with
  | nil =>
    intro _
    simp only [addsA, Option.some.injEq, List.map_nil]
    constructor
    · intro _; exact specRule1_short first F [] (by simp)
    · rintro _ la rfl q hq; exact absurd hq (List.not_mem_nil q)
  | cons x rest ih =>
    intro ht
    have hrest : ∀ t ∈ rest, trim t = t ∧ t ≠ "" ∧ is_eps t = false :=
      fun t h => ht t (List.mem_cons_of_mem _ h)
    obtain ⟨hx1, hx2, hx3⟩ := ht x (List.mem_cons_self _ _)
    cases rest with
    | nil =>
      have : addsA g first [x] = some [] := by
        unfold addsA
        by_cases h0 : trim x = "" ∨ trim x ∉ g.nonTerminals
        · rw [if_pos h0]; rfl
        · rw [if_neg h0]
      rw [this]
      constructor
      · intro _; exact specRule1_short first F _ (by simp)
      · intro _ la hla q hq
        simp only [Option.some.injEq] at hla
        subst hla
        exact absurd hq (List.not_mem_nil q)
    | cons y rest1 =>
      obtain ⟨hy1, _, hy3⟩ := hrest y (List.mem_cons_self _ _)
      rw [List.map_cons, List.map_cons, specRule1_cons, ← List.map_cons, ← ih hrest,
        addsA_cons_cons, hx1]
      by_cases h2 : x ∈ g.nonTerminals
      · rw [if_neg (by rintro (h | h); exact hx2 h; exact h h2)]
        rw [hy1, firstNext_spec g first hfirst hnames y hy3,
          classify_nonTerminal g x h2 hnames]
        simp only
        have hsome := addsA_isSome g first hfirst (y :: rest1)
        cases hl : addsA g first (y :: rest1) with
        | none => rw [hl] at hsome; exact absurd hsome (by simp)
        | some l =>
          simp only [Option.map_some', Option.some.injEq, forall_eq', List.mem_cons,
            forall_eq_or_imp, ClassifiedSymbol.nonTerminal.injEq]
          rfl
      · have hx4 : ¬ is_eps x = true := by simp [hx3]
        rw [if_pos (Or.inr h2), classify_other g x h2, if_neg hx4]
        simp only [reduceCtorEq, false_implies, implies_true, true_and]

/-- Under the conditions on the names and on epsilon, the closure under the
insertions of the code is the closure under the two rules of the specification. -/
theorem closed_iff_specClosed (g : Grammar) (first : First) (F : String → Finset String)
    (hfirst : ∀ nt ∈ g.nonTerminals, (first.firstSets nt).isSome = true)
    (hnames : ∀ nt ∈ g.nonTerminals, is_eps nt = false ∧ is_quoted_terminal nt = false)
    (heps : ∀ p ∈ altsOf g, ∀ t ∈ p.2, is_eps t = true → p.2 = [t]) :
    Closed g first F ↔ SpecClosed g first F := by
  unfold Closed SpecClosed ClosedAlt SpecRule2
  refine forall_congr' fun p => forall_congr' fun hp => ?_
  have htok := altsOf_mem g p hp
  have hB := addsB_spec g first F hnames p.2.reverse
    (fun t ht => htok t (List.mem_reverse.mp ht)) (F p.1)
  rw [List.map_reverse] at hB
  rw [hB]
  apply and_congr_left
  intro _
  by_cases hlen : p.2.length ≤ 1
  · constructor
    · intro _; exact specRule1_short first F _ (by simpa using hlen)
    · intro _ la hla q hq
      have : addsA g first p.2 = some [] := by
        match hp2 : p.2, hlen with
        | [], _ => rfl
        | [x], _ =>
          unfold addsA
          by_cases h0 : trim x = "" ∨ trim x ∉ g.nonTerminals
          · rw [if_pos h0]; rfl
          · rw [if_neg h0]
      rw [this] at hla
      simp only [Option.some.injEq] at hla
      subst hla
      exact absurd hq (List.not_mem_nil q)
  · apply addsA_spec g first F hfirst hnames
    intro t ht
    refine ⟨(htok t ht).1, (htok t ht).2, ?_⟩
    cases he : is_eps t with
    | false => rfl
    | true =>
      have := heps p hp t ht he
      rw [this] at hlen
      exact absurd (by simp) hlen

/-! ## Entries are never removed -/

theorem add_isSome_mono (st : State) (k : String) (s : Finset String) (k1 : String)
    (h : (st.followSets k1).isSome = true) : ((st.add k s).followSets k1).isSome = true := by
  rw [add_followSets, isSome_insertAll]
  exact Or.inr h

theorem applyAdds_isSome_mono (l : List (String × Finset String)) :
    ∀ (st : State) (k : String), (st.followSets k).isSome = true →
      ((applyAdds l st).followSets k).isSome = true := by
  induction l with
  | nil => intro st k h; exact h
  | cons p l ih =>
    intro st k h
    rw [applyAdds_cons]
    exact ih _ k (add_isSome_mono st p.1 p.2 k h)

theorem alt_isSome_mono (g : Grammar) (first : First) (left : String) (syms : List String)
    (st st1 : State) (h : processSymbols g first left syms st = some st1) (k : String)
    (hk : (st.followSets k).isSome = true) : (st1.followSets k).isSome = true := by
  obtain ⟨la, _, rfl⟩ := processSymbols_some g first left syms st st1 h
  apply applyAdds_isSome_mono
  unfold touchState
  rw [isSome_touch]
  exact Or.inr (applyAdds_isSome_mono la st k hk)

theorem alts_isSome_mono (g : Grammar) (first : First) (l : List (String × List String)) :
    ∀ (st st2 : State), processAlts g first l st = some st2 →
      ∀ k, (st.followSets k).isSome = true → (st2.followSets k).isSome = true := by
  induction l with
  | nil => intro st st2 h k hk; rw [processAlts_nil g first st st2 h]; exact hk
  | cons p l ih =>
    intro st st2 h k hk
    obtain ⟨st1, h1, h2⟩ := processAlts_cons g first p l st st2 h
    exact ih st1 st2 h2 k (alt_isSome_mono g first p.1 p.2 st st1 h1 k hk)

theorem pass_isSome_mono (g : Grammar) (first : First) (fs : FollowSets) (st : State)
    (h : pass g first fs = some st) (k : String) (hk : (fs k).isSome = true) :
    (st.followSets k).isSome = true := by
  rw [pass_eq] at h
  exact alts_isSome_mono g first _ _ st h k hk

/-! ## The separator in a rule text -/

theorem findFrom_isSome (pat : List Char) (l : List Char) :
    ∀ i, (findFrom pat l i).isSome = true ↔ pat <:+: l := by
  induction l with
  | nil =>
    intro i
    unfold findFrom
    by_cases h : pat = []
    · simp [h]
    · simp [h]
  | cons c cs ih =>
    intro i
    unfold findFrom
    rw [List.infix_cons_iff]
    by_cases h : pat.isPrefixOf (c :: cs) = true
    · rw [if_pos h]
      simp only [Option.isSome_some, true_iff]
      exact Or.inl (List.isPrefixOf_iff_prefix.mp h)
    · rw [if_neg h, ih]
      constructor
      · exact Or.inr
      · rintro (h1 | h1)
        · exact absurd (List.isPrefixOf_iff_prefix.mpr h1) h
        · exact h1

theorem trim_within (r : String) : (trim r).data <:+: r.data := by
  have h1 : (trim r).data = List.rdropWhile isBlank (List.dropWhile isBlank r.data) := rfl
  rw [h1]
  exact (List.rdropWhile_prefix isBlank _).isInfix.trans
    (List.dropWhile_suffix isBlank).isInfix

theorem find_trim (r pat : String) (h : (find (trim r) pat).isSome = true) :
    (find r pat).isSome = true := by
  unfold find at h ⊢
  rw [findFrom_isSome] at h ⊢
  exact h.trans (trim_within r)

theorem parseRule_dropped (r : String)
    (h : (decide (trim r ≠ "") && containsArrow r) = false) : parseRule r = none := by
  unfold parseRule
  simp only
  by_cases h1 : trim r = ""
  · rw [if_pos h1]
  · rw [if_neg h1]
    have h2 : containsArrow r = false := by
      simpa [h1] using h
    cases hf : find (trim r) "->" with
    | none => rfl
    | some pos =>
      have := find_trim r "->" (by rw [hf]; rfl)
      unfold containsArrow at h2
      rw [h2] at this
      exact absurd this (by simp)

theorem flatMap_filter_eq {α β : Type} (f : α → List β) (p : α → Bool) (l : List α)
    (h : ∀ a ∈ l, p a = false → f a = []) : (l.filter p).flatMap f = l.flatMap f := by
  induction l with
  | nil => rfl
  | cons a l ih =>
    have ih1 := ih fun b hb => h b (List.mem_cons_of_mem _ hb)
    cases hp : p a with
    | true => rw [List.filter_cons_of_pos hp, List.flatMap_cons, List.flatMap_cons, ih1]
    | false =>
      rw [List.filter_cons_of_neg (by simp [hp]), List.flatMap_cons, ih1,
        h a (List.mem_cons_self _ _) hp, List.nil_append]

theorem altsOf_keptRules (g : Grammar) :
    altsOf ⟨g.nonTerminals, g.initialState, keptRules g⟩ = altsOf g := by
  rw [altsOf_eq, altsOf_eq]
  unfold keptRules
  apply flatMap_filter_eq
  intro r _ hr
  unfold altsOfRule
  rw [parseRule_dropped r hr]

/-! ## Grammars with the same alternatives -/

theorem processSymbols_congr (g g1 : Grammar) (first : First)
    (h : g1.nonTerminals = g.nonTerminals) (left : String) (syms : List String) (st : State) :
    processSymbols g1 first left syms st = processSymbols g first left syms st := by
  rw [processSymbols_eq, processSymbols_eq, addsA_congr g g1 first h]
  simp only [addsB_congr g g1 first h]

theorem processAlts_congr (g g1 : Grammar) (first : First)
    (h : g1.nonTerminals = g.nonTerminals) (l : List (String × List String)) (st : State) :
    processAlts g1 first l st = processAlts g first l st := by
  unfold processAlts
  have : (fun p : String × List String => processSymbols g1 first p.1 p.2) =
      fun p => processSymbols g first p.1 p.2 := by
    funext p st1
    exact processSymbols_congr g g1 first h p.1 p.2 st1
  rw [this]

theorem pass_congr (g g1 : Grammar) (first : First)
    (h : g1.nonTerminals = g.nonTerminals) (halts : altsOf g1 = altsOf g) (fs : FollowSets) :
    pass g1 first fs = pass g first fs := by
  rw [pass_eq, pass_eq, halts, processAlts_congr g g1 first h]

theorem whileLoop_congr (g g1 : Grammar) (first : First)
    (h : g1.nonTerminals = g.nonTerminals) (halts : altsOf g1 = altsOf g) :
    ∀ fuel fs, whileLoop g1 first fuel fs = whileLoop g first fuel fs := by
  intro fuel
  induction fuel with
  | zero => intro fs; rfl
  | succ fuel ih =>
    intro fs
    rw [whileLoop_succ, whileLoop_succ, pass_congr g g1 first h halts]
    cases pass g first fs with
    | none => rfl
    | some st => simp only [ih]

theorem seed_congr (g g1 : Grammar) (h : g1.nonTerminals = g.nonTerminals)
    (hinit : g1.initialState = g.initialState) : seed g1 = seed g := by
  unfold seed initFollow
  rw [h, hinit]

theorem passBound_congr (g g1 : Grammar) (first : First)
    (h : g1.nonTerminals = g.nonTerminals) (halts : altsOf g1 = altsOf g) :
    passBound g1 first = passBound g first := by
  unfold passBound alphabet
  have : (fun t => literalsOf g1 t) = fun t => literalsOf g t := by
    funext t
    unfold literalsOf
    rw [h]
  rw [h, halts, this]

/-- Two grammars with the same nonterminals, start symbol and list of
alternatives have the same outcome. -/
theorem compute_eq_of_alts (g g1 : Grammar) (first : First)
    (h : g1.nonTerminals = g.nonTerminals) (hinit : g1.initialState = g.initialState)
    (halts : altsOf g1 = altsOf g) : compute g1 first = compute g first := by
  unfold compute
  rw [passBound_congr g g1 first h halts, seed_congr g g1 h hinit,
    whileLoop_congr g g1 first h halts]

/-! ## When a lookup raises -/

theorem addsA_eq_none (g : Grammar) (first : First) (syms : List String) :
    addsA g first syms = none →
      ∃ pre x y post, syms = pre ++ x :: y :: post ∧ trim x ≠ "" ∧
        trim x ∈ g.nonTerminals ∧ firstNext g first (trim y) = none := by
  induction syms with
  | nil => intro h; simp [addsA] at h
  | cons x rest ih =>
    intro h
    cases rest with
    | nil =>
      unfold addsA at h
      by_cases h0 : trim x = "" ∨ trim x ∉ g.nonTerminals
      · rw [if_pos h0] at h; simp [addsA] at h
      · rw [if_neg h0] at h; simp at h
    | cons y rest1 =>
      rw [addsA_cons_cons] at h
      by_cases h0 : trim x = "" ∨ trim x ∉ g.nonTerminals
      · rw [if_pos h0] at h
        obtain ⟨pre, a, b, post, h1, h2⟩ := ih h
        exact ⟨x :: pre, a, b, post, by rw [h1]; rfl, h2⟩
      · rw [if_neg h0] at h
        have hx : trim x ≠ "" ∧ trim x ∈ g.nonTerminals := by
          constructor
          · exact fun c => h0 (Or.inl c)
          · by_contra c; exact h0 (Or.inr c)
        cases hf : firstNext g first (trim y) with
        | none => exact ⟨[], x, y, rest1, rfl, hx.1, hx.2, hf⟩
        | some fn =>
          rw [hf] at h
          simp only [Option.map_eq_none'] at h
          obtain ⟨pre, a, b, post, h1, h2⟩ := ih h
          exact ⟨x :: pre, a, b, post, by rw [h1]; rfl, h2⟩

/-- The computation raises exactly when an alternative holds a declared
nonterminal followed by a declared nonterminal, not of quoted form, without
FIRST entry. -/
theorem compute_raised_iff (g : Grammar) (first : First) :
    compute g first = .raised ↔
      ∃ left pre x y post, (left, pre ++ x :: y :: post) ∈ altsOf g ∧
        x ∈ g.nonTerminals ∧ y ∈ g.nonTerminals ∧ is_quoted_terminal y = false ∧
          first.firstSets y = none := by
  rw [compute_raised]
  constructor
  · intro hnr
    unfold NoRaise at hnr
    push_neg at hnr
    obtain ⟨p, hp, hnone⟩ := hnr
    have hnone1 : addsA g first p.2 = none := by
      cases h : addsA g first p.2 with
      | none => rfl
      | some l => rw [h] at hnone; exact absurd rfl hnone
    obtain ⟨pre, x, y, post, h1, _, h3, h4⟩ := addsA_eq_none g first p.2 hnone1
    have htok := altsOf_mem g p hp
    have hx := (htok x (by rw [h1]; simp)).1
    have hy := (htok y (by rw [h1]; simp)).1
    rw [hx] at h3
    rw [hy] at h4
    obtain ⟨h5, h6, h7⟩ := (firstNext_eq_none g first y).mp h4
    refine ⟨p.1, pre, x, y, post, ?_, h3, h6, h5, h7⟩
    rw [← h1]
    exact hp
  · rintro ⟨left, pre, x, y, post, halt, hx, hy, hq, hmiss⟩ hnr
    have hsome := hnr _ halt
    have htok := altsOf_mem g _ halt
    obtain ⟨hx1, hx2⟩ := htok x (by simp)
    obtain ⟨hy1, _⟩ := htok y (by simp)
    have hnone := addsA_adjacent g first x y post (by rw [hx1]; exact hx2)
      (by rw [hx1]; exact hx)
      (by rw [hy1]; exact (firstNext_eq_none g first y).mpr ⟨hq, hy, hmiss⟩) pre
    simp only at hsome
    rw [hnone] at hsome
    exact absurd hsome (by simp)

theorem nextTrailer_missing (first : First) (X : String) (trailer : Finset String)
    (h : first.firstSets X = none) : nextTrailer first X trailer = ∅ := by
  unfold nextTrailer
  simp [h]

/-! ## The trailer along the scan -/

theorem addsB_cons (g : Grammar) (first : First) (x : String) (rest : List String)
    (trailer : Finset String) :
    addsB g first (x :: rest) trailer =
      if trim x = "" then addsB g first rest trailer
      else if trim x ∈ g.nonTerminals then
        (trim x, trailer) :: addsB g first rest (nextTrailer first (trim x) trailer)
      else if is_eps (trim x) then addsB g first rest trailer
      else addsB g first rest {termOf (trim x)} := by
  rw [addsB]

theorem pasoB_cons (g : Grammar) (first : First) (x : String) (rest : List String)
    (trailer : Finset String) (st : State) :
    pasoB g first (x :: rest) trailer st =
      if trim x = "" then pasoB g first rest trailer st
      else if trim x ∈ g.nonTerminals then
        pasoB g first rest (nextTrailer first (trim x) trailer) (st.add (trim x) trailer)
      else if is_eps (trim x) then pasoB g first rest trailer st
      else pasoB g first rest {termOf (trim x)} st := by
  rw [pasoB]

theorem trailerAfter_cons (g : Grammar) (first : First) (x : String) (rest : List String)
    (trailer : Finset String) :
    trailerAfter g first (x :: rest) trailer =
      if trim x = "" then trailerAfter g first rest trailer
      else if trim x ∈ g.nonTerminals then
        trailerAfter g first rest (nextTrailer first (trim x) trailer)
      else if is_eps (trim x) then trailerAfter g first rest trailer
      else trailerAfter g first rest {termOf (trim x)} := by
  rw [trailerAfter]

theorem addsB_append (g : Grammar) (first : First) (l1 l2 : List String) :
    ∀ trailer, addsB g first (l1 ++ l2) trailer =
      addsB g first l1 trailer ++ addsB g first l2 (trailerAfter g first l1 trailer) := by
  induction l1 with
  | nil => intro trailer; rfl
  | cons x rest ih =>
    intro trailer
    rw [List.cons_append, addsB_cons, addsB_cons, trailerAfter_cons]
    by_cases h1 : trim x = ""
    · rw [if_pos h1, if_pos h1, if_pos h1]; exact ih _
    · rw [if_neg h1, if_neg h1, if_neg h1]
      by_cases h2 : trim x ∈ g.nonTerminals
      · rw [if_pos h2, if_pos h2, if_pos h2, ih]; rfl
      · rw [if_neg h2, if_neg h2, if_neg h2]
        by_cases h3 : is_eps (trim x) = true
        · rw [if_pos h3, if_pos h3, if_pos h3]; exact ih _
        · rw [if_neg h3, if_neg h3, if_neg h3]; exact ih _

theorem pasoB_append (g : Grammar) (first : First) (l1 l2 : List String) :
    ∀ trailer st, pasoB g first (l1 ++ l2) trailer st =
      pasoB g first l2 (trailerAfter g first l1 trailer) (pasoB g first l1 trailer st) := by
  induction l1 with
  | nil => intro trailer st; rfl
  | cons x rest ih =>
    intro trailer st
    rw [List.cons_append, pasoB_cons, pasoB_cons, trailerAfter_cons]
    by_cases h1 : trim x = ""
    · rw [if_pos h1, if_pos h1, if_pos h1]; exact ih _ _
    · rw [if_neg h1, if_neg h1, if_neg h1]
      by_cases h2 : trim x ∈ g.nonTerminals
      · rw [if_pos h2, if_pos h2, if_pos h2]; exact ih _ _
      · rw [if_neg h2, if_neg h2, if_neg h2]
        by_cases h3 : is_eps (trim x) = true
        · rw [if_pos h3, if_pos h3, if_pos h3]; exact ih _ _
        · rw [if_neg h3, if_neg h3, if_neg h3]; exact ih _ _

theorem trailerAfter_append (g : Grammar) (first : First) (l1 l2 : List String) :
    ∀ trailer, trailerAfter g first (l1 ++ l2) trailer =
      trailerAfter g first l2 (trailerAfter g first l1 trailer) := by
  induction l1 with
  | nil => intro trailer; rfl
  | cons x rest ih =>
    intro trailer
    rw [List.cons_append, trailerAfter_cons, trailerAfter_cons]
    by_cases h1 : trim x = ""
    · rw [if_pos h1, if_pos h1]; exact ih _
    · rw [if_neg h1, if_neg h1]
      by_cases h2 : trim x ∈ g.nonTerminals
      · rw [if_pos h2, if_pos h2]; exact ih _
      · rw [if_neg h2, if_neg h2]
        by_cases h3 : is_eps (trim x) = true
        · rw [if_pos h3, if_pos h3]; exact ih _
        · rw [if_neg h3, if_neg h3]; exact ih _

theorem trailerAfter_single (g : Grammar) (first : First) (t : String)
    (ht : trim t = t ∧ t ≠ "") (trailer : Finset String) :
    trailerAfter g first [t] trailer =
      if t ∈ g.nonTerminals then nextTrailer first t trailer
      else if is_eps t then trailer else {termOf t} := by
  rw [trailerAfter_cons, ht.1, if_neg ht.2]
  by_cases h2 : t ∈ g.nonTerminals
  · rw [if_pos h2, if_pos h2]; rfl
  · rw [if_neg h2, if_neg h2]
    by_cases h3 : is_eps t = true
    · rw [if_pos h3, if_pos h3]; rfl
    · rw [if_neg h3, if_neg h3]; rfl

theorem isNullable_iff (first : First) (X : String) :
    isNullable first X = true ↔ specNullable first X := by
  unfold isNullable specNullable
  simp only [decide_eq_true_eq]

theorem seqVanishes_cons (g : Grammar) (first : First) (t : String) (rest : List String) :
    seqVanishes g first (t :: rest) =
      ((if t ∈ g.nonTerminals then isNullable first t else is_eps t) &&
        seqVanishes g first rest) := by
  unfold seqVanishes
  rw [List.all_cons]

theorem firstOfSeq_cons (g : Grammar) (first : First) (t : String) (rest : List String) :
    firstOfSeq g first (t :: rest) =
      if t ∈ g.nonTerminals then
        minusEps ((first.firstSets t).getD ∅) ∪
          (if isNullable first t then firstOfSeq g first rest else ∅)
      else if is_eps t then firstOfSeq g first rest
      else {termOf t} := by
  rw [firstOfSeq]

/-- The trailer that the scan holds after the symbols to the right of a position
is FIRST of these symbols, together with the trailer at the start of the scan when
all of them vanish. -/
theorem trailerAfter_reverse (g : Grammar) (first : First) (T0 : Finset String)
    (post : List String) :
    (∀ t ∈ post, trim t = t ∧ t ≠ "") →
      trailerAfter g first post.reverse T0 =
        firstOfSeq g first post ∪ (if seqVanishes g first post then T0 else ∅) := by
  induction post with
  | nil =>
    intro _
    simp [trailerAfter, firstOfSeq, seqVanishes]
  | cons t rest ih =>
    intro ht
    have hrest : ∀ u ∈ rest, trim u = u ∧ u ≠ "" := fun u h => ht u (List.mem_cons_of_mem _ h)
    have htt := ht t (List.mem_cons_self _ _)
    rw [List.reverse_cons, trailerAfter_append, ih hrest, trailerAfter_single g first t htt,
      seqVanishes_cons, firstOfSeq_cons]
    by_cases h2 : t ∈ g.nonTerminals
    · rw [if_pos h2, if_pos h2, if_pos h2]
      by_cases hn : specNullable first t
      · rw [(nextTrailer_spec first t _).1 hn, (isNullable_iff first t).mpr hn]
        simp only [if_true, Bool.true_and]
        rw [Finset.union_comm _ (minusEps _), Finset.union_assoc]
      · have hn1 : isNullable first t = false := by
          cases h : isNullable first t with
          | false => rfl
          | true => exact absurd ((isNullable_iff first t).mp h) hn
        rw [(nextTrailer_spec first t _).2 hn, hn1]
        simp
    · rw [if_neg h2, if_neg h2, if_neg h2]
      by_cases h3 : is_eps t = true
      · rw [if_pos h3, if_pos h3, h3]
        simp only [Bool.true_and]
      · rw [if_neg h3, if_neg h3]
        have : is_eps t = false := by simpa using h3
        rw [this]
        simp

/-- Closure under the insertions of PASO B on one alternative: the set of a
nonterminal of the alternative holds FIRST of the symbols to its right, and the
set of the left-hand side when all of them vanish. -/
theorem closedB_suffix (g : Grammar) (first : First) (F : String → Finset String)
    (left x : String) (pre post : List String)
    (htok : ∀ t ∈ pre ++ x :: post, trim t = t ∧ t ≠ "")
    (hx : x ∈ g.nonTerminals)
    (hcl : ∀ q ∈ addsB g first (pre ++ x :: post).reverse (F left), q.2 ⊆ F q.1) :
    firstOfSeq g first post ∪ (if seqVanishes g first post then F left else ∅) ⊆ F x := by
  have hxt := htok x (by simp)
  rw [← trailerAfter_reverse g first (F left) post
    (fun t ht => htok t (by simp [ht]))]
  have hmem : (x, trailerAfter g first post.reverse (F left)) ∈
      addsB g first (pre ++ x :: post).reverse (F left) := by
    rw [List.reverse_append, List.reverse_cons, List.append_assoc, addsB_append]
    apply List.mem_append_right
    rw [List.singleton_append, addsB_cons, hxt.1, if_neg hxt.2, if_pos hx]
    exact List.mem_cons_self _ _
  exact hcl _ hmem

/-- In the final map the set of a nonterminal of an alternative holds FIRST of
the symbols to its right, and the set of the left-hand side when all of them
vanish. -/
theorem compute_suffix (g : Grammar) (first : First) (fs : FollowSets) (n : Nat)
    (h : compute g first = .ok fs n) (left x : String) (pre post : List String)
    (halt : (left, pre ++ x :: post) ∈ altsOf g) (hx : x ∈ g.nonTerminals) :
    firstOfSeq g first post ∪ (if seqVanishes g first post then fs.get left else ∅) ⊆
      fs.get x := by
  obtain ⟨_, hcl, _⟩ := compute_least g first fs n h
  exact closedB_suffix g first fs.get left x pre post (altsOf_mem g _ halt) hx
    (hcl _ halt).2

/-! ## A bare token and its quoted form -/

theorem quoteToken_quoted (z : String) : is_quoted_terminal (quoteToken z) = true := by
  have h1 : (quoteToken z).length ≥ 2 := by
    show (quote :: (z.data ++ [quote])).length ≥ 2
    rw [List.length_cons, List.length_append, List.length_singleton]
    omega
  have h2 : (quoteToken z).data.head? = some quote := rfl
  have h3 : (quoteToken z).data.getLast? = some quote := by
    show (quote :: (z.data ++ [quote])).getLast? = some quote
    rw [← List.cons_append, List.getLast?_concat]
  unfold is_quoted_terminal
  rw [h2, h3, decide_eq_true h1]
  rfl

theorem quoteToken_substr (z : String) :
    substr (quoteToken z) 1 ((quoteToken z).length - 2) = z := by
  have h1 : (quoteToken z).length - 2 = z.data.length := by
    show (quote :: (z.data ++ [quote])).length - 2 = z.data.length
    rw [List.length_cons, List.length_append, List.length_singleton]
    omega
  unfold substr
  rw [h1]
  show String.mk (((quote :: (z.data ++ [quote])).drop 1).take z.data.length) = z
  rw [List.drop_succ_cons, List.drop_zero, List.take_left']
  rfl

theorem quoteToken_ne_empty (z : String) : quoteToken z ≠ "" := by
  intro h
  have := congrArg String.data h
  simp [quoteToken] at this

theorem quoteToken_not_eps (z : String) (hz : z ≠ "") : is_eps (quoteToken z) = false := by
  cases h : is_eps (quoteToken z) with
  | false => rfl
  | true =>
    exfalso
    rw [is_eps_iff] at h
    have hhead : (quoteToken z).data.head? = some quote := rfl
    rcases h with h | h | h | h
    · have h1 := congrArg String.data h
      have h2 : quote :: (z.data ++ [quote]) = [quote, quote] := h1
      have h3 : z.data = [] := by
        have h4 := List.cons.inj h2
        have h5 := congrArg List.length h4.2
        simp at h5
        exact List.length_eq_zero.mp h5
      apply hz
      cases z with
      | mk d => simp at h3; subst h3; rfl
    · rw [h] at hhead; revert hhead; decide
    · rw [h] at hhead; revert hhead; decide
    · rw [h] at hhead; revert hhead; decide

theorem quoteToken_trim (z : String) : trim (quoteToken z) = quoteToken z := by
  have hb : isBlank quote = false := by decide
  unfold trim quoteToken
  congr 1
  simp only
  rw [List.dropWhile_cons_of_neg (by simp [hb])]
  rw [List.reverse_cons, List.reverse_append, List.reverse_singleton, List.singleton_append,
    List.cons_append, List.dropWhile_cons_of_neg (by simp [hb])]
  simp

theorem termOf_quoteToken (z : String) : termOf (quoteToken z) = z := by
  unfold termOf
  rw [if_pos (quoteToken_quoted z), quoteToken_substr]

/-- What the two loops read from a symbol is the same for the bare token `z`
and for `'z'`. -/
theorem quoteSym_facts (g : Grammar) (first : First) (z : String)
    (hz1 : z ≠ "") (hz2 : is_quoted_terminal z = false) (hz3 : z ∉ g.nonTerminals)
    (hz4 : is_eps z = false) (hz5 : quoteToken z ∉ g.nonTerminals)
    (t : String) (ht : trim t = t ∧ t ≠ "") :
    (trim (quoteSym z t) = quoteSym z t ∧ quoteSym z t ≠ "") ∧
    (t ∈ g.nonTerminals → quoteSym z t = t) ∧
    (t ∉ g.nonTerminals → quoteSym z t ∉ g.nonTerminals) ∧
    firstNext g first (quoteSym z t) = firstNext g first t ∧
    (t ∉ g.nonTerminals →
      is_eps (quoteSym z t) = is_eps t ∧
        (is_eps t = false → termOf (quoteSym z t) = termOf t)) := by
  unfold quoteSym
  by_cases h : t = z
  · subst h
    rw [if_pos rfl]
    refine ⟨⟨quoteToken_trim t, quoteToken_ne_empty t⟩, ?_, ?_, ?_, ?_⟩
    · intro c; exact absurd c hz3
    · intro _; exact hz5
    · unfold firstNext
      rw [if_pos (quoteToken_quoted t), quoteToken_substr, if_neg (by simp [hz2]), if_neg hz3,
        if_pos (by simp [hz4])]
    · intro _
      refine ⟨by rw [quoteToken_not_eps t hz1, hz4], fun _ => ?_⟩
      rw [termOf_quoteToken]
      unfold termOf
      rw [if_neg (by simp [hz2])]
  · rw [if_neg h]
    exact ⟨ht, fun _ => rfl, fun c => c, rfl, fun _ => ⟨rfl, fun _ => rfl⟩⟩

theorem addsA_quoteIn (g : Grammar) (first : First) (z : String)
    (hz1 : z ≠ "") (hz2 : is_quoted_terminal z = false) (hz3 : z ∉ g.nonTerminals)
    (hz4 : is_eps z = false) (hz5 : quoteToken z ∉ g.nonTerminals) (syms : List String) :
    (∀ t ∈ syms, trim t = t ∧ t ≠ "") →
      addsA g first (syms.map (quoteSym z)) = addsA g first syms := by
  induction syms with
  | nil => intro _; rfl
  | cons x rest ih =>
    intro ht
    have hrest : ∀ t ∈ rest, trim t = t ∧ t ≠ "" := fun t h => ht t (List.mem_cons_of_mem _ h)
    have hx := ht x (List.mem_cons_self _ _)
    obtain ⟨⟨hx1, _⟩, hx3, hx4, _, _⟩ := quoteSym_facts g first z hz1 hz2 hz3 hz4 hz5 x hx
    cases rest with
    | nil =>
      rw [List.map_cons, List.map_nil]
      unfold addsA
      by_cases h2 : x ∈ g.nonTerminals
      · rw [hx3 h2]
      · rw [if_pos (Or.inr (by rw [hx1]; exact hx4 h2)), if_pos (Or.inr (by rw [hx.1]; exact h2))]
    | cons y rest1 =>
      have hy := hrest y (List.mem_cons_self _ _)
      obtain ⟨⟨hy1, _⟩, _, _, hy3, _⟩ := quoteSym_facts g first z hz1 hz2 hz3 hz4 hz5 y hy
      have ih1 := ih hrest
      rw [List.map_cons] at ih1
      rw [List.map_cons, List.map_cons, addsA_cons_cons, addsA_cons_cons, ih1, hy1, hy.1, hy3]
      by_cases h2 : x ∈ g.nonTerminals
      · rw [hx3 h2]
      · rw [if_pos (Or.inr (by rw [hx1]; exact hx4 h2)), if_pos (Or.inr (by rw [hx.1]; exact h2))]

theorem addsB_quoteIn (g : Grammar) (first : First) (z : String)
    (hz1 : z ≠ "") (hz2 : is_quoted_terminal z = false) (hz3 : z ∉ g.nonTerminals)
    (hz4 : is_eps z = false) (hz5 : quoteToken z ∉ g.nonTerminals) (syms : List String) :
    (∀ t ∈ syms, trim t = t ∧ t ≠ "") → ∀ trailer,
      addsB g first (syms.map (quoteSym z)) trailer = addsB g first syms trailer := by
  induction syms with
  | nil => intro _ trailer; rfl
  | cons x rest ih =>
    intro ht trailer
    have hrest : ∀ t ∈ rest, trim t = t ∧ t ≠ "" := fun t h => ht t (List.mem_cons_of_mem _ h)
    have hx := ht x (List.mem_cons_self _ _)
    obtain ⟨⟨hx1, hx2⟩, hx3, hx4, _, hx5⟩ := quoteSym_facts g first z hz1 hz2 hz3 hz4 hz5 x hx
    rw [List.map_cons, addsB_cons, addsB_cons, hx1, hx.1, if_neg hx2, if_neg hx.2]
    by_cases h2 : x ∈ g.nonTerminals
    · rw [hx3 h2, if_pos h2, if_pos h2, ih hrest]
    · rw [if_neg (hx4 h2), if_neg h2, (hx5 h2).1]
      by_cases h3 : is_eps x = true
      · rw [if_pos h3, if_pos h3, ih hrest]
      · rw [if_neg h3, if_neg h3, ih hrest, (hx5 h2).2 (by simpa using h3)]

/-- Two grammars with the same nonterminals, start symbol, closed families and
left-hand sides have the same final map. -/
theorem compute_congr_closed (g g1 : Grammar) (first : First)
    (hnt : g1.nonTerminals = g.nonTerminals) (hinit : g1.initialState = g.initialState)
    (hcl : ∀ F, Closed g1 first F ↔ Closed g first F)
    (hleft : ∀ k, (∃ p ∈ altsOf g1, k = p.1) ↔ ∃ p ∈ altsOf g, k = p.1)
    (fs fs1 : FollowSets) (n n1 : Nat)
    (h : compute g first = .ok fs n) (h1 : compute g1 first = .ok fs1 n1) : fs1 = fs := by
  obtain ⟨a1, a2, a3⟩ := compute_least g first fs n h
  obtain ⟨b1, b2, b3⟩ := compute_least g1 first fs1 n1 h1
  have hs : ∀ F, Seeded g1 F ↔ Seeded g F := by
    intro F; unfold Seeded; rw [hinit]
  apply followSets_ext
  · funext k
    apply Finset.Subset.antisymm
    · exact b3 fs.get ((hs _).mpr a1) ((hcl _).mpr a2) k
    · exact a3 fs1.get ((hs _).mp b1) ((hcl _).mp b2) k
  · intro k
    rw [compute_keys g first fs n h k, compute_keys g1 first fs1 n1 h1 k, hnt, hinit, hleft]

theorem closed_quoteIn (g g1 : Grammar) (first : First) (z : String)
    (hz1 : z ≠ "") (hz2 : is_quoted_terminal z = false) (hz3 : z ∉ g.nonTerminals)
    (hz4 : is_eps z = false) (hz5 : quoteToken z ∉ g.nonTerminals)
    (hnt : g1.nonTerminals = g.nonTerminals)
    (halts : altsOf g1 = (altsOf g).map (quoteIn z)) (F : String → Finset String) :
    Closed g1 first F ↔ Closed g first F := by
  unfold Closed
  rw [halts]
  simp only [List.mem_map, forall_exists_index, and_imp, forall_apply_eq_imp_iff₂]
  refine forall_congr' fun p => forall_congr' fun hp => ?_
  have htok := altsOf_mem g p hp
  unfold ClosedAlt quoteIn
  simp only
  rw [addsA_congr g g1 first hnt, addsA_quoteIn g first z hz1 hz2 hz3 hz4 hz5 p.2 htok,
    addsB_congr g g1 first hnt, ← List.map_reverse,
    addsB_quoteIn g first z hz1 hz2 hz3 hz4 hz5 p.2.reverse
      (fun t ht => htok t (List.mem_reverse.mp ht))]

/-! ## The computation without PASO A: one alternative -/

theorem processSymbolsB_some (g : Grammar) (first : First) (left : String)
    (syms : List String) (st st1 : State)
    (h : processSymbolsB g first left syms st = some st1) :
    st1 = applyAdds (addsB g first syms.reverse (st.followSets.get left))
      (touchState st left) := by
  unfold processSymbolsB at h
  simp only [Option.some.injEq, pasoB_eq] at h
  exact h.symm

theorem altB_mono (g : Grammar) (first : First) (left : String) (syms : List String)
    (st st1 : State) (h : processSymbolsB g first left syms st = some st1) (k : String) :
    st.followSets.get k ⊆ st1.followSets.get k := by
  rw [processSymbolsB_some g first left syms st st1 h]
  refine Finset.Subset.trans ?_ (applyAdds_mono _ _ k)
  rw [get_touchState]

theorem altB_below (g : Grammar) (first : First) (F : String → Finset String) (left : String)
    (syms : List String) (st st1 : State)
    (h : processSymbolsB g first left syms st = some st1)
    (hc : ∀ q ∈ addsB g first syms.reverse (F left), q.2 ⊆ F q.1)
    (hF : ∀ k, st.followSets.get k ⊆ F k) : ∀ k, st1.followSets.get k ⊆ F k := by
  rw [processSymbolsB_some g first left syms st st1 h]
  apply applyAdds_below F
  · exact addsB_mono g first F syms.reverse _ _ (hF left) hc
  · intro k; rw [get_touchState]; exact hF k

theorem altB_changed_false (g : Grammar) (first : First) (left : String)
    (syms : List String) (st st1 : State)
    (h : processSymbolsB g first left syms st = some st1) (hch : st1.changed = false) :
    st.changed = false ∧ st1.followSets.get = st.followSets.get ∧
      ∀ q ∈ addsB g first syms.reverse (st.followSets.get left),
        q.2 ⊆ st.followSets.get q.1 := by
  rw [processSymbolsB_some g first left syms st st1 h] at hch ⊢
  obtain ⟨h1, h2⟩ := applyAdds_changed_false _ _ hch
  have h3 : ∀ q ∈ addsB g first syms.reverse (st.followSets.get left),
      q.2 ⊆ st.followSets.get q.1 := by
    intro q hq
    have := h2 q hq
    rwa [get_touchState] at this
  refine ⟨h1, ?_, h3⟩
  funext k
  rw [(applyAdds_fixed _ _ h2).1 k, get_touchState]

theorem altB_total (g : Grammar) (first : First) (left : String) (syms : List String)
    (st st1 : State) (h : processSymbolsB g first left syms st = some st1)
    (hch : st1.changed = true) :
    st.changed = true ∨ totalSize g st.followSets < totalSize g st1.followSets := by
  rw [processSymbolsB_some g first left syms st st1 h] at hch ⊢
  have hts : totalSize g (touchState st left).followSets = totalSize g st.followSets := by
    unfold totalSize
    exact Finset.sum_congr rfl fun k _ => by rw [get_touchState]
  rcases applyAdds_total g _ _ (addsB_keys g first _ _) hch with h1 | h1
  · exact Or.inl h1
  · right; rwa [hts] at h1

theorem altB_keys (g : Grammar) (first : First) (left : String) (syms : List String)
    (st st1 : State) (h : processSymbolsB g first left syms st = some st1)
    (hnt : ∀ k ∈ g.nonTerminals, (st.followSets k).isSome = true) (k : String) :
    (st1.followSets k).isSome = true ↔ k = left ∨ (st.followSets k).isSome = true := by
  rw [processSymbolsB_some g first left syms st st1 h]
  have h2 : ∀ k, ((touchState st left).followSets k).isSome = true ↔
      k = left ∨ (st.followSets k).isSome = true := by
    intro k
    unfold touchState
    rw [isSome_touch]
  rw [applyAdds_keys _ _ (fun p hp => (h2 _).mpr (Or.inr (hnt _ (addsB_keys g first _ _ p hp))))]
  exact h2 k

/-! ## The computation without PASO A: one pass -/

theorem processRuleB_eq (g : Grammar) (first : First) (r : String) (st : State) :
    processRuleB g first r st = processAltsB g first (altsOfRule r) st := by
  unfold processRuleB altsOfRule processAltsB
  cases parseRule r with
  | none => rfl
  | some p =>
    obtain ⟨left, alternatives⟩ := p
    simp only
    rw [forEach_map]
    rfl

theorem forEach_rulesB_eq (g : Grammar) (first : First) (rules : List String) :
    ∀ st, forEach (processRuleB g first) rules st =
      processAltsB g first (rules.flatMap altsOfRule) st := by
  induction rules with
  | nil => intro st; rfl
  | cons r rules ih =>
    intro st
    rw [List.flatMap_cons]
    unfold processAltsB
    rw [forEach_append]
    simp only [forEach]
    rw [processRuleB_eq]
    unfold processAltsB
    cases forEach (fun p => processSymbolsB g first p.1 p.2) (altsOfRule r) st with
    | none => rfl
    | some st1 => exact ih st1

theorem passB_eq (g : Grammar) (first : First) (fs : FollowSets) :
    passB g first fs = processAltsB g first (altsOf g) ⟨fs, false⟩ :=
  forEach_rulesB_eq g first g.rules ⟨fs, false⟩

theorem processAltsB_cons (g : Grammar) (first : First) (p : String × List String)
    (l : List (String × List String)) (st st2 : State)
    (h : processAltsB g first (p :: l) st = some st2) :
    ∃ st1, processSymbolsB g first p.1 p.2 st = some st1 ∧
      processAltsB g first l st1 = some st2 := by
  unfold processAltsB at h
  simp only [forEach] at h
  cases h1 : processSymbolsB g first p.1 p.2 st with
  | none => rw [h1] at h; exact absurd h (by simp)
  | some st1 => rw [h1] at h; exact ⟨st1, rfl, h⟩

theorem processAltsB_nil (g : Grammar) (first : First) (st st2 : State)
    (h : processAltsB g first [] st = some st2) : st2 = st := by
  unfold processAltsB at h
  simp only [forEach, Option.some.injEq] at h
  exact h.symm

theorem processAltsB_isSome (g : Grammar) (first : First) (l : List (String × List String)) :
    ∀ st, (processAltsB g first l st).isSome = true := by
  induction l with
  | nil => intro st; rfl
  | cons p l ih =>
    intro st
    unfold processAltsB
    simp only [forEach, processSymbolsB]
    exact ih _

theorem altsB_mono (g : Grammar) (first : First) (l : List (String × List String)) :
    ∀ (st st2 : State), processAltsB g first l st = some st2 →
      ∀ k, st.followSets.get k ⊆ st2.followSets.get k := by
  induction l with
  | nil => intro st st2 h k; rw [processAltsB_nil g first st st2 h]
  | cons p l ih =>
    intro st st2 h k
    obtain ⟨st1, h1, h2⟩ := processAltsB_cons g first p l st st2 h
    exact (altB_mono g first p.1 p.2 st st1 h1 k).trans (ih st1 st2 h2 k)

theorem altsB_below (g : Grammar) (first : First) (F : String → Finset String)
    (l : List (String × List String)) :
    ∀ (st st2 : State), processAltsB g first l st = some st2 →
      (∀ p ∈ l, ∀ q ∈ addsB g first p.2.reverse (F p.1), q.2 ⊆ F q.1) →
        (∀ k, st.followSets.get k ⊆ F k) → ∀ k, st2.followSets.get k ⊆ F k := by
  induction l with
  | nil => intro st st2 h _ hF k; rw [processAltsB_nil g first st st2 h]; exact hF k
  | cons p l ih =>
    intro st st2 h hc hF
    obtain ⟨st1, h1, h2⟩ := processAltsB_cons g first p l st st2 h
    exact ih st1 st2 h2 (fun q hq => hc q (List.mem_cons_of_mem _ hq))
      (altB_below g first F p.1 p.2 st st1 h1 (hc p (List.mem_cons_self _ _)) hF)

theorem altsB_changed_false (g : Grammar) (first : First) (l : List (String × List String)) :
    ∀ (st st2 : State), processAltsB g first l st = some st2 → st2.changed = false →
      st.changed = false ∧ st2.followSets.get = st.followSets.get ∧
        ∀ p ∈ l, ∀ q ∈ addsB g first p.2.reverse (st.followSets.get p.1),
          q.2 ⊆ st.followSets.get q.1 := by
  induction l with
  | nil =>
    intro st st2 h hch
    rw [processAltsB_nil g first st st2 h] at hch ⊢
    exact ⟨hch, rfl, fun p hp => absurd hp (List.not_mem_nil p)⟩
  | cons p l ih =>
    intro st st2 h hch
    obtain ⟨st1, h1, h2⟩ := processAltsB_cons g first p l st st2 h
    obtain ⟨h3, h4, h5⟩ := ih st1 st2 h2 hch
    obtain ⟨h6, h7, h8⟩ := altB_changed_false g first p.1 p.2 st st1 h1 h3
    refine ⟨h6, by rw [h4, h7], ?_⟩
    intro q hq
    rcases List.mem_cons.mp hq with rfl | hq
    · exact h8
    · rw [← h7]; exact h5 q hq

theorem altsB_total (g : Grammar) (first : First) (l : List (String × List String)) :
    ∀ (st st2 : State), processAltsB g first l st = some st2 → st2.changed = true →
      st.changed = true ∨ totalSize g st.followSets < totalSize g st2.followSets := by
  induction l with
  | nil =>
    intro st st2 h hch
    rw [processAltsB_nil g first st st2 h] at hch
    exact Or.inl hch
  | cons p l ih =>
    intro st st2 h hch
    obtain ⟨st1, h1, h2⟩ := processAltsB_cons g first p l st st2 h
    rcases ih st1 st2 h2 hch with h3 | h3
    · rcases altB_total g first p.1 p.2 st st1 h1 h3 with h4 | h4
      · exact Or.inl h4
      · right
        exact lt_of_lt_of_le h4 (totalSize_mono g _ _ (altsB_mono g first l st1 st2 h2))
    · right
      exact lt_of_le_of_lt (totalSize_mono g _ _ (altB_mono g first p.1 p.2 st st1 h1)) h3

theorem altsB_keys (g : Grammar) (first : First) (l : List (String × List String)) :
    ∀ (st st2 : State), processAltsB g first l st = some st2 →
      (∀ k ∈ g.nonTerminals, (st.followSets k).isSome = true) →
        ∀ k, (st2.followSets k).isSome = true ↔
          (∃ p ∈ l, k = p.1) ∨ (st.followSets k).isSome = true := by
  induction l with
  | nil =>
    intro st st2 h _ k
    rw [processAltsB_nil g first st st2 h]
    simp
  | cons p l ih =>
    intro st st2 h hnt k
    obtain ⟨st1, h1, h2⟩ := processAltsB_cons g first p l st st2 h
    have hk := altB_keys g first p.1 p.2 st st1 h1 hnt
    rw [ih st1 st2 h2 (fun k1 hk1 => (hk k1).mpr (Or.inr (hnt k1 hk1))) k, hk k]
    simp only [List.mem_cons, exists_eq_or_imp]
    constructor
    · rintro (h3 | h3 | h3)
      · exact Or.inl (Or.inr h3)
      · exact Or.inl (Or.inl h3)
      · exact Or.inr h3
    · rintro ((h3 | h3) | h3)
      · exact Or.inr (Or.inl h3)
      · exact Or.inl h3
      · exact Or.inr (Or.inr h3)

/-! ## The computation without PASO A: the loop -/

theorem closed_closedB (g : Grammar) (first : First) (F : String → Finset String)
    (h : Closed g first F) : ClosedB g first F :=
  fun p hp => (h p hp).2

theorem passB_some (g : Grammar) (first : First) (fs : FollowSets) :
    ∃ st, passB g first fs = some st := by
  have h := processAltsB_isSome g first (altsOf g) ⟨fs, false⟩
  rw [← passB_eq] at h
  cases hp : passB g first fs with
  | none => rw [hp] at h; exact absurd h (by simp)
  | some st => exact ⟨st, rfl⟩

theorem passB_mono (g : Grammar) (first : First) (fs : FollowSets) (st : State)
    (h : passB g first fs = some st) (k : String) : fs.get k ⊆ st.followSets.get k := by
  rw [passB_eq] at h
  exact altsB_mono g first _ _ st h k

theorem passB_below (g : Grammar) (first : First) (F : String → Finset String)
    (fs : FollowSets) (st : State) (h : passB g first fs = some st)
    (hc : ClosedB g first F) (hF : ∀ k, fs.get k ⊆ F k) : ∀ k, st.followSets.get k ⊆ F k := by
  rw [passB_eq] at h
  exact altsB_below g first F _ _ st h hc hF

theorem passB_changed_false (g : Grammar) (first : First) (fs : FollowSets) (st : State)
    (h : passB g first fs = some st) (hch : st.changed = false) :
    st.followSets.get = fs.get ∧ ClosedB g first fs.get := by
  rw [passB_eq] at h
  obtain ⟨_, h2, h3⟩ := altsB_changed_false g first _ _ st h hch
  exact ⟨h2, h3⟩

theorem passB_total (g : Grammar) (first : First) (fs : FollowSets) (st : State)
    (h : passB g first fs = some st) (hch : st.changed = true) :
    totalSize g fs < totalSize g st.followSets := by
  rw [passB_eq] at h
  rcases altsB_total g first _ _ st h hch with h1 | h1
  · exact absurd h1 (by simp)
  · exact h1

theorem passB_keys (g : Grammar) (first : First) (fs : FollowSets) (st : State)
    (h : passB g first fs = some st)
    (hnt : ∀ k ∈ g.nonTerminals, (fs k).isSome = true) (k : String) :
    (st.followSets k).isSome = true ↔ (∃ p ∈ altsOf g, k = p.1) ∨ (fs k).isSome = true := by
  rw [passB_eq] at h
  exact altsB_keys g first _ _ st h hnt k

theorem passB_bounded (g : Grammar) (first : First) (fs : FollowSets) (st : State)
    (h : passB g first fs = some st) (hb : Bounded g first fs) :
    Bounded g first st.followSets :=
  passB_below g first _ fs st h (closed_closedB g first _ (closed_allSymbols g first)) hb

theorem whileLoopB_succ (g : Grammar) (first : First) (fuel : Nat) (fs : FollowSets) :
    whileLoopB g first (fuel + 1) fs =
      match passB g first fs with
      | none => .raised
      | some st =>
        if st.changed then (whileLoopB g first fuel st.followSets).succ
        else .ok st.followSets 1 := rfl

theorem whileLoopB_ok_inv (g : Grammar) (first : First) (Inv : FollowSets → Prop)
    (hpres : ∀ fs st, Inv fs → passB g first fs = some st → Inv st.followSets) :
    ∀ fuel fs fs2 n, Inv fs → whileLoopB g first fuel fs = .ok fs2 n →
      ∃ fs1 st, Inv fs1 ∧ passB g first fs1 = some st ∧ st.changed = false ∧
        st.followSets = fs2 := by
  intro fuel
  induction fuel with
  | zero => intro fs fs2 n _ h; simp [whileLoopB] at h
  | succ fuel ih =>
    intro fs fs2 n hinv h
    rw [whileLoopB_succ] at h
    cases hp : passB g first fs with
    | none => rw [hp] at h; simp at h
    | some st =>
      rw [hp] at h
      simp only at h
      cases hc : st.changed with
      | true =>
        rw [hc] at h
        simp only [if_true] at h
        obtain ⟨m, hm, _⟩ := succ_ok _ _ _ h
        exact ih st.followSets fs2 m (hpres fs st hinv hp) hm
      | false =>
        rw [hc] at h
        simp only [Bool.false_eq_true, if_false, Result.ok.injEq] at h
        exact ⟨fs, st, hinv, hp, hc, h.1⟩

theorem whileLoopB_completes (g : Grammar) (first : First) :
    ∀ fuel fs, Bounded g first fs →
      g.nonTerminals.card * ((alphabet g first).card + 1) < fuel + totalSize g fs →
        ∃ fs2 n, whileLoopB g first fuel fs = .ok fs2 n := by
  intro fuel
  induction fuel with
  | zero =>
    intro fs hb hlt
    have := totalSize_le g first fs hb
    omega
  | succ fuel ih =>
    intro fs hb hlt
    rw [whileLoopB_succ]
    obtain ⟨st, hp⟩ := passB_some g first fs
    rw [hp]
    simp only
    cases hc : st.changed with
    | true =>
      simp only [if_true]
      have := passB_total g first fs st hp hc
      obtain ⟨fs2, n, h2⟩ := ih st.followSets (passB_bounded g first fs st hp hb) (by omega)
      rw [h2]
      exact ⟨fs2, n + 1, rfl⟩
    | false => exact ⟨st.followSets, 1, by simp⟩

theorem computeB_ok (g : Grammar) (first : First) : ∃ fs n, computeB g first = .ok fs n := by
  unfold computeB passBound
  apply whileLoopB_completes g first _ _ (seed_bounded g first)
  omega

theorem computeB_least (g : Grammar) (first : First) (fs : FollowSets) (n : Nat)
    (h : computeB g first = .ok fs n) :
    Seeded g fs.get ∧ ClosedB g first fs.get ∧
      ∀ F, Seeded g F → ClosedB g first F → ∀ k, fs.get k ⊆ F k := by
  unfold computeB at h
  obtain ⟨fs1, st, ⟨hi1, hi2⟩, hp, hc, rfl⟩ := whileLoopB_ok_inv g first
    (fun fs => Seeded g fs.get ∧ ∀ F, Seeded g F → ClosedB g first F → ∀ k, fs.get k ⊆ F k)
    (fun fs st hinv hp =>
      ⟨fun hne => passB_mono g first fs st hp _ (hinv.1 hne),
        fun F hF hcl => passB_below g first F fs st hp hcl (hinv.2 F hF hcl)⟩)
    _ _ fs n ⟨seed_seeded g, fun F hF _ => seed_below g F hF⟩ h
  obtain ⟨h1, h2⟩ := passB_changed_false g first fs1 st hp hc
  rw [h1]
  exact ⟨hi1, h2, hi2⟩

theorem computeB_keys (g : Grammar) (first : First) (fs : FollowSets) (n : Nat)
    (h : computeB g first = .ok fs n) (k : String) :
    (fs k).isSome = true ↔
      k ∈ g.nonTerminals ∨ (g.initialState ≠ "" ∧ k = g.initialState) ∨
        ∃ p ∈ altsOf g, k = p.1 := by
  unfold computeB at h
  obtain ⟨fs1, st, ⟨hi1, hi2⟩, hp, _, rfl⟩ := whileLoopB_ok_inv g first
    (fun fs => (∀ k, (k ∈ g.nonTerminals ∨ (g.initialState ≠ "" ∧ k = g.initialState)) →
        (fs k).isSome = true) ∧
      ∀ k, (fs k).isSome = true → k ∈ g.nonTerminals ∨
        (g.initialState ≠ "" ∧ k = g.initialState) ∨ ∃ p ∈ altsOf g, k = p.1)
    (fun fs st hinv hp => by
      have hk := passB_keys g first fs st hp (fun k hk => hinv.1 k (Or.inl hk))
      constructor
      · intro k hk1
        exact (hk k).mpr (Or.inr (hinv.1 k hk1))
      · intro k hk1
        rcases (hk k).mp hk1 with h1 | h1
        · exact Or.inr (Or.inr h1)
        · exact hinv.2 k h1)
    _ _ fs n
    ⟨fun k hk => (isSome_seed g k).mpr hk, fun k hk => by
      rcases (isSome_seed g k).mp hk with h1 | h1
      · exact Or.inl h1
      · exact Or.inr (Or.inl h1)⟩ h
  rw [passB_keys g first fs1 st hp (fun k hk => hi1 k (Or.inl hk)) k]
  constructor
  · rintro (h1 | h1)
    · exact Or.inr (Or.inr h1)
    · exact hi2 k h1
  · rintro (h1 | h1 | h1)
    · exact Or.inr (hi1 k (Or.inl h1))
    · exact Or.inr (hi1 k (Or.inr h1))
    · exact Or.inl h1

/-! ## Rule 1 inside Rule 2 -/

theorem addsA_mem (g : Grammar) (first : First) (syms : List String) :
    ∀ la, addsA g first syms = some la → ∀ q ∈ la,
      ∃ pre x y post fn, syms = pre ++ x :: y :: post ∧ trim x ≠ "" ∧
        trim x ∈ g.nonTerminals ∧ firstNext g first (trim y) = some fn ∧
          q = (trim x, fn.filter fun s => !is_eps s) := by
  induction syms with
  | nil =>
    intro la h q hq
    simp only [addsA, Option.some.injEq] at h
    subst h; exact absurd hq (List.not_mem_nil q)
  | cons x rest ih =>
    intro la h q hq
    cases rest with
    | nil =>
      unfold addsA at h
      by_cases h0 : trim x = "" ∨ trim x ∉ g.nonTerminals
      · rw [if_pos h0] at h
        simp only [addsA, Option.some.injEq] at h
        subst h; exact absurd hq (List.not_mem_nil q)
      · rw [if_neg h0] at h
        simp only [Option.some.injEq] at h
        subst h; exact absurd hq (List.not_mem_nil q)
    | cons y rest1 =>
      rw [addsA_cons_cons] at h
      by_cases h0 : trim x = "" ∨ trim x ∉ g.nonTerminals
      · rw [if_pos h0] at h
        obtain ⟨pre, a, b, post, fn, h1, h2⟩ := ih la h q hq
        exact ⟨x :: pre, a, b, post, fn, by rw [h1]; rfl, h2⟩
      · rw [if_neg h0] at h
        have hx : trim x ≠ "" ∧ trim x ∈ g.nonTerminals := by
          constructor
          · exact fun c => h0 (Or.inl c)
          · by_contra c; exact h0 (Or.inr c)
        cases hf : firstNext g first (trim y) with
        | none => rw [hf] at h; exact absurd h (by simp)
        | some fn =>
          rw [hf] at h
          simp only at h
          cases hl : addsA g first (y :: rest1) with
          | none => rw [hl] at h; exact absurd h (by simp)
          | some l =>
            rw [hl] at h
            simp only [Option.map_some', Option.some.injEq] at h
            subst h
            rcases List.mem_cons.mp hq with rfl | hq
            · exact ⟨[], x, y, rest1, fn, rfl, hx.1, hx.2, hf, rfl⟩
            · obtain ⟨pre, a, b, post, fn1, h1, h2⟩ := ih l hl q hq
              exact ⟨x :: pre, a, b, post, fn1, by rw [h1]; rfl, h2⟩

theorem eps_quoted (y : String) (h1 : is_eps y = true) (h2 : is_quoted_terminal y = true) :
    y = "''" := by
  rw [is_eps_iff] at h1
  rcases h1 with h | h | h | h
  · exact h
  · subst h; revert h2; decide
  · subst h; revert h2; decide
  · subst h; revert h2; decide

/-- What PASO A inserts after a nonterminal lies in FIRST of the symbols to its
right, when no nonterminal name is quoted and the successor is not `''`. -/
theorem firstNext_subset_firstOfSeq (g : Grammar) (first : First)
    (hnames : ∀ nt ∈ g.nonTerminals, is_quoted_terminal nt = false)
    (y : String) (post : List String) (hy : y ≠ "''") (fn : Finset String)
    (h : firstNext g first y = some fn) :
    fn.filter (fun s => !is_eps s) ⊆ firstOfSeq g first (y :: post) := by
  rw [firstOfSeq_cons]
  unfold firstNext at h
  by_cases h1 : is_quoted_terminal y = true
  · have h2 : y ∉ g.nonTerminals := by
      intro c
      rw [hnames y c] at h1
      exact absurd h1 (by simp)
    have h3 : ¬ is_eps y = true := fun c => hy (eps_quoted y c h1)
    rw [if_pos h1] at h
    simp only [Option.some.injEq] at h
    subst h
    rw [if_neg h2, if_neg h3]
    unfold termOf
    rw [if_pos h1]
    exact Finset.filter_subset _ _
  · rw [if_neg h1] at h
    by_cases h2 : y ∈ g.nonTerminals
    · rw [if_pos h2] at h
      rw [if_pos h2, h]
      exact Finset.subset_union_left
    · rw [if_neg h2] at h
      rw [if_neg h2]
      by_cases h3 : is_eps y = true
      · rw [if_neg (by simp [h3])] at h
        simp only [Option.some.injEq] at h
        subst h
        simp
      · rw [if_pos (by simpa using h3)] at h
        simp only [Option.some.injEq] at h
        subst h
        rw [if_neg h3]
        unfold termOf
        rw [if_neg h1]
        exact Finset.filter_subset _ _

/-- A family closed under the insertions of PASO B is closed under those of
PASO A too, when no nonterminal name is quoted and `''` never follows a
nonterminal. -/
theorem closedB_closed (g : Grammar) (first : First)
    (hnames : ∀ nt ∈ g.nonTerminals, is_quoted_terminal nt = false)
    (hquote : ∀ left pre x post, (left, pre ++ x :: "''" :: post) ∈ altsOf g →
      x ∉ g.nonTerminals)
    (F : String → Finset String) (h : ClosedB g first F) : Closed g first F := by
  intro p hp
  refine ⟨?_, h p hp⟩
  intro la hla q hq
  obtain ⟨pre, x, y, post, fn, h1, _, h3, h4, rfl⟩ := addsA_mem g first p.2 la hla q hq
  have htok := altsOf_mem g p hp
  have hx := (htok x (by rw [h1]; simp)).1
  have hy := (htok y (by rw [h1]; simp)).1
  rw [hx] at h3 ⊢
  rw [hy] at h4
  have hp1 : (p.1, pre ++ x :: y :: post) ∈ altsOf g := by
    rw [← h1]; exact hp
  have hyq : y ≠ "''" := by
    intro c
    subst c
    exact hquote p.1 pre x post hp1 h3
  have hsub := closedB_suffix g first F p.1 x pre (y :: post) (altsOf_mem g _ hp1) h3
    (by rw [← h1]; exact h p hp)
  exact (firstNext_subset_firstOfSeq g first hnames y post hyq fn h4).trans
    (Finset.union_subset_left hsub)

theorem adjacent_mem_zip (x y : String) (post : List String) :
    ∀ pre : List String, (x, y) ∈ (pre ++ x :: y :: post).zip (pre ++ x :: y :: post).tail := by
  intro pre
  induction pre with
  | nil => simp
  | cons a pre ih =>
    cases pre with
    | nil => simp
    | cons b pre1 =>
      simp only [List.cons_append, List.tail_cons, List.zip_cons_cons, List.mem_cons]
      right
      simpa using ih

/-! ## The claims -/

/-- Claim C1: under a complete FIRST oracle, nonterminal names that are neither
epsilon aliases nor quoted, and epsilon only as the sole symbol of an alternative,
`compute` returns a map that holds `$` for a non-empty start symbol, satisfies Rule 1
and Rule 2 of the specification on every alternative of every well-formed rule, and
lies pointwise inside every family of sets with these two properties. -/
theorem follow_least_fixed_point (g : Grammar) (first : First)
    (hfirst : ∀ nt ∈ g.nonTerminals, (first.firstSets nt).isSome = true)
    (hnames : ∀ nt ∈ g.nonTerminals, is_eps nt = false ∧ is_quoted_terminal nt = false)
    (heps : ∀ p ∈ altsOf g, ∀ t ∈ p.2, is_eps t = true → p.2 = [t]) :
    ∃ fs n, compute g first = .ok fs n ∧
      (g.initialState ≠ "" → "$" ∈ fs.get g.initialState) ∧
      SpecClosed g first fs.get ∧
      ∀ F : String → Finset String, (g.initialState ≠ "" → "$" ∈ F g.initialState) →
        SpecClosed g first F → ∀ k, fs.get k ⊆ F k := by
  obtain ⟨fs, n, h⟩ := compute_ok g first (noRaise_of_complete g first hfirst)
  obtain ⟨h1, h2, h3⟩ := compute_least g first fs n h
  refine ⟨fs, n, h, h1, (closed_iff_specClosed g first _ hfirst hnames heps).mp h2, ?_⟩
  intro F hF hcl
  exact h3 F hF ((closed_iff_specClosed g first F hfirst hnames heps).mpr hcl)

/-- Scenario A meets the conditions of claim C1 and yields FOLLOW(S) = {$},
FOLLOW(A) = {b}, FOLLOW(B) = {$}. -/
theorem follow_least_fixed_point_scenarioA :
    ((∀ nt ∈ grammarA.nonTerminals, (firstA.firstSets nt).isSome = true) ∧
      (∀ nt ∈ grammarA.nonTerminals, is_eps nt = false ∧ is_quoted_terminal nt = false) ∧
      (∀ p ∈ altsOf grammarA, ∀ t ∈ p.2, is_eps t = true → p.2 = [t])) ∧
    (∃ fs n, compute grammarA firstA = .ok fs n ∧
      (grammarA.initialState ≠ "" → "$" ∈ fs.get grammarA.initialState) ∧
      SpecClosed grammarA firstA fs.get ∧
      ∀ F : String → Finset String,
        (grammarA.initialState ≠ "" → "$" ∈ F grammarA.initialState) →
          SpecClosed grammarA firstA F → ∀ k, fs.get k ⊆ F k) ∧
    (compute grammarA firstA).follow "S" = some {"$"} ∧
    (compute grammarA firstA).follow "A" = some {"b"} ∧
    (compute grammarA firstA).follow "B" = some {"$"} :=
  ⟨⟨by decide, by decide, by decide⟩,
    follow_least_fixed_point grammarA firstA (by decide) (by decide) (by decide),
    by decide, by decide, by decide⟩

/-- Claim C2: when `compute` completes and the start symbol is non-empty, the
entry of the start symbol in the final map holds `$`. -/
theorem end_marker_in_start_follow (g : Grammar) (first : First) (fs : FollowSets) (n : Nat)
    (h : compute g first = .ok fs n) (hinit : g.initialState ≠ "") :
    ∃ s, fs g.initialState = some s ∧ "$" ∈ s := by
  have h1 := (compute_least g first fs n h).1 hinit
  unfold FollowSets.get at h1
  cases hs : fs g.initialState with
  | none => rw [hs] at h1; simp at h1
  | some s => rw [hs] at h1; exact ⟨s, rfl, by simpa using h1⟩

/-- Scenario A is an instance of claim C2. -/
theorem end_marker_in_start_follow_scenarioA :
    compute grammarA firstA = .ok finalA 2 ∧ grammarA.initialState ≠ "" ∧
      ∃ s, finalA grammarA.initialState = some s ∧ "$" ∈ s :=
  ⟨rfl, by decide, end_marker_in_start_follow grammarA firstA finalA 2 rfl (by decide)⟩

/-- Claim C3, the code at a failing input: for the rule `S -> A 'EPS'` the final
FOLLOW set of `A` holds the text `EPS`, which `is_eps` recognises. -/
theorem epsilon_alias_in_follow :
    (compute grammarQuotedEps firstQuotedEps).follow "A" = some {"EPS"} ∧
      is_eps "EPS" = true := by
  decide

/-- Claim C4 fails as stated: a start symbol that is not a declared nonterminal
has an entry in the final map. -/
theorem follow_keys_stray_start :
    "S" ∉ grammarStray.nonTerminals ∧
      (compute grammarStray firstStray).follow "S" = some {"$"} := by
  decide

/-- Claim C4, amended: in the final map a name has an entry exactly when it is a
declared nonterminal, the non-empty start symbol, or the left-hand side of an
alternative of a well-formed rule. -/
theorem follow_keys_exact (g : Grammar) (first : First) (fs : FollowSets) (n : Nat)
    (h : compute g first = .ok fs n) (k : String) :
    (fs k).isSome = true ↔
      k ∈ g.nonTerminals ∨ (g.initialState ≠ "" ∧ k = g.initialState) ∨
        ∃ p ∈ altsOf g, k = p.1 :=
  compute_keys g first fs n h k

/-- Scenario A is an instance of the amended claim C4, at the key `B`. -/
theorem follow_keys_exact_scenarioA :
    compute grammarA firstA = .ok finalA 2 ∧
      ((finalA "B").isSome = true ↔
        "B" ∈ grammarA.nonTerminals ∨ (grammarA.initialState ≠ "" ∧ "B" = grammarA.initialState) ∨
          ∃ p ∈ altsOf grammarA, "B" = p.1) :=
  ⟨rfl, follow_keys_exact grammarA firstA finalA 2 rfl "B"⟩

/-- Claim C5: with a FIRST entry for every nonterminal the loop ends after a
finite number of passes, whatever supply of passes at least that large it is given;
a pass that sets `changed` strictly increases the sum of the sizes of the FOLLOW
sets of the nonterminals; and this sum stays bounded along the passes. -/
theorem while_loop_terminates (g : Grammar) (first : First)
    (hfirst : ∀ nt ∈ g.nonTerminals, (first.firstSets nt).isSome = true) :
    (∃ fs n, ∀ fuel, n ≤ fuel → whileLoop g first fuel (seed g) = .ok fs n) ∧
      (∀ fs st, pass g first fs = some st → st.changed = true →
        totalSize g fs < totalSize g st.followSets) ∧
      Bounded g first (seed g) ∧
      (∀ fs st, Bounded g first fs → pass g first fs = some st →
        Bounded g first st.followSets) ∧
      ∀ fs, Bounded g first fs →
        totalSize g fs ≤ g.nonTerminals.card * ((alphabet g first).card + 1) := by
  obtain ⟨fs, n, h⟩ := compute_ok g first (noRaise_of_complete g first hfirst)
  refine ⟨⟨fs, n, whileLoop_fuel g first _ _ fs n h⟩, ?_, seed_bounded g first, ?_, ?_⟩
  · exact fun fs st hp hc => pass_total g first fs st hp hc
  · exact fun fs st hb hp => pass_bounded g first fs st hp hb
  · exact fun fs hb => totalSize_le g first fs hb

/-- Scenario A is an instance of claim C5. -/
theorem while_loop_terminates_scenarioA :
    (∀ nt ∈ grammarA.nonTerminals, (firstA.firstSets nt).isSome = true) ∧
      ∃ fs n, ∀ fuel, n ≤ fuel → whileLoop grammarA firstA fuel (seed grammarA) = .ok fs n :=
  ⟨by decide, (while_loop_terminates grammarA firstA (by decide)).1⟩

/-- Claim C6 fails as stated: `S -> A` without any terminal needs two passes,
more than (number of nonterminals × size of the alphabet) + 1 = 1. -/
theorem pass_count_exceeds_spec_bound :
    (∀ nt ∈ grammarChain.nonTerminals, (firstChain.firstSets nt).isSome = true) ∧
      (compute grammarChain firstChain).passes = some 2 ∧
      grammarChain.nonTerminals.card * (alphabet grammarChain firstChain).card + 1 = 1 := by
  decide

/-- Claim C6, amended: whatever supply of passes the loop is given, a run that
completes has made at most
(number of nonterminals × (size of the terminal alphabet + 1)) + 1 passes, the end
marker counting as one more symbol; a supply of that many passes is never
exhausted; and with a FIRST entry for every nonterminal the loop returns after one
number of passes within this bound for every supply at least that large. -/
theorem pass_count_bound (g : Grammar) (first : First) :
    (∀ fuel fs n, whileLoop g first fuel (seed g) = .ok fs n →
      n ≤ g.nonTerminals.card * ((alphabet g first).card + 1) + 1) ∧
    (∀ fuel, g.nonTerminals.card * ((alphabet g first).card + 1) + 1 ≤ fuel →
      whileLoop g first fuel (seed g) ≠ .timeout) ∧
    ((∀ nt ∈ g.nonTerminals, (first.firstSets nt).isSome = true) →
      ∃ fs n, n ≤ g.nonTerminals.card * ((alphabet g first).card + 1) + 1 ∧
        ∀ fuel, n ≤ fuel → whileLoop g first fuel (seed g) = .ok fs n) ∧
    ∀ fs n, compute g first = .ok fs n →
      n ≤ g.nonTerminals.card * ((alphabet g first).card + 1) + 1 := by
  refine ⟨?_, ?_, ?_, fun fs n h => compute_passes_le g first fs n h⟩
  · intro fuel fs n h
    have := whileLoop_passes g first fuel (seed g) fs n (seed_bounded g first) h
    omega
  · intro fuel hle
    apply whileLoop_ne_timeout g first fuel (seed g) (seed_bounded g first)
    omega
  · intro hfirst
    obtain ⟨fs, n, h⟩ := compute_ok g first (noRaise_of_complete g first hfirst)
    exact ⟨fs, n, compute_passes_le g first fs n h, whileLoop_fuel g first _ _ fs n h⟩

/-- The grammar `S -> A` is an instance of the amended claim C6: with a supply of
100 passes the loop returns after 2 passes, within the bound 3. -/
theorem pass_count_bound_chain :
    (whileLoop grammarChain firstChain 100 (seed grammarChain) = .ok finalChain 2 ∧
      2 ≤ grammarChain.nonTerminals.card * ((alphabet grammarChain firstChain).card + 1) + 1) ∧
    ((∀ nt ∈ grammarChain.nonTerminals, (firstChain.firstSets nt).isSome = true) ∧
      ∃ fs n, n ≤ grammarChain.nonTerminals.card *
          ((alphabet grammarChain firstChain).card + 1) + 1 ∧
        ∀ fuel, n ≤ fuel →
          whileLoop grammarChain firstChain fuel (seed grammarChain) = .ok fs n) :=
  ⟨⟨rfl, (pass_count_bound grammarChain firstChain).1 100 finalChain 2 rfl⟩,
    by decide, (pass_count_bound grammarChain firstChain).2.2.1 (by decide)⟩

/-- Claim C7: one more pass of the loop body on the final map completes, leaves
`changed` false and leaves the map as it is. -/
theorem one_more_pass_changes_nothing (g : Grammar) (first : First) (fs : FollowSets)
    (n : Nat) (h : compute g first = .ok fs n) :
    ∃ st, pass g first fs = some st ∧ st.changed = false ∧ st.followSets = fs :=
  compute_stable g first fs n h

/-- Scenario A is an instance of claim C7. -/
theorem one_more_pass_changes_nothing_scenarioA :
    compute grammarA firstA = .ok finalA 2 ∧
      ∃ st, pass grammarA firstA finalA = some st ∧ st.changed = false ∧
        st.followSets = finalA :=
  ⟨rfl, one_more_pass_changes_nothing grammarA firstA finalA 2 rfl⟩

/-- Claim C8: with a FIRST entry for every nonterminal, the computation on a
permutation of the rules completes with the same final map. -/
theorem follow_independent_of_rule_order (g : Grammar) (first : First)
    (rules1 : List String) (hperm : rules1.Perm g.rules)
    (hfirst : ∀ nt ∈ g.nonTerminals, (first.firstSets nt).isSome = true) :
    ∃ fs n n1, compute g first = .ok fs n ∧
      compute ⟨g.nonTerminals, g.initialState, rules1⟩ first = .ok fs n1 := by
  obtain ⟨fs, n, h⟩ := compute_ok g first (noRaise_of_complete g first hfirst)
  obtain ⟨fs1, n1, h1⟩ := compute_ok ⟨g.nonTerminals, g.initialState, rules1⟩ first
    (noRaise_of_complete ⟨g.nonTerminals, g.initialState, rules1⟩ first hfirst)
  have := compute_congr g ⟨g.nonTerminals, g.initialState, rules1⟩ first rfl rfl
    (altsOf_perm g rules1 hperm) fs fs1 n n1 h h1
  subst this
  exact ⟨fs1, n, n1, h, h1⟩

/-- Scenario A and its rules in the opposite order are an instance of claim C8. -/
theorem follow_independent_of_rule_order_scenarioA :
    (grammarA_reversed.rules.Perm grammarA.rules ∧
      ∀ nt ∈ grammarA.nonTerminals, (firstA.firstSets nt).isSome = true) ∧
      ∃ fs n n1, compute grammarA firstA = .ok fs n ∧
        compute ⟨grammarA.nonTerminals, grammarA.initialState, grammarA_reversed.rules⟩ firstA =
          .ok fs n1 :=
  ⟨⟨by decide, by decide⟩,
    follow_independent_of_rule_order grammarA firstA grammarA_reversed.rules
      (by decide) (by decide)⟩

/-- Claim C9 fails as stated: in `S -> A` the declared nonterminal `A` has no
FIRST entry and is looked up by Rule 2, yet the computation completes. -/
theorem missing_first_entry_tolerated :
    "A" ∈ grammarChain.nonTerminals ∧ firstNone.firstSets "A" = none ∧
      ("S", ["A"]) ∈ altsOf grammarChain ∧
      (compute grammarChain firstNone).passes = some 2 ∧
      (compute grammarChain firstNone).follow "A" = some {"$"} := by
  decide

/-- Claim C9, amended: the computation raises when, in an alternative of a
well-formed rule, a declared nonterminal is immediately followed by a declared
nonterminal that is not of quoted form and has no FIRST entry. -/
theorem raises_on_missing_first_after_nonterminal (g : Grammar) (first : First)
    (left x y : String) (pre post : List String)
    (halt : (left, pre ++ x :: y :: post) ∈ altsOf g)
    (hx : x ∈ g.nonTerminals) (hy : y ∈ g.nonTerminals)
    (hq : is_quoted_terminal y = false) (hmiss : first.firstSets y = none) :
    compute g first = .raised := by
  rw [compute_raised]
  intro hnr
  have hsome := hnr _ halt
  have htok := altsOf_mem g _ halt
  obtain ⟨hx1, hx2⟩ := htok x (by simp)
  obtain ⟨hy1, _⟩ := htok y (by simp)
  have hnone := addsA_adjacent g first x y post (by rw [hx1]; exact hx2) (by rw [hx1]; exact hx)
    (by rw [hy1]; exact (firstNext_eq_none g first y).mpr ⟨hq, hy, hmiss⟩) pre
  simp only at hsome
  rw [hnone] at hsome
  exact absurd hsome (by simp)

/-- The grammar `S -> A B` without FIRST entries is an instance of the amended
claim C9. -/
theorem raises_on_missing_first_after_nonterminal_adjacent :
    (("S", [] ++ "A" :: "B" :: []) ∈ altsOf grammarAdjacent ∧
      "A" ∈ grammarAdjacent.nonTerminals ∧ "B" ∈ grammarAdjacent.nonTerminals ∧
      is_quoted_terminal "B" = false ∧ firstNone.firstSets "B" = none) ∧
      compute grammarAdjacent firstNone = .raised :=
  ⟨by decide,
    raises_on_missing_first_after_nonterminal grammarAdjacent firstNone "S" "A" "B" [] []
      (by decide) (by decide) (by decide) (by decide) rfl⟩

/-- Claim C10: with a FIRST entry for every name of `nonTerminals` the
computation completes without raising, and no lookup made for `firstNext` fails. -/
theorem completes_with_complete_first (g : Grammar) (first : First)
    (hfirst : ∀ nt ∈ g.nonTerminals, (first.firstSets nt).isSome = true) :
    (∃ fs n, compute g first = .ok fs n) ∧
      ∀ nextSym, (firstNext g first nextSym).isSome = true :=
  ⟨compute_ok g first (noRaise_of_complete g first hfirst),
    fun nextSym => firstNext_isSome g first hfirst nextSym⟩

/-- Scenario A is an instance of claim C10. -/
theorem completes_with_complete_first_scenarioA :
    (∀ nt ∈ grammarA.nonTerminals, (firstA.firstSets nt).isSome = true) ∧
      (∃ fs n, compute grammarA firstA = .ok fs n) ∧
      ∀ nextSym, (firstNext grammarA firstA nextSym).isSome = true :=
  ⟨by decide, completes_with_complete_first grammarA firstA (by decide)⟩

/-- Claim C11: the computation on the rule list from which every text that is
empty after trimming or lacks the separator `->` is deleted has the same outcome,
final map included, as the computation on all the rules. -/
theorem malformed_rules_contribute_nothing (g : Grammar) (first : First) :
    compute ⟨g.nonTerminals, g.initialState, keptRules g⟩ first = compute g first :=
  compute_eq_of_alts g ⟨g.nonTerminals, g.initialState, keptRules g⟩ first rfl rfl
    (altsOf_keptRules g)

/-- Claim C12: after one full pass every FOLLOW set is a superset of its value
before the pass and every entry is still there; the insertion step shared by
Rule 1 and Rule 2 removes nothing either. -/
theorem pass_is_monotone (g : Grammar) (first : First) (fs : FollowSets) (st : State)
    (h : pass g first fs = some st) :
    (∀ k, fs.get k ⊆ st.followSets.get k) ∧
      (∀ k, (fs k).isSome = true → (st.followSets k).isSome = true) ∧
      ∀ (st1 : State) (k : String) (s : Finset String) (k1 : String),
        st1.followSets.get k1 ⊆ (st1.add k s).followSets.get k1 :=
  ⟨fun k => pass_mono g first fs st h k, fun k hk => pass_isSome_mono g first fs st h k hk,
    fun st1 k s k1 => applyAdds_mono [(k, s)] st1 k1⟩

/-- The first pass of scenario A is an instance of claim C12. -/
theorem pass_is_monotone_scenarioA :
    pass grammarA firstA (seed grammarA) = some firstPassA ∧
      (∀ k, (seed grammarA).get k ⊆ firstPassA.followSets.get k) :=
  ⟨rfl, (pass_is_monotone grammarA firstA (seed grammarA) firstPassA rfl).1⟩

/-- Claim C14, the code at a failing input: in `S -> A ''` the nonterminal `A` is
followed by the epsilon token `''`, and PASO A inserts the empty string into
FOLLOW(A) and sets `changed`; the empty string is in the final FOLLOW(A). -/
theorem empty_quote_successor_adds :
    ("S", ["A", "''"]) ∈ altsOf grammarEmptyQuote ∧
      "A" ∈ grammarEmptyQuote.nonTerminals ∧ is_eps "''" = true ∧
      (pasoA grammarEmptyQuote firstQuotedEps ["A", "''"] ⟨seed grammarEmptyQuote, false⟩).map
        (fun st => (st.followSets.get "A", st.changed)) = some ({""}, true) ∧
      (compute grammarEmptyQuote firstQuotedEps).follow "A" = some {"", "$"} := by
  decide

/-- Claim C15: with a FIRST entry for every nonterminal the computation
completes, and in the final map, for a declared nonterminal `x` followed by `y` in
an alternative of a well-formed rule: the quote-stripped literal of a quoted
terminal `y`, the text of a bare terminal `y` that is not an epsilon alias, and
every member that is not an epsilon alias of FIRST of a declared nonterminal `y`
are in FOLLOW(x). -/
theorem adjacency_closure (g : Grammar) (first : First)
    (hfirst : ∀ nt ∈ g.nonTerminals, (first.firstSets nt).isSome = true) :
    ∃ fs n, compute g first = .ok fs n ∧
      ∀ left pre x y post, (left, pre ++ x :: y :: post) ∈ altsOf g → x ∈ g.nonTerminals →
        (y ∉ g.nonTerminals → is_eps y = false → is_quoted_terminal y = true →
          substr y 1 (y.length - 2) ∈ fs.get x) ∧
        (y ∉ g.nonTerminals → is_eps y = false → is_quoted_terminal y = false →
          y ∈ fs.get x) ∧
        (y ∈ g.nonTerminals → ∀ s ∈ (first.firstSets y).getD ∅, is_eps s = false →
          s ∈ fs.get x) := by
  obtain ⟨fs, n, h⟩ := compute_ok g first (noRaise_of_complete g first hfirst)
  refine ⟨fs, n, h, ?_⟩
  intro left pre x y post halt hx
  have hsub := compute_suffix g first fs n h left x pre (y :: post) halt hx
  rw [firstOfSeq_cons] at hsub
  refine ⟨?_, ?_, ?_⟩
  · intro hy he hq
    rw [if_neg hy, if_neg (by simp [he])] at hsub
    apply hsub
    apply Finset.mem_union_left
    unfold termOf
    rw [if_pos hq]
    exact Finset.mem_singleton_self _
  · intro hy he hq
    rw [if_neg hy, if_neg (by simp [he])] at hsub
    apply hsub
    apply Finset.mem_union_left
    unfold termOf
    rw [if_neg (by simp [hq])]
    exact Finset.mem_singleton_self _
  · intro hy s hs he
    rw [if_pos hy] at hsub
    apply hsub
    apply Finset.mem_union_left
    apply Finset.mem_union_left
    unfold minusEps
    rw [Finset.mem_filter]
    exact ⟨hs, by simp [he]⟩

/-- Scenario A is an instance of claim C15 and gives `b` in FOLLOW(A). -/
theorem adjacency_closure_scenarioA :
    (∀ nt ∈ grammarA.nonTerminals, (firstA.firstSets nt).isSome = true) ∧
      (∃ fs n, compute grammarA firstA = .ok fs n ∧
        ∀ left pre x y post, (left, pre ++ x :: y :: post) ∈ altsOf grammarA →
          x ∈ grammarA.nonTerminals →
          (y ∉ grammarA.nonTerminals → is_eps y = false → is_quoted_terminal y = true →
            substr y 1 (y.length - 2) ∈ fs.get x) ∧
          (y ∉ grammarA.nonTerminals → is_eps y = false → is_quoted_terminal y = false →
            y ∈ fs.get x) ∧
          (y ∈ grammarA.nonTerminals → ∀ s ∈ (firstA.firstSets y).getD ∅, is_eps s = false →
            s ∈ fs.get x)) ∧
      ("S", [] ++ "A" :: "B" :: []) ∈ altsOf grammarA ∧
      "b" ∈ finalA.get "A" :=
  ⟨by decide, adjacency_closure grammarA firstA (by decide), by decide, by decide⟩

/-- Claim C16: with a FIRST entry for every nonterminal the computation
completes, and in the final map FOLLOW of the left-hand side of an alternative
lies in FOLLOW of every declared nonterminal `x` of the alternative whose later
symbols are all epsilon tokens or nullable nonterminals. -/
theorem trailer_inheritance (g : Grammar) (first : First)
    (hfirst : ∀ nt ∈ g.nonTerminals, (first.firstSets nt).isSome = true) :
    ∃ fs n, compute g first = .ok fs n ∧
      ∀ left pre x post, (left, pre ++ x :: post) ∈ altsOf g → x ∈ g.nonTerminals →
        (∀ t ∈ post, (t ∉ g.nonTerminals ∧ is_eps t = true) ∨
          (t ∈ g.nonTerminals ∧ ∃ s ∈ (first.firstSets t).getD ∅, is_eps s = true)) →
        fs.get left ⊆ fs.get x := by
  obtain ⟨fs, n, h⟩ := compute_ok g first (noRaise_of_complete g first hfirst)
  refine ⟨fs, n, h, ?_⟩
  intro left pre x post halt hx hpost
  have hsub := compute_suffix g first fs n h left x pre post halt hx
  have hv : seqVanishes g first post = true := by
    unfold seqVanishes
    rw [List.all_eq_true]
    intro t ht
    rcases hpost t ht with ⟨h1, h2⟩ | ⟨h1, h2⟩
    · rw [if_neg h1]; exact h2
    · rw [if_pos h1]; exact (isNullable_iff first t).mpr h2
  rw [hv, if_pos rfl] at hsub
  exact Finset.union_subset_right hsub

/-- Scenario C is an instance of claim C16: FOLLOW(S) lies in FOLLOW(A), and
both are {$}. -/
theorem trailer_inheritance_scenarioC :
    (∀ nt ∈ grammarC.nonTerminals, (firstC.firstSets nt).isSome = true) ∧
      (∃ fs n, compute grammarC firstC = .ok fs n ∧
        ∀ left pre x post, (left, pre ++ x :: post) ∈ altsOf grammarC →
          x ∈ grammarC.nonTerminals →
          (∀ t ∈ post, (t ∉ grammarC.nonTerminals ∧ is_eps t = true) ∨
            (t ∈ grammarC.nonTerminals ∧ ∃ s ∈ (firstC.firstSets t).getD ∅, is_eps s = true)) →
          fs.get left ⊆ fs.get x) ∧
      (compute grammarC firstC).follow "S" = some {"$"} ∧
      (compute grammarC firstC).follow "A" = some {"$"} :=
  ⟨by decide, trailer_inheritance grammarC firstC (by decide), by decide, by decide⟩

/-- Claim C17: in the scan of PASO B over an alternative, started with the
trailer `T0` (the snapshot of FOLLOW of the left-hand side), the set inserted into
FOLLOW of a declared nonterminal `x` is the non-epsilon part of FIRST of the
symbols to the right of `x`, united with `T0` exactly when all these symbols are
epsilon tokens or nullable nonterminals: the scan of the whole alternative is the
scan of the symbols to the right of `x`, this insertion, and the scan of the
symbols to the left of `x`. -/
theorem scan_trailer_is_first_of_suffix (g : Grammar) (first : First)
    (left x : String) (pre post : List String)
    (halt : (left, pre ++ x :: post) ∈ altsOf g) (hx : x ∈ g.nonTerminals)
    (T0 : Finset String) (st : State) :
    pasoB g first (pre ++ x :: post).reverse T0 st =
      pasoB g first pre.reverse
        (nextTrailer first x
          (firstOfSeq g first post ∪ (if seqVanishes g first post then T0 else ∅)))
        ((pasoB g first post.reverse T0 st).add x
          (firstOfSeq g first post ∪ (if seqVanishes g first post then T0 else ∅))) := by
  have htok := altsOf_mem g _ halt
  have hxt := htok x (by simp)
  rw [List.reverse_append, List.reverse_cons, List.append_assoc, pasoB_append,
    List.singleton_append, pasoB_cons, hxt.1, if_neg hxt.2, if_pos hx,
    trailerAfter_reverse g first T0 post (fun t ht => htok t (by simp [ht]))]

/-- The rule `S -> A B` of scenario A is an instance of claim C17: the set
inserted into FOLLOW(A) is FIRST(B) = {b}. -/
theorem scan_trailer_is_first_of_suffix_scenarioA :
    (("S", [] ++ "A" :: ["B"]) ∈ altsOf grammarA ∧ "A" ∈ grammarA.nonTerminals) ∧
      (pasoB grammarA firstA ([] ++ "A" :: ["B"]).reverse {"$"} ⟨seed grammarA, false⟩ =
        pasoB grammarA firstA ([] : List String).reverse
          (nextTrailer firstA "A"
            (firstOfSeq grammarA firstA ["B"] ∪
              (if seqVanishes grammarA firstA ["B"] then {"$"} else ∅)))
          ((pasoB grammarA firstA ["B"].reverse {"$"} ⟨seed grammarA, false⟩).add "A"
            (firstOfSeq grammarA firstA ["B"] ∪
              (if seqVanishes grammarA firstA ["B"] then {"$"} else ∅)))) ∧
      firstOfSeq grammarA firstA ["B"] ∪
        (if seqVanishes grammarA firstA ["B"] then {"$"} else ∅) = {"b"} :=
  ⟨by decide,
    scan_trailer_is_first_of_suffix grammarA firstA "S" "A" [] ["B"] (by decide) (by decide)
      {"$"} ⟨seed grammarA, false⟩,
    by decide⟩

/-- Claim C18: the computation raises exactly when an alternative of a
well-formed rule holds a declared nonterminal immediately followed by a declared
nonterminal, not of quoted form, without FIRST entry; otherwise it completes; and
the scan of Rule 2 reads a nonterminal without FIRST entry as not nullable with an
empty FIRST set, so that the trailer becomes empty. -/
theorem missing_first_entry_asymmetry (g : Grammar) (first : First) :
    (compute g first = .raised ↔
      ∃ left pre x y post, (left, pre ++ x :: y :: post) ∈ altsOf g ∧
        x ∈ g.nonTerminals ∧ y ∈ g.nonTerminals ∧ is_quoted_terminal y = false ∧
          first.firstSets y = none) ∧
    ((¬ ∃ left pre x y post, (left, pre ++ x :: y :: post) ∈ altsOf g ∧
        x ∈ g.nonTerminals ∧ y ∈ g.nonTerminals ∧ is_quoted_terminal y = false ∧
          first.firstSets y = none) → ∃ fs n, compute g first = .ok fs n) ∧
    ∀ X trailer, first.firstSets X = none → nextTrailer first X trailer = ∅ := by
  refine ⟨compute_raised_iff g first, ?_, fun X trailer h => nextTrailer_missing first X trailer h⟩
  intro hno
  apply compute_ok
  by_contra hnr
  exact hno ((compute_raised_iff g first).mp ((compute_raised g first).mpr hnr))

/-- The grammar `S -> A B` without FIRST entries is an instance of claim C18:
the computation raises, and Rule 2 empties the trailer at `A`. -/
theorem missing_first_entry_asymmetry_adjacent :
    (("S", [] ++ "A" :: "B" :: []) ∈ altsOf grammarAdjacent ∧
      "A" ∈ grammarAdjacent.nonTerminals ∧ "B" ∈ grammarAdjacent.nonTerminals ∧
      is_quoted_terminal "B" = false ∧ firstNone.firstSets "B" = none) ∧
      compute grammarAdjacent firstNone = .raised ∧
      nextTrailer firstNone "A" {"$"} = ∅ :=
  ⟨by decide,
    (missing_first_entry_asymmetry grammarAdjacent firstNone).1.mpr
      ⟨"S", [], "A", "B", [], by decide, by decide, by decide, by decide, rfl⟩,
    (missing_first_entry_asymmetry grammarAdjacent firstNone).2.2 "A" {"$"} rfl⟩

/-- Claim C13: for a non-empty bare token `z` that is not quoted, not a declared
nonterminal and not an epsilon alias, with `'z'` not a nonterminal name, and a
FIRST entry for every nonterminal, the computation completes with the same final
map on the grammar and on a grammar with the same nonterminals and start symbol
whose alternatives are those of the grammar with every `z` replaced by `'z'`; and
`z` is in FOLLOW of every nonterminal that immediately precedes it. -/
theorem unknown_token_is_terminal (g g1 : Grammar) (first : First) (z : String)
    (hfirst : ∀ nt ∈ g.nonTerminals, (first.firstSets nt).isSome = true)
    (hz1 : z ≠ "") (hz2 : is_quoted_terminal z = false) (hz3 : z ∉ g.nonTerminals)
    (hz4 : is_eps z = false) (hz5 : quoteToken z ∉ g.nonTerminals)
    (hnt : g1.nonTerminals = g.nonTerminals) (hinit : g1.initialState = g.initialState)
    (halts : altsOf g1 = (altsOf g).map (quoteIn z)) :
    ∃ fs n n1, compute g first = .ok fs n ∧ compute g1 first = .ok fs n1 ∧
      ∀ left pre B post, (left, pre ++ B :: z :: post) ∈ altsOf g → B ∈ g.nonTerminals →
        z ∈ fs.get B := by
  obtain ⟨fs, n, h⟩ := compute_ok g first (noRaise_of_complete g first hfirst)
  obtain ⟨fs1, n1, h1⟩ := compute_ok g1 first
    (noRaise_of_complete g1 first (by rw [hnt]; exact hfirst))
  have heq := compute_congr_closed g g1 first hnt hinit
    (closed_quoteIn g g1 first z hz1 hz2 hz3 hz4 hz5 hnt halts)
    (by
      intro k
      rw [halts]
      simp only [List.mem_map, exists_exists_and_eq_and]
      rfl)
    fs fs1 n n1 h h1
  subst heq
  refine ⟨fs1, n, n1, h, h1, ?_⟩
  intro left pre B post halt hB
  have hsub := compute_suffix g first fs1 n h left B pre (z :: post) halt hB
  rw [firstOfSeq_cons, if_neg hz3, if_neg (by simp [hz4])] at hsub
  apply hsub
  apply Finset.mem_union_left
  unfold termOf
  rw [if_neg (by simp [hz2])]
  exact Finset.mem_singleton_self _

/-- The grammars `S -> A z` and `S -> A 'z'` are an instance of claim C13 (scenario
D): both complete with the same map, and `z` is in FOLLOW(A). -/
theorem unknown_token_is_terminal_scenarioD :
    ((∀ nt ∈ grammarD.nonTerminals, (firstQuotedEps.firstSets nt).isSome = true) ∧
      "z" ≠ "" ∧ is_quoted_terminal "z" = false ∧ "z" ∉ grammarD.nonTerminals ∧
      is_eps "z" = false ∧ quoteToken "z" ∉ grammarD.nonTerminals ∧
      grammarD_quoted.nonTerminals = grammarD.nonTerminals ∧
      grammarD_quoted.initialState = grammarD.initialState ∧
      altsOf grammarD_quoted = (altsOf grammarD).map (quoteIn "z")) ∧
    (∃ fs n n1, compute grammarD firstQuotedEps = .ok fs n ∧
      compute grammarD_quoted firstQuotedEps = .ok fs n1 ∧
      ∀ left pre B post, (left, pre ++ B :: "z" :: post) ∈ altsOf grammarD →
        B ∈ grammarD.nonTerminals → "z" ∈ fs.get B) ∧
    (compute grammarD firstQuotedEps).follow "A" = some {"z"} :=
  ⟨by decide,
    unknown_token_is_terminal grammarD grammarD_quoted firstQuotedEps "z" (by decide)
      (by decide) (by decide) (by decide) (by decide) (by decide) (by decide) (by decide)
      (by decide),
    by decide⟩

/-- Claim C19: with a FIRST entry for every nonterminal, no nonterminal name of
quoted form, and the token `''` never immediately after a nonterminal in an
alternative, the computation with the PASO A loop removed completes with the same
final map as `compute`. -/
theorem rule1_subsumed_by_rule2 (g : Grammar) (first : First)
    (hfirst : ∀ nt ∈ g.nonTerminals, (first.firstSets nt).isSome = true)
    (hnames : ∀ nt ∈ g.nonTerminals, is_quoted_terminal nt = false)
    (hquote : ∀ left pre x post, (left, pre ++ x :: "''" :: post) ∈ altsOf g →
      x ∉ g.nonTerminals) :
    ∃ fs n n1, compute g first = .ok fs n ∧ computeB g first = .ok fs n1 := by
  obtain ⟨fs, n, h⟩ := compute_ok g first (noRaise_of_complete g first hfirst)
  obtain ⟨fs1, n1, h1⟩ := computeB_ok g first
  obtain ⟨a1, a2, a3⟩ := compute_least g first fs n h
  obtain ⟨b1, b2, b3⟩ := computeB_least g first fs1 n1 h1
  have heq : fs1 = fs := by
    apply followSets_ext
    · funext k
      apply Finset.Subset.antisymm
      · exact b3 fs.get a1 (closed_closedB g first _ a2) k
      · exact a3 fs1.get b1 (closedB_closed g first hnames hquote _ b2) k
    · intro k
      rw [compute_keys g first fs n h k, computeB_keys g first fs1 n1 h1 k]
  subst heq
  exact ⟨fs1, n, n1, h, h1⟩

/-- Scenario C is an instance of claim C19. -/
theorem rule1_subsumed_by_rule2_scenarioC :
    ((∀ nt ∈ grammarC.nonTerminals, (firstC.firstSets nt).isSome = true) ∧
      (∀ nt ∈ grammarC.nonTerminals, is_quoted_terminal nt = false) ∧
      (∀ left pre x post, (left, pre ++ x :: "''" :: post) ∈ altsOf grammarC →
        x ∉ grammarC.nonTerminals)) ∧
      (∃ fs n n1, compute grammarC firstC = .ok fs n ∧ computeB grammarC firstC = .ok fs n1) ∧
      (computeB grammarC firstC).follow "A" = some {"$"} :=
  have hq : ∀ left pre x post, (left, pre ++ x :: "''" :: post) ∈ altsOf grammarC →
      x ∉ grammarC.nonTerminals :=
    fun _ pre x post h =>
      (by decide : ∀ p ∈ altsOf grammarC, ∀ q ∈ p.2.zip p.2.tail, q.2 = "''" →
        q.1 ∉ grammarC.nonTerminals) _ h _ (adjacent_mem_zip x "''" post pre) rfl
  ⟨⟨by decide, by decide, hq⟩,
    rule1_subsumed_by_rule2 grammarC firstC (by decide) (by decide) hq,
    by decide⟩

end Follow
